import Mathlib

/-!
# MiniRM resource manager: a shallow embedding of `ResourceManager.cpp`

The development follows `src/ResourceManager/src/ResourceManager.cpp` and
`ResourceManager.h`.  Every member function of `MiniRM::ResourceManager` is a
Lean function on an explicit state record; `step` and `run` compose whole
calls, each run to its end before the next starts.

The locks of the source do not make every pair of calls exclude each other.
`asyncLoad` holds `m_asyncLoadMutex`; the worker reads the size of the job
table, the front of the queue and the job (lines 16 to 28) under `m_asyncMutex`
and `m_clearJobsMutex` and takes `m_asyncLoadMutex` only at line 32;
`clearResourceManager` holds `m_clearJobsMutex` only.  The two statements with
which `asyncLoad` creates a job (lines 234 and 235) are therefore also given as
steps of their own, `asyncLoadEmplace` and `asyncLoadPush`: the worker turn and
the reset can run on the state between them.  Other interleavings inside a
member function are outside this model.

Conventions of the embedding.

* `Resource*` values are indices into `heap`; `nullptr` is `none`.  A resource
  created by a format loader is appended to the heap, so a pointer is fresh
  exactly when it equals the heap length before the creation.
* `std::map` is a key-ordered association list (`mapFind`, `mapEmplace`,
  `mapErase`, `mapModify`), `std::queue` is a list whose head is `front()`,
  `std::vector` is a list.
* `size_t`, `long` and `unsigned int` are taken to have the same width, as on
  the 32-bit target for which `std::map<long, AsyncJob>` can be keyed by a
  `size_t` hash; conversions between them are then one-to-one, keys are only
  compared with each other, and keys and indices are natural numbers.
  Arithmetic on the `unsigned int` budget counters wraps modulo `2 ^ 32`.
* `AsyncJob::filepath` is a `const char*` into the caller's buffer; the model
  stores the string it points to at the time of the request.
* A continuation `std::function<void(Resource*)>` is an identifier; calling it
  appends an `Event.invoke` to the event list and has no other effect on the
  manager.  `RM_DEBUG_MESSAGE` appends an `Event.message`.
* Dereferencing `nullptr`, `front()` of an empty queue, dereferencing an
  `end()` iterator and the exception of `vector::at` are results
  `Except.error` of the step that performs them.
-/

namespace MiniRM

/-! ## Resources and format loaders (collaborators) -/

/-- Modelled from the spec: `Resources/Resource.h` is not among the sources.
A resource has a GUID, a manual reference count that starts at the value the
loader assigns, two sizes fixed at construction and a path stamped by the
cache.  `destroyed` records that `~Resource()` has run on the object. -/
structure Resource where
  m_GUID : Nat
  m_refCount : Int
  m_sizeCPU : Nat
  m_sizeGPU : Nat
  m_path : String
  destroyed : Bool
deriving DecidableEq, Repr

/-- Modelled from the spec: `refer()` increments the reference count. -/
def Resource.refer (r : Resource) : Resource :=
  { r with m_refCount := r.m_refCount + 1 }

/-- Modelled from the spec: `derefer()` decrements the reference count; its
return value is the count after the decrement. -/
def Resource.derefer (r : Resource) : Resource :=
  { r with m_refCount := r.m_refCount - 1 }

/-- Modelled from the spec: `setPath` stamps the path. -/
def Resource.setPath (r : Resource) (path : String) : Resource :=
  { r with m_path := path }

/-- The explicit destructor call `res->~Resource()`. -/
def Resource.destroy (r : Resource) : Resource :=
  { r with destroyed := true }

/-- What a decoder determines about the resource it constructs. -/
structure Decoded where
  refCount : Int
  sizeCPU : Nat
  sizeGPU : Nat
deriving DecidableEq, Repr

/-- Modelled from the spec: `FormatLoaders/FormatLoader.h` is not among the
sources.  A loader answers `extensionSupported(ext)` and decodes a path. -/
structure FormatLoader where
  extensionSupported : String → Bool
  decode : String → Decoded

/-- Modelled from the spec: `FL->load(path, GUID)` always yields a resource
and the key it is given is the identity of that resource (as in
`OBJLoader::load`, which passes `GUID` to the constructor and then sets the two
sizes). -/
def FormatLoader.load (FL : FormatLoader) (path : String) (GUID : Nat) : Resource :=
  { m_GUID := GUID
    m_refCount := (FL.decode path).refCount
    m_sizeCPU := (FL.decode path).sizeCPU
    m_sizeGPU := (FL.decode path).sizeGPU
    m_path := ""
    destroyed := false }

/-! ## Containers -/

/-- Lookup `m.find(key)`; `none` stands for `m.end()`. -/
def mapFind {α : Type} : List (Nat × α) → Nat → Option α
  | [], _ => none
  | (k, v) :: m, key => if k = key then some v else mapFind m key

/-- Insertion of a new entry at its place in ascending key order. -/
def mapInsert {α : Type} : List (Nat × α) → Nat → α → List (Nat × α)
  | [], key, v => [(key, v)]
  | (k, w) :: m, key, v =>
    if key < k then (key, v) :: (k, w) :: m else (k, w) :: mapInsert m key v

/-- The member `m.emplace(key, v)`: nothing happens when the key is present. -/
def mapEmplace {α : Type} (m : List (Nat × α)) (key : Nat) (v : α) : List (Nat × α) :=
  match mapFind m key with
  | some _ => m
  | none => mapInsert m key v

/-- The member `m.erase(it)` for the iterator found under `key`. -/
def mapErase {α : Type} (m : List (Nat × α)) (key : Nat) : List (Nat × α) :=
  m.filter (fun e => decide (e.1 ≠ key))

/-- In-place update through the iterator found under `key`. -/
def mapModify {α : Type} : List (Nat × α) → Nat → (α → α) → List (Nat × α)
  | [], _, _ => []
  | (k, v) :: m, key, f =>
    if k = key then (k, f v) :: m else (k, v) :: mapModify m key f

/-! ## Events -/

/-- The texts written through `RM_DEBUG_MESSAGE`, with the numbers they print. -/
inductive Message where
  | startedAsync (filepath : String)
  | doneAsync (filepath : String)
  | exceedsCPU (usageKB capacityKB : Nat)
  | exceedsGPU (usageKB capacityKB : Nat)
  | resourceInMemory
  | resourceLine (GUID : Nat) (path : String) (size : Nat)
  | removing (path : String)
deriving DecidableEq, Repr

/-- Observable actions of the manager, in the order in which they happen.
`decode i path GUID res`: loader number `i` of the registry ran
`load(path, GUID)` and its result is the object `res`.
`invoke c res n`: continuation `c` was called with `res`, whose reference count
at that moment was `n`.
`destroy res`: the destructor ran on `res`. -/
inductive Event where
  | decode (loader : Nat) (path : String) (GUID : Nat) (res : Nat)
  | invoke (callback : Nat) (res : Nat) (refCount : Int)
  | destroy (res : Nat)
  | message (m : Message)
deriving DecidableEq, Repr

/-- The kinds of undefined behaviour and exception a step can run into. -/
inductive Fault where
  | nullDereference
  | emptyQueueFront
  | endIteratorDereference
  | outOfRange
deriving DecidableEq, Repr

/-! ## The manager -/

/-- One entry of a job: `\x7b run, callback \x7d`. -/
structure AsyncJobCallback where
  run : Bool
  callback : Nat
deriving DecidableEq, Repr

/-- A pending job: the path and the callbacks in the order of their arrival. -/
structure AsyncJob where
  filepath : String
  callbacks : List AsyncJobCallback
deriving DecidableEq, Repr

/-- The handle returned by `asyncLoad`. -/
structure AsyncJobIndex where
  GUID : Nat
  IndexOfCallback : Nat
deriving DecidableEq, Repr

/-- The data members of `ResourceManager`, the heap the `Resource*` point into,
the event list, and the two library functions and the build flag the member
functions depend on (`extension` is
`fs::path(path).extension().generic_string()`, `debugBuild` is `_DEBUG`). -/
structure ResourceManager where
  heap : List Resource
  events : List Event
  m_resources : List (Nat × Nat)
  m_formatLoaders : List FormatLoader
  m_capacityCPU : Nat
  m_memUsageCPU : Nat
  m_capacityGPU : Nat
  m_memUsageGPU : Nat
  m_pathHasher : String → Nat
  m_initialized : Bool
  m_asyncJobQueue : List Nat
  m_asyncResJobs : List (Nat × AsyncJob)
  m_running : Bool
  extension : String → String
  debugBuild : Bool

/-- Width of `unsigned int`. -/
def UINT_WIDTH : Nat := 32

/-- Addition on `unsigned int`. -/
def uintAdd (a b : Nat) : Nat := (a + b) % 2 ^ UINT_WIDTH

/-- The constructor `ResourceManager()`, for given library functions. -/
def ResourceManager.new (hasher : String → Nat) (extension : String → String)
    (debugBuild : Bool) : ResourceManager :=
  { heap := []
    events := []
    m_resources := []
    m_formatLoaders := []
    m_capacityCPU := 0
    m_memUsageCPU := 0
    m_capacityGPU := 0
    m_memUsageGPU := 0
    m_pathHasher := hasher
    m_initialized := false
    m_asyncJobQueue := []
    m_asyncResJobs := []
    m_running := true
    extension := extension
    debugBuild := debugBuild }

/-- Appends one event. -/
def emit (s : ResourceManager) (e : Event) : ResourceManager :=
  { s with events := s.events ++ [e] }

/-- The call `res->refer()` on a heap object. -/
def referAt (s : ResourceManager) (res : Nat) : ResourceManager :=
  { s with heap := s.heap.modify Resource.refer res }

/-- Reference count of a heap object (0 for an address that holds nothing). -/
def refCountAt (s : ResourceManager) (res : Nat) : Int :=
  match s.heap[res]? with
  | some r => r.m_refCount
  | none => 0

/-- The member `init(capacityCPU, capacityGPU)`. -/
def init (s : ResourceManager) (capacityCPU capacityGPU : Nat) : ResourceManager :=
  if !s.m_initialized then
    { s with m_capacityCPU := capacityCPU, m_capacityGPU := capacityGPU, m_initialized := true }
  else s

/-- The member `registerFormatLoader(formatLoader)`. -/
def registerFormatLoader (s : ResourceManager) (formatLoader : FormatLoader) : ResourceManager :=
  { s with m_formatLoaders := s.m_formatLoaders ++ [formatLoader] }

/-- The lines "Resource GUID ... Path ... Size ..." printed for every entry of
`m_resources`; `size` selects `getSizeCPU` or `getSizeGPU`. -/
def resourceLines (heap : List Resource) (size : Resource → Nat) :
    List (Nat × Nat) → List Event
  | [] => []
  | (_, p) :: m =>
    match heap[p]? with
    | some r => Event.message (.resourceLine r.m_GUID r.m_path (size r)) :: resourceLines heap size m
    | none => resourceLines heap size m

/-- The body of the loop of `load` for a loader that supports the extension
(lines 151 to 186).  Loader number `i` decodes, the result is stamped, referred
to once, offered to the map and accounted in both counters.  The second
budget test repeats the comparison of the CPU counter, as in the source. -/
def loadWith (s : ResourceManager) (FL : FormatLoader) (i : Nat) (path : String)
    (hashedPath : Nat) : ResourceManager × Nat :=
  let res := s.heap.length
  let r := ((FL.load path hashedPath).setPath path).refer
  let s1 : ResourceManager :=
    { s with
      heap := s.heap ++ [r]
      events := s.events ++ [Event.decode i path hashedPath res]
      m_resources := mapEmplace s.m_resources hashedPath res
      m_memUsageCPU := uintAdd s.m_memUsageCPU r.m_sizeCPU }
  let s2 : ResourceManager :=
    if s1.m_memUsageCPU > s1.m_capacityCPU then
      { s1 with
        events := s1.events
          ++ [Event.message (.exceedsCPU (s1.m_memUsageCPU / 1024) (s1.m_capacityCPU / 1024))]
          ++ (if s1.debugBuild then []
              else Event.message .resourceInMemory
                :: resourceLines s1.heap Resource.m_sizeCPU s1.m_resources) }
    else s1
  let s3 : ResourceManager := { s2 with m_memUsageGPU := uintAdd s2.m_memUsageGPU r.m_sizeGPU }
  let s4 : ResourceManager :=
    if s3.m_memUsageCPU > s3.m_capacityCPU then
      { s3 with
        events := s3.events
          ++ [Event.message (.exceedsGPU (s3.m_memUsageGPU / 1024) (s3.m_capacityGPU / 1024))]
          ++ (if s3.debugBuild then []
              else Event.message .resourceInMemory
                :: resourceLines s3.heap Resource.m_sizeGPU s3.m_resources) }
    else s3
  (s4, res)

/-- The loop `for (auto FL : m_formatLoaders)` of `load`, from loader number
`i` on; `res` is the local variable of `load`.  The loop runs to the end of the
registry: no iteration leaves it. -/
def loadLoop (path : String) (hashedPath : Nat) (ext : String) :
    List FormatLoader → Nat → ResourceManager → Option Nat → ResourceManager × Option Nat
  | [], _, s, res => (s, res)
  | FL :: rest, i, s, res =>
    if FL.extensionSupported ext then
      loadLoop path hashedPath ext rest (i + 1) (loadWith s FL i path hashedPath).1
        (some (loadWith s FL i path hashedPath).2)
    else loadLoop path hashedPath ext rest (i + 1) s res

/-- The member `load(path)`: the new state and the returned pointer. -/
def load (s : ResourceManager) (path : String) : ResourceManager × Option Nat :=
  let hashedPath := s.m_pathHasher path
  match mapFind s.m_resources hashedPath with
  | some res => (referAt s res, some res)
  | none =>
    -- under `m_mutex`: the second lookup
    match mapFind s.m_resources hashedPath with
    | some res => (referAt s res, some res)
    | none =>
      loadLoop path hashedPath (s.extension path) s.m_formatLoaders 0 s none

/-- The member `decrementReference(key)`.  A map entry whose pointer lies
outside the heap does not arise from the operations of the manager; the model
leaves the state alone for such an entry. -/
def decrementReference (s : ResourceManager) (key : Nat) : ResourceManager :=
  match mapFind s.m_resources key with
  | none => s
  | some res =>
    match s.heap[res]? with
    | none => s
    | some r =>
      if r.derefer.m_refCount = 0 then
        { s with
          heap := s.heap.set res r.derefer.destroy
          events := s.events ++ [Event.message (.removing r.m_path), Event.destroy res]
          m_resources := mapErase s.m_resources key }
      else { s with heap := s.heap.set res r.derefer }

/-- The calls `res.second->~Resource()` for every entry of a map, in map
order. -/
def destroyAll : List (Nat × Nat) → ResourceManager → ResourceManager
  | [], s => s
  | (_, res) :: m, s =>
    destroyAll m
      { s with
        heap := s.heap.modify Resource.destroy res
        events := s.events ++ [Event.destroy res] }

/-- The member `clearResourceManager()`. -/
def clearResourceManager (s : ResourceManager) : ResourceManager :=
  let s1 : ResourceManager := { s with m_asyncJobQueue := [], m_asyncResJobs := [] }
  let s2 := destroyAll s1.m_resources s1
  { s2 with m_resources := [], m_memUsageCPU := 0, m_memUsageGPU := 0 }

/-- The member `cleanup()`: the worker is stopped, the registry is emptied and
every resident resource is destroyed; the entries of `m_resources` stay. -/
def cleanup (s : ResourceManager) : ResourceManager :=
  let s1 : ResourceManager := { s with m_running := false, m_formatLoaders := [] }
  destroyAll s1.m_resources s1

/-- The two statements `res->refer(); callback(res);`. -/
def deliver (s : ResourceManager) (callback : Nat) (res : Nat) : ResourceManager :=
  emit (referAt s res) (Event.invoke callback res (refCountAt (referAt s res) res))

/-- The assignment `run = false` on one entry. -/
def AsyncJobCallback.cancel (c : AsyncJobCallback) : AsyncJobCallback :=
  { c with run := false }

/-- The call `callbacks.push_back(AsyncJobCallback\x7b true, callback \x7d)`. -/
def AsyncJob.push (j : AsyncJob) (callback : Nat) : AsyncJob :=
  { j with callbacks := j.callbacks ++ [{ run := true, callback := callback }] }

/-- The assignment `callbacks.at(i).run = false`, for `i` in range. -/
def AsyncJob.cancel (j : AsyncJob) (i : Nat) : AsyncJob :=
  { j with callbacks := j.callbacks.modify AsyncJobCallback.cancel i }

/-- The assignment `callback.run = false` for every entry of a job. -/
def AsyncJob.cancelAll (j : AsyncJob) : AsyncJob :=
  { j with callbacks := j.callbacks.map AsyncJobCallback.cancel }

/-- The member `asyncLoad(path, callback)`: the new state and the handle. -/
def asyncLoad (s : ResourceManager) (path : String) (callback : Nat) :
    ResourceManager × AsyncJobIndex :=
  let hashedPath := s.m_pathHasher path
  match mapFind s.m_resources hashedPath with
  | some res => (deliver s callback res, { GUID := 0, IndexOfCallback := 0 })
  | none =>
    -- under `m_asyncLoadMutex`: the second lookup
    match mapFind s.m_resources hashedPath with
    | some res => (deliver s callback res, { GUID := 0, IndexOfCallback := 0 })
    | none =>
      match mapFind s.m_asyncResJobs hashedPath with
      | some job =>
        ({ s with
           m_asyncResJobs := mapModify s.m_asyncResJobs hashedPath
             (fun j => j.push callback) },
         { GUID := hashedPath, IndexOfCallback := (job.push callback).callbacks.length - 1 })
      | none =>
        ({ s with
           m_asyncResJobs := mapEmplace s.m_asyncResJobs hashedPath
             { filepath := path, callbacks := [{ run := true, callback := callback }] }
           m_asyncJobQueue := s.m_asyncJobQueue ++ [hashedPath] },
         { GUID := hashedPath, IndexOfCallback := 0 })

/-- The member `removeAsyncJob(index)`; `callbacks.at` throws when the index is
not below the length of the list. -/
def removeAsyncJob (s : ResourceManager) (index : AsyncJobIndex) :
    Except Fault ResourceManager :=
  match mapFind s.m_asyncResJobs index.GUID with
  | none => .ok s
  | some job =>
    if index.IndexOfCallback < job.callbacks.length then
      .ok { s with
            m_asyncResJobs := mapModify s.m_asyncResJobs index.GUID
              (fun j => j.cancel index.IndexOfCallback) }
    else .error .outOfRange

/-- The member `removeAllAsyncJobs()`. -/
def removeAllAsyncJobs (s : ResourceManager) : ResourceManager :=
  { s with
    m_asyncResJobs := s.m_asyncResJobs.map
      (fun e => (e.1, e.2.cancelAll)) }

/-- The loop over the callbacks of the current job in `asyncLoadStart` (lines
34 to 41): `res->refer()` on a null `res` is a fault. -/
def runCallbacks (res : Option Nat) :
    List AsyncJobCallback → ResourceManager → Except Fault ResourceManager
  | [], s => .ok s
  | c :: rest, s =>
    if c.run then
      match res with
      | none => .error .nullDereference
      | some p => runCallbacks res rest (deliver s c.callback p)
    else runCallbacks res rest s

/-- One turn of the loop of `asyncLoadStart` after the wait (lines 22 to 49).
With no job in the table, or after `cleanup`, the turn does nothing.  The call
`res->getGUID()` of line 44 reads the heap cell of `res`; it is a fault when
`res` is null (or points outside the heap). -/
def asyncLoadStart (s : ResourceManager) : Except Fault ResourceManager :=
  if s.m_asyncResJobs.length > 0 ∧ s.m_running = true then
    match s.m_asyncJobQueue with
    | [] => .error .emptyQueueFront
    | GUID :: queue =>
      let s1 : ResourceManager := { s with m_asyncJobQueue := queue }
      match mapFind s1.m_asyncResJobs GUID with
      | none => .error .endIteratorDereference
      | some currJob =>
        let filepath := currJob.filepath
        let s2 := emit s1 (Event.message (.startedAsync filepath))
        let s3 := (load s2 filepath).1
        let res := (load s2 filepath).2
        match runCallbacks res currJob.callbacks s3 with
        | .error f => .error f
        | .ok s4 =>
          match res with
          | none => .error .nullDereference
          | some p =>
            match s4.heap[p]? with
            | none => .error .nullDereference
            | some r =>
              let s5 := decrementReference s4 r.m_GUID
              let s6 : ResourceManager :=
                { s5 with m_asyncResJobs := mapErase s5.m_asyncResJobs GUID }
              .ok (emit s6 (Event.message (.doneAsync filepath)))
  else .ok s

/-! ## Sequences of operations -/

/-- The public operations and the turn of the worker. -/
inductive Op where
  | init (capacityCPU capacityGPU : Nat)
  | registerFormatLoader (formatLoader : FormatLoader)
  | load (path : String)
  | asyncLoad (path : String) (callback : Nat)
  | removeAsyncJob (index : AsyncJobIndex)
  | removeAllAsyncJobs
  | decrementReference (key : Nat)
  | clearResourceManager
  | cleanup
  | worker

/-- The effect of one operation on the state. -/
def step (s : ResourceManager) : Op → Except Fault ResourceManager
  | .init c g => .ok (init s c g)
  | .registerFormatLoader FL => .ok (registerFormatLoader s FL)
  | .load path => .ok (load s path).1
  | .asyncLoad path callback => .ok (asyncLoad s path callback).1
  | .removeAsyncJob index => removeAsyncJob s index
  | .removeAllAsyncJobs => .ok (removeAllAsyncJobs s)
  | .decrementReference key => .ok (decrementReference s key)
  | .clearResourceManager => .ok (clearResourceManager s)
  | .cleanup => .ok (cleanup s)
  | .worker => asyncLoadStart s

/-- A sequence of operations, stopped by the first fault. -/
def run (s : ResourceManager) : List Op → Except Fault ResourceManager
  | [] => .ok s
  | op :: ops =>
    match step s op with
    | .error f => .error f
    | .ok s1 => run s1 ops

/-- Repetition of `load(path)`: the final state and the pointers returned, in
call order. -/
def loadN (s : ResourceManager) (path : String) : Nat → ResourceManager × List (Option Nat)
  | 0 => (s, [])
  | n + 1 =>
    let r := loadN (load s path).1 path n
    (r.1, (load s path).2 :: r.2)

/-- Repetition of `decrementReference(key)`. -/
def decrementReferenceN (s : ResourceManager) (key : Nat) : Nat → ResourceManager
  | 0 => s
  | n + 1 => decrementReferenceN (decrementReference s key) key n

/-- The calls `asyncLoad(path, c)` for the continuations of a list, in list
order: the final state and the handles returned. -/
def asyncLoadAll (s : ResourceManager) (path : String) :
    List Nat → ResourceManager × List AsyncJobIndex
  | [] => (s, [])
  | c :: cs =>
    let r := asyncLoadAll (asyncLoad s path c).1 path cs
    (r.1, (asyncLoad s path c).2 :: r.2)

/-- The decode events of an event list. -/
def decodes (es : List Event) : List Event :=
  es.filter (fun e => match e with
    | .decode _ _ _ _ => true
    | _ => false)

/-- The continuations called in an event list, in call order. -/
def invoked : List Event → List Nat
  | [] => []
  | .invoke c _ _ :: es => c :: invoked es
  | _ :: es => invoked es

/-- The fault of a result, if it is one. -/
def faultOf {α : Type} : Except Fault α → Option Fault
  | .ok _ => none
  | .error f => some f

/-! ## Concrete managers used by the evaluations -/

/-- The last four characters of a path: the extension of paths like "a.obj". -/
def ext4 (p : String) : String := String.mk (p.data.drop (p.data.length - 4))

/-- A loader for ".obj" that constructs resources with reference count 0. -/
def objA : FormatLoader :=
  { extensionSupported := fun e => decide (e = ".obj")
    decode := fun _ => { refCount := 0, sizeCPU := 600, sizeGPU := 100 } }

/-- A second loader that also claims ".obj". -/
def objB : FormatLoader :=
  { extensionSupported := fun e => decide (e = ".obj")
    decode := fun _ => { refCount := 0, sizeCPU := 50, sizeGPU := 7 } }

/-- A loader for ".png". -/
def pngA : FormatLoader :=
  { extensionSupported := fun e => decide (e = ".png")
    decode := fun _ => { refCount := 0, sizeCPU := 10, sizeGPU := 20 } }

/-- The empty manager with path length as hash. -/
def rm0 : ResourceManager := ResourceManager.new String.length ext4 true

/-- One ".obj" loader registered. -/
def rmOne : ResourceManager := registerFormatLoader rm0 objA

/-- Two loaders registered for ".obj". -/
def rmTwo : ResourceManager := registerFormatLoader rmOne objB

/-- A ".png" loader followed by two ".obj" loaders. -/
def rmThree : ResourceManager :=
  registerFormatLoader (registerFormatLoader (registerFormatLoader rm0 pngA) objA) objB

/-- Number of entries a map holds under a key. -/
def keyCount {α : Type} (m : List (Nat × α)) (key : Nat) : Nat :=
  (m.map Prod.fst).count key

/-- The entries `\x7b true, c \x7d` for the continuations of a list. -/
def activeCallbacks (cs : List Nat) : List AsyncJobCallback :=
  cs.map (fun c => { run := true, callback := c })

/-- The handles `(GUID, start)`, `(GUID, start + 1)`, ... -/
def handlesFrom (GUID : Nat) : Nat → Nat → List AsyncJobIndex
  | _, 0 => []
  | start, n + 1 => { GUID := GUID, IndexOfCallback := start } :: handlesFrom GUID (start + 1) n

/-- The manager `rmOne` after two `load("a.obj")`: one resident object with
reference count 2. -/
def rmLoadedTwice : ResourceManager := (loadN rmOne "a.obj" 2).1

/-- The continuations that wait in a job table, job by job in map order. -/
def waiting : List (Nat × AsyncJob) → List Nat
  | [] => []
  | (_, job) :: m => job.callbacks.map AsyncJobCallback.callback ++ waiting m

/-- The continuations passed to `asyncLoad` in a sequence of operations. -/
def asyncLoadCallbacks : List Op → List Nat
  | [] => []
  | .asyncLoad _ c :: ops => c :: asyncLoadCallbacks ops
  | _ :: ops => asyncLoadCallbacks ops

/-- The manager `rmOne` with one pending job: continuation 7 waits for
"a.obj". -/
def rmPending : ResourceManager := (asyncLoad rmOne "a.obj" 7).1

/-- The budget warnings for the CPU counter in an event list. -/
def cpuWarnings (es : List Event) : List Event :=
  es.filter (fun e => match e with
    | .message (.exceedsCPU _ _) => true
    | _ => false)

/-- The budget warnings for the GPU counter in an event list. -/
def gpuWarnings (es : List Event) : List Event :=
  es.filter (fun e => match e with
    | .message (.exceedsGPU _ _) => true
    | _ => false)

/-- The paths of the jobs the worker started, in the order of the
"Started Async Loading" messages. -/
def startedPaths : List Event → List String
  | [] => []
  | .message (.startedAsync p) :: es => p :: startedPaths es
  | _ :: es => startedPaths es

/-- The manager `rmOne` with capacities 1000 (CPU) and 50 (GPU). -/
def rmTightGPU : ResourceManager := init rmOne 1000 50

/-- The manager `rmOne` with capacities 500 (CPU) and 1000 (GPU). -/
def rmTightCPU : ResourceManager := init rmOne 500 1000

/-- A loader for ".big" whose objects have a size of `2 ^ 31` bytes on each
side. -/
def objBig : FormatLoader :=
  { extensionSupported := fun e => decide (e = ".big")
    decode := fun _ => { refCount := 0, sizeCPU := 2147483648, sizeGPU := 2147483648 } }

/-- The empty manager with the ".big" loader registered. -/
def rmBig : ResourceManager := registerFormatLoader rm0 objBig

/-- The events `load` can record: decodes, budget warnings and the listing that
follows a warning. -/
def isLoadEvent : Event → Bool
  | .decode _ _ _ _ => true
  | .message (.exceedsCPU _ _) => true
  | .message (.exceedsGPU _ _) => true
  | .message .resourceInMemory => true
  | .message (.resourceLine _ _ _) => true
  | _ => false

/-- The parts of the state that no request, release or worker turn changes:
the registry, the two library functions, the running flag, the capacities and
the build flag. -/
def sameConfig (s t : ResourceManager) : Prop :=
  t.m_formatLoaders = s.m_formatLoaders ∧ t.m_pathHasher = s.m_pathHasher ∧
  t.extension = s.extension ∧ t.m_running = s.m_running ∧
  t.m_capacityCPU = s.m_capacityCPU ∧ t.m_capacityGPU = s.m_capacityGPU ∧
  t.debugBuild = s.debugBuild

/-- The keys of a map, in map order. -/
def mapKeys {α : Type} (m : List (Nat × α)) : List Nat := m.map Prod.fst

/-- The queue holds no hash twice, and the hashes in the queue are the keys of
the job table. -/
def queueConsistent (s : ResourceManager) : Prop :=
  s.m_asyncJobQueue.Nodup ∧ ∀ k, k ∈ s.m_asyncJobQueue ↔ k ∈ mapKeys s.m_asyncResJobs

/-- Every entry of the cache map points to a heap object with a positive
reference count and with the key as its GUID, and no two entries point to the
same object. -/
def residentOk (s : ResourceManager) : Prop :=
  (s.m_resources.map Prod.snd).Nodup ∧
  ∀ e ∈ s.m_resources, ∃ r, s.heap[e.2]? = some r ∧ 0 < r.m_refCount ∧ r.m_GUID = e.1

/-- Every loader of a list constructs its objects with a reference count that
is not negative. -/
def loadersNonneg (loaders : List FormatLoader) : Prop :=
  ∀ FL ∈ loaders, ∀ path, 0 ≤ (FL.decode path).refCount

/-- The loaders registered by a sequence of operations. -/
def registeredLoaders : List Op → List FormatLoader
  | [] => []
  | .registerFormatLoader FL :: ops => FL :: registeredLoaders ops
  | _ :: ops => registeredLoaders ops

/-- The job table holds a job under `key` after every operation of the
sequence (a sequence that runs into a fault is not checked further). -/
def pendingThroughout (key : Nat) (s : ResourceManager) : List Op → Bool
  | [] => true
  | op :: ops =>
    match step s op with
    | .ok s1 => (mapFind s1.m_asyncResJobs key).isSome && pendingThroughout key s1 ops
    | .error _ => true

/-- The calls `asyncLoad(path, c)` for a list of requests `(path, c)`, in list
order. -/
def asyncLoadRequests (s : ResourceManager) : List (String × Nat) → ResourceManager
  | [] => s
  | r :: reqs => asyncLoadRequests (asyncLoad s r.1 r.2).1 reqs

/-- The distinct members of a list, in the order of their first occurrence. -/
def firstOccurrences (hs : List Nat) : List Nat :=
  hs.foldl (fun acc h => if h ∈ acc then acc else acc ++ [h]) []

/-- The order of service for a list of requests `(path, c)`: the distinct
path hashes in the order of their first request and, for each hash, the
continuations of the requests with that hash in request order. -/
def serviceOrder (hash : String → Nat) (reqs : List (String × Nat)) : List Nat :=
  (firstOccurrences (reqs.map (fun r => hash r.1))).flatMap
    (fun h => (reqs.filter (fun r => decide (hash r.1 = h))).map Prod.snd)

/-- The continuations the worker calls for the job stored under a key: the
active entries in list order. -/
def activeOf (jobs : List (Nat × AsyncJob)) (key : Nat) : List Nat :=
  match mapFind jobs key with
  | some job => (job.callbacks.filter AsyncJobCallback.run).map AsyncJobCallback.callback
  | none => []

/-- The statement of line 234 of `asyncLoad`, reached when the path is not
resident and has no job: the new job, with the one callback, is put into the
job table.  The queue is not touched yet. -/
def asyncLoadEmplace (s : ResourceManager) (path : String) (callback : Nat) : ResourceManager :=
  { s with
    m_asyncResJobs := (mapEmplace s.m_asyncResJobs (s.m_pathHasher path)
      { filepath := path, callbacks := [{ run := true, callback := callback }] }) }

/-- The statement of line 235 of `asyncLoad`: the hash of the path is pushed
onto the queue. -/
def asyncLoadPush (s : ResourceManager) (path : String) : ResourceManager :=
  { s with m_asyncJobQueue := s.m_asyncJobQueue ++ [s.m_pathHasher path] }

/-! ## Containers: lookups after updates -/

theorem mapFind_mapInsert_self {α : Type} (m : List (Nat × α)) (key : Nat) (v : α)
    (h : mapFind m key = none) : mapFind (mapInsert m key v) key = some v := by
  induction m with
  | nil => simp [mapInsert, mapFind]
  | cons e m ih =>
    obtain ⟨k, w⟩ := e
    by_cases hk : k = key
    · simp [mapFind, hk] at h
    · simp only [mapFind, hk, if_false] at h
      by_cases hlt : key < k
      · simp [mapInsert, hlt, mapFind]
      · simp [mapInsert, hlt, mapFind, hk, ih h]

theorem mapFind_mapInsert_ne {α : Type} (m : List (Nat × α)) (key key2 : Nat) (v : α)
    (hne : key ≠ key2) : mapFind (mapInsert m key v) key2 = mapFind m key2 := by
  induction m with
  | nil => simp [mapInsert, mapFind, hne]
  | cons e m ih =>
    obtain ⟨k, w⟩ := e
    by_cases hlt : key < k
    · simp [mapInsert, hlt, mapFind, hne]
    · by_cases hk : k = key2
      · subst hk
        simp [mapInsert, hlt, mapFind]
      · simp [mapInsert, hlt, mapFind, hk, ih]

theorem mapFind_mapEmplace_absent {α : Type} (m : List (Nat × α)) (key : Nat) (v : α)
    (h : mapFind m key = none) : mapFind (mapEmplace m key v) key = some v := by
  simp [mapEmplace, h, mapFind_mapInsert_self]

theorem mapEmplace_present {α : Type} (m : List (Nat × α)) (key : Nat) (v w : α)
    (h : mapFind m key = some w) : mapEmplace m key v = m := by
  simp [mapEmplace, h]

theorem mapFind_mapEmplace_ne {α : Type} (m : List (Nat × α)) (key key2 : Nat) (v : α)
    (hne : key ≠ key2) : mapFind (mapEmplace m key v) key2 = mapFind m key2 := by
  unfold mapEmplace
  split
  · rfl
  · exact mapFind_mapInsert_ne m key key2 v hne

theorem mapFind_mapErase_self {α : Type} (m : List (Nat × α)) (key : Nat) :
    mapFind (mapErase m key) key = none := by
  induction m with
  | nil => rfl
  | cons e m ih =>
    obtain ⟨k, w⟩ := e
    by_cases hk : k = key
    · simpa [mapErase, hk] using ih
    · simpa [mapErase, hk, mapFind] using ih

theorem mapFind_mapErase_ne {α : Type} (m : List (Nat × α)) (key key2 : Nat)
    (hne : key ≠ key2) : mapFind (mapErase m key) key2 = mapFind m key2 := by
  induction m with
  | nil => rfl
  | cons e m ih =>
    obtain ⟨k, w⟩ := e
    by_cases hk : k = key
    · have : k ≠ key2 := by rw [hk]; exact hne
      simpa [mapErase, hk, mapFind, hne] using ih
    · by_cases hk2 : k = key2
      · subst hk2
        simp [mapErase, hk, mapFind]
      · simpa [mapErase, hk, mapFind, hk2] using ih

theorem mapFind_mapModify_self {α : Type} (m : List (Nat × α)) (key : Nat) (f : α → α) :
    mapFind (mapModify m key f) key = (mapFind m key).map f := by
  induction m with
  | nil => rfl
  | cons e m ih =>
    obtain ⟨k, w⟩ := e
    by_cases hk : k = key
    · simp [mapModify, hk, mapFind]
    · simp [mapModify, hk, mapFind, ih]

theorem mapFind_mapModify_ne {α : Type} (m : List (Nat × α)) (key key2 : Nat) (f : α → α)
    (hne : key ≠ key2) : mapFind (mapModify m key f) key2 = mapFind m key2 := by
  induction m with
  | nil => rfl
  | cons e m ih =>
    obtain ⟨k, w⟩ := e
    by_cases hk : k = key
    · have : ¬ key = key2 := hne
      simp [mapModify, hk, mapFind, this]
    · by_cases hk2 : k = key2
      · subst hk2
        simp [mapModify, hk, mapFind]
      · simp [mapModify, hk, mapFind, hk2, ih]

/-! ## The loop of `load` -/

theorem loadLoop_unsupported (path : String) (hashedPath : Nat) (ext : String)
    (loaders : List FormatLoader) (i : Nat) (s : ResourceManager) (res : Option Nat)
    (h : ∀ FL ∈ loaders, FL.extensionSupported ext = false) :
    loadLoop path hashedPath ext loaders i s res = (s, res) := by
  induction loaders generalizing i with
  | nil => rfl
  | cons FL rest ih =>
    have h1 : FL.extensionSupported ext = false := h FL (List.mem_cons_self _ _)
    simp only [loadLoop, h1]
    exact ih (i + 1) (fun F hF => h F (List.mem_cons_of_mem _ hF))

/-- C8.  For a path that is not resident and whose extension no registered
loader supports, `load` returns the null pointer and the state it leaves is the
state it found: no loader is invoked (no event is recorded), and the cache map,
both budget counters, the job table and the job queue are unchanged. -/
theorem load_unsupported_is_noop (s : ResourceManager) (P : String)
    (hres : mapFind s.m_resources (s.m_pathHasher P) = none)
    (hext : ∀ FL ∈ s.m_formatLoaders, FL.extensionSupported (s.extension P) = false) :
    load s P = (s, none) := by
  simp only [load, hres]
  exact loadLoop_unsupported _ _ _ _ _ _ _ hext

theorem load_unsupported_is_noop_witness :
    mapFind rmOne.m_resources (rmOne.m_pathHasher "a.xyz") = none ∧
    load rmOne "a.xyz" = (rmOne, none) :=
  ⟨by decide, load_unsupported_is_noop rmOne "a.xyz" (by decide) (by decide)⟩

/-- C9.  `decrementReference` on a key that is not in the cache map returns the
state it was given (the map, every reference count, both counters, the job
table and the queue are the same, no event is recorded, and the function has no
failing result), and so does any number of repetitions; this covers a key that
was released to zero and erased before. -/
theorem decrementReference_absent_is_noop (s : ResourceManager) (key : Nat)
    (habs : mapFind s.m_resources key = none) :
    decrementReference s key = s ∧ ∀ n, decrementReferenceN s key n = s := by
  have h1 : decrementReference s key = s := by simp [decrementReference, habs]
  refine ⟨h1, ?_⟩
  intro n
  induction n with
  | zero => rfl
  | succ n ih => simp only [decrementReferenceN, h1, ih]

theorem decrementReference_absent_is_noop_witness :
    mapFind (decrementReference (load rmOne "a.obj").1 5).m_resources 5 = none ∧
    decrementReference (decrementReference (load rmOne "a.obj").1 5) 5
      = decrementReference (load rmOne "a.obj").1 5 ∧
    ∀ n, decrementReferenceN (decrementReference (load rmOne "a.obj").1 5) 5 n
      = decrementReference (load rmOne "a.obj").1 5 :=
  ⟨by decide, decrementReference_absent_is_noop _ 5 (by decide)⟩

/-- C1 (evaluation at the failing input).  With two registered loaders that
both support ".obj", two consecutive `load("a.obj")` on the empty cache run two
decodes, and the two calls return different objects: the first returns the
object of the second loader, which is not in the cache map and whose reference
count stays 1, the second returns the object of the first loader. -/
theorem load_twice_two_loaders_decodes_twice :
    decodes (loadN rmTwo "a.obj" 2).1.events
      = [Event.decode 0 "a.obj" 5 0, Event.decode 1 "a.obj" 5 1] ∧
    (loadN rmTwo "a.obj" 2).2 = [some 1, some 0] ∧
    refCountAt (loadN rmTwo "a.obj" 2).1 1 = 1 := by
  decide

/-- C2 (evaluation at the failing input).  With a ".png" loader followed by two
".obj" loaders, `load("b.obj")` invokes both ".obj" loaders (numbers 1 and 2),
returns the object of the later one (pointer 1) and stores the object of the
earlier one (pointer 0) in the cache map. -/
theorem load_invokes_every_supporting_loader :
    decodes (load rmThree "b.obj").1.events
      = [Event.decode 1 "b.obj" 5 0, Event.decode 2 "b.obj" 5 1] ∧
    (load rmThree "b.obj").2 = some 1 ∧
    mapFind (load rmThree "b.obj").1.m_resources (rmThree.m_pathHasher "b.obj") = some 0 := by
  decide

/-- C5 (evaluation at the failing input).  With two loaders for ".obj", the
worker that serves the job of `asyncLoad("a.obj", 7)` hands continuation 7 the
object of the second loader (pointer 1, reference count 2), which is not in the
cache map, and releases the temporary reference on the object of the first
loader (pointer 0), which is thereby destroyed and erased: afterwards nothing
is resident under the hash and the object handed out has count 2, not 0 + 1. -/
theorem worker_two_loaders_delivers_unregistered_object :
    (asyncLoadStart (asyncLoad rmTwo "a.obj" 7).1).toOption.map
        (fun s => s.events.filter (fun e => decide (e = Event.invoke 7 1 2)))
      = some [Event.invoke 7 1 2] ∧
    (asyncLoadStart (asyncLoad rmTwo "a.obj" 7).1).toOption.map (fun s => invoked s.events)
      = some [7] ∧
    (asyncLoadStart (asyncLoad rmTwo "a.obj" 7).1).toOption.map (fun s => s.m_resources)
      = some [] ∧
    (asyncLoadStart (asyncLoad rmTwo "a.obj" 7).1).toOption.map (fun s => refCountAt s 1)
      = some 2 ∧
    (asyncLoadStart (asyncLoad rmTwo "a.obj" 7).1).toOption.map
        (fun s => s.heap.map Resource.destroyed)
      = some [true, false] := by
  decide

/-- C7 (evaluation at the failing input).  With no loader for ".xyz", the
worker turn that serves the job of `asyncLoad("a.xyz", 7)` ends in a null
dereference: `load` returned the null pointer and the turn calls
`res->refer()` on it. -/
theorem worker_unsupported_extension_faults :
    faultOf (asyncLoadStart (asyncLoad rmOne "a.xyz" 7).1) = some Fault.nullDereference ∧
    (load (asyncLoad rmOne "a.xyz" 7).1 "a.xyz").2 = none := by
  decide

/-- C6 (evaluation at the failing input).  Two continuations wait for
"a.xyz", which no loader supports; the first is cancelled through its handle.
The cancellation succeeds, and the worker turn that serves the job ends in a
null dereference before continuation 2, which is still active, is called. -/
theorem worker_after_cancel_unsupported_faults :
    faultOf (run rmOne [Op.asyncLoad "a.xyz" 1, Op.asyncLoad "a.xyz" 2,
      Op.removeAsyncJob { GUID := 5, IndexOfCallback := 0 }]) = none ∧
    (run rmOne [Op.asyncLoad "a.xyz" 1, Op.asyncLoad "a.xyz" 2,
      Op.removeAsyncJob { GUID := 5, IndexOfCallback := 0 }]).toOption.map
        (fun s => s.m_asyncResJobs)
      = some [(5, { filepath := "a.xyz",
                    callbacks := [{ run := false, callback := 1 }, { run := true, callback := 2 }] })] ∧
    faultOf (run rmOne [Op.asyncLoad "a.xyz" 1, Op.asyncLoad "a.xyz" 2,
      Op.removeAsyncJob { GUID := 5, IndexOfCallback := 0 }, Op.worker])
      = some Fault.nullDereference := by
  decide
/-! ## Deduplication of asynchronous requests -/

theorem keyCount_eq_zero_of_mapFind_none {α : Type} (m : List (Nat × α)) (key : Nat)
    (h : mapFind m key = none) : keyCount m key = 0 := by
  induction m with
  | nil => rfl
  | cons e m ih =>
    obtain ⟨k, w⟩ := e
    by_cases hk : k = key
    · simp [mapFind, hk] at h
    · simp only [mapFind, hk, if_false] at h
      have := ih h
      simp only [keyCount] at this ⊢
      simp [List.count_cons, hk, this]

theorem keyCount_mapInsert_self {α : Type} (m : List (Nat × α)) (key : Nat) (v : α) :
    keyCount (mapInsert m key v) key = keyCount m key + 1 := by
  induction m with
  | nil => simp [mapInsert, keyCount]
  | cons e m ih =>
    obtain ⟨k, w⟩ := e
    by_cases hlt : key < k
    · simp [mapInsert, hlt, keyCount, List.count_cons]
    · simp only [keyCount] at ih
      simp only [mapInsert, hlt, if_false, keyCount, List.map_cons, List.count_cons, ih]
      omega

theorem keyCount_mapModify {α : Type} (m : List (Nat × α)) (key key2 : Nat) (f : α → α) :
    keyCount (mapModify m key f) key2 = keyCount m key2 := by
  induction m with
  | nil => rfl
  | cons e m ih =>
    obtain ⟨k, w⟩ := e
    by_cases hk : k = key
    · simp [mapModify, hk, keyCount]
    · simp only [keyCount] at ih
      simp only [mapModify, hk, if_false, keyCount, List.map_cons, List.count_cons, ih]

theorem handlesFrom_eq_map (GUID start n : Nat) :
    handlesFrom GUID start n
      = (List.range n).map (fun i => ({ GUID := GUID, IndexOfCallback := start + i } : AsyncJobIndex)) := by
  induction n generalizing start with
  | zero => rfl
  | succ n ih =>
    rw [handlesFrom, ih, List.range_succ_eq_map]
    simp only [List.map_cons, List.map_map, Nat.add_zero]
    congr 1
    apply List.map_congr_left
    intro i _
    simp only [Function.comp, Nat.succ_eq_add_one]
    congr 1
    omega

theorem asyncLoad_of_pending (s : ResourceManager) (P : String) (c : Nat) (job : AsyncJob)
    (hres : mapFind s.m_resources (s.m_pathHasher P) = none)
    (hjob : mapFind s.m_asyncResJobs (s.m_pathHasher P) = some job) :
    asyncLoad s P c =
      ({ s with
         m_asyncResJobs := (mapModify s.m_asyncResJobs (s.m_pathHasher P) (fun j => j.push c)) },
       { GUID := s.m_pathHasher P, IndexOfCallback := job.callbacks.length }) := by
  simp [asyncLoad, hres, hjob, AsyncJob.push]

theorem asyncLoad_of_new (s : ResourceManager) (P : String) (c : Nat)
    (hres : mapFind s.m_resources (s.m_pathHasher P) = none)
    (hjob : mapFind s.m_asyncResJobs (s.m_pathHasher P) = none) :
    asyncLoad s P c =
      ({ s with
         m_asyncResJobs := (mapEmplace s.m_asyncResJobs (s.m_pathHasher P)
           { filepath := P, callbacks := [{ run := true, callback := c }] })
         m_asyncJobQueue := s.m_asyncJobQueue ++ [s.m_pathHasher P] },
       { GUID := s.m_pathHasher P, IndexOfCallback := 0 }) := by
  simp [asyncLoad, hres, hjob]

theorem asyncLoadAll_of_pending (P : String) (cs : List Nat) (s : ResourceManager)
    (job : AsyncJob)
    (hres : mapFind s.m_resources (s.m_pathHasher P) = none)
    (hjob : mapFind s.m_asyncResJobs (s.m_pathHasher P) = some job) :
    mapFind (asyncLoadAll s P cs).1.m_asyncResJobs (s.m_pathHasher P)
        = some { job with callbacks := job.callbacks ++ activeCallbacks cs } ∧
    keyCount (asyncLoadAll s P cs).1.m_asyncResJobs (s.m_pathHasher P)
        = keyCount s.m_asyncResJobs (s.m_pathHasher P) ∧
    (asyncLoadAll s P cs).1.m_asyncJobQueue = s.m_asyncJobQueue ∧
    (asyncLoadAll s P cs).1.events = s.events ∧
    (asyncLoadAll s P cs).1.m_resources = s.m_resources ∧
    (asyncLoadAll s P cs).1.heap = s.heap ∧
    (asyncLoadAll s P cs).2 = handlesFrom (s.m_pathHasher P) job.callbacks.length cs.length := by
  induction cs generalizing s job with
  | nil => simp [asyncLoadAll, hjob, activeCallbacks, handlesFrom]
  | cons c cs ih =>
    have e := asyncLoad_of_pending s P c job hres hjob
    have hj : mapFind (asyncLoad s P c).1.m_asyncResJobs ((asyncLoad s P c).1.m_pathHasher P)
        = some (job.push c) := by
      rw [e]; simp [mapFind_mapModify_self, hjob]
    have hr : mapFind (asyncLoad s P c).1.m_resources ((asyncLoad s P c).1.m_pathHasher P)
        = none := by
      rw [e]; exact hres
    obtain ⟨h1, h2, h3, h4, h5, h6, h7⟩ := ih (asyncLoad s P c).1 (job.push c) hr hj
    have hh : (asyncLoad s P c).1.m_pathHasher = s.m_pathHasher := by rw [e]
    rw [hh] at h1 h2 h7
    refine ⟨?_, ?_, ?_, ?_, ?_, ?_, ?_⟩
    · simp only [asyncLoadAll, h1]
      simp [AsyncJob.push, activeCallbacks]
    · simp only [asyncLoadAll, h2]
      rw [e]; exact keyCount_mapModify _ _ _ _
    · simp only [asyncLoadAll, h3]; rw [e]
    · simp only [asyncLoadAll, h4]; rw [e]
    · simp only [asyncLoadAll, h5]; rw [e]
    · simp only [asyncLoadAll, h6]; rw [e]
    · simp only [asyncLoadAll, h7, handlesFrom]
      rw [e]
      simp [AsyncJob.push]

/-- C4.  Let `P` be a path that is not resident and has no pending job (no
entry in the job table, no occurrence of its hash in the queue).  After the
calls `asyncLoad(P, c)` for the continuations of a non-empty list `cs`, in list
order and with nothing in between: the job table holds exactly one job under
`hash(P)`; that job has path `P` and its callback list is `cs` in call order
with every entry active; the hash occurs exactly once in the queue; no
continuation was called (the event list, the cache map and the heap are the
ones before the calls); and the call number `i` (counting from 0) returned the
handle `(hash(P), i)`. -/
theorem asyncLoad_deduplicates (s : ResourceManager) (P : String) (cs : List Nat)
    (hN : 1 ≤ cs.length)
    (hres : mapFind s.m_resources (s.m_pathHasher P) = none)
    (hjob : mapFind s.m_asyncResJobs (s.m_pathHasher P) = none)
    (hqueue : s.m_pathHasher P ∉ s.m_asyncJobQueue) :
    mapFind (asyncLoadAll s P cs).1.m_asyncResJobs (s.m_pathHasher P)
        = some { filepath := P, callbacks := activeCallbacks cs } ∧
    keyCount (asyncLoadAll s P cs).1.m_asyncResJobs (s.m_pathHasher P) = 1 ∧
    (asyncLoadAll s P cs).1.m_asyncJobQueue.count (s.m_pathHasher P) = 1 ∧
    (asyncLoadAll s P cs).1.events = s.events ∧
    (asyncLoadAll s P cs).1.m_resources = s.m_resources ∧
    (asyncLoadAll s P cs).1.heap = s.heap ∧
    (asyncLoadAll s P cs).2
      = (List.range cs.length).map (fun i => { GUID := s.m_pathHasher P, IndexOfCallback := i }) := by
  cases cs with
  | nil => simp at hN
  | cons c cs =>
    have e := asyncLoad_of_new s P c hres hjob
    have hh : (asyncLoad s P c).1.m_pathHasher = s.m_pathHasher := by rw [e]
    have hj : mapFind (asyncLoad s P c).1.m_asyncResJobs ((asyncLoad s P c).1.m_pathHasher P)
        = some { filepath := P, callbacks := [{ run := true, callback := c }] } := by
      rw [e]; exact mapFind_mapEmplace_absent _ _ _ hjob
    have hr : mapFind (asyncLoad s P c).1.m_resources ((asyncLoad s P c).1.m_pathHasher P)
        = none := by
      rw [e]; exact hres
    obtain ⟨h1, h2, h3, h4, h5, h6, h7⟩ := asyncLoadAll_of_pending P cs (asyncLoad s P c).1 _ hr hj
    rw [hh] at h1 h2 h7
    refine ⟨?_, ?_, ?_, ?_, ?_, ?_, ?_⟩
    · simp only [asyncLoadAll, h1]
      simp [activeCallbacks]
    · simp only [asyncLoadAll, h2]
      rw [e]
      simp only [mapEmplace, hjob, keyCount_mapInsert_self,
        keyCount_eq_zero_of_mapFind_none _ _ hjob]
    · simp only [asyncLoadAll, h3]
      rw [e]
      simp [List.count_eq_zero_of_not_mem hqueue]
    · simp only [asyncLoadAll, h4]; rw [e]
    · simp only [asyncLoadAll, h5]; rw [e]
    · simp only [asyncLoadAll, h6]; rw [e]
    · simp only [asyncLoadAll, h7]
      rw [e]
      simp only [List.length_cons, List.length_nil, Nat.zero_add]
      rw [handlesFrom_eq_map, List.range_succ_eq_map]
      simp only [List.map_cons, List.map_map]
      congr 1
      apply List.map_congr_left
      intro i _
      simp only [Function.comp, Nat.succ_eq_add_one]
      congr 1
      omega

theorem asyncLoad_deduplicates_witness :
    mapFind (asyncLoadAll rmOne "a.obj" [11, 12, 13]).1.m_asyncResJobs 5
        = some { filepath := "a.obj", callbacks := activeCallbacks [11, 12, 13] } ∧
    keyCount (asyncLoadAll rmOne "a.obj" [11, 12, 13]).1.m_asyncResJobs 5 = 1 ∧
    (asyncLoadAll rmOne "a.obj" [11, 12, 13]).1.m_asyncJobQueue.count 5 = 1 ∧
    (asyncLoadAll rmOne "a.obj" [11, 12, 13]).1.events = rmOne.events ∧
    (asyncLoadAll rmOne "a.obj" [11, 12, 13]).1.m_resources = rmOne.m_resources ∧
    (asyncLoadAll rmOne "a.obj" [11, 12, 13]).1.heap = rmOne.heap ∧
    (asyncLoadAll rmOne "a.obj" [11, 12, 13]).2
      = (List.range 3).map (fun i => { GUID := 5, IndexOfCallback := i }) :=
  asyncLoad_deduplicates rmOne "a.obj" [11, 12, 13] (by decide) (by decide) (by decide)
    (by decide)
/-! ## Events of a decode -/

theorem invoked_append (a b : List Event) : invoked (a ++ b) = invoked a ++ invoked b := by
  induction a with
  | nil => rfl
  | cons e a ih => cases e <;> simp [invoked, ih]

theorem decodes_append (a b : List Event) : decodes (a ++ b) = decodes a ++ decodes b := by
  simp [decodes]

theorem decodes_nil : decodes [] = [] := rfl

theorem decodes_message_cons (m : Message) (es : List Event) :
    decodes (Event.message m :: es) = decodes es := by
  simp [decodes]

theorem invoked_resourceLines (heap : List Resource) (size : Resource → Nat)
    (m : List (Nat × Nat)) : invoked (resourceLines heap size m) = [] := by
  induction m with
  | nil => rfl
  | cons e m ih =>
    obtain ⟨k, p⟩ := e
    simp only [resourceLines]
    split <;> simp [invoked, ih]

theorem decodes_resourceLines (heap : List Resource) (size : Resource → Nat)
    (m : List (Nat × Nat)) : decodes (resourceLines heap size m) = [] := by
  induction m with
  | nil => rfl
  | cons e m ih =>
    obtain ⟨k, p⟩ := e
    simp only [resourceLines]
    split
    · simpa [decodes] using ih
    · exact ih

/-- The fields a decode leaves alone, and what it does to the heap and the
map. -/
theorem loadWith_frame (s : ResourceManager) (FL : FormatLoader) (i : Nat) (path : String)
    (hashedPath : Nat) :
    (loadWith s FL i path hashedPath).2 = s.heap.length ∧
    (loadWith s FL i path hashedPath).1.heap
      = s.heap ++ [((FL.load path hashedPath).setPath path).refer] ∧
    (loadWith s FL i path hashedPath).1.m_resources
      = mapEmplace s.m_resources hashedPath s.heap.length ∧
    (loadWith s FL i path hashedPath).1.m_formatLoaders = s.m_formatLoaders ∧
    (loadWith s FL i path hashedPath).1.m_pathHasher = s.m_pathHasher ∧
    (loadWith s FL i path hashedPath).1.extension = s.extension ∧
    (loadWith s FL i path hashedPath).1.m_asyncJobQueue = s.m_asyncJobQueue ∧
    (loadWith s FL i path hashedPath).1.m_asyncResJobs = s.m_asyncResJobs ∧
    (loadWith s FL i path hashedPath).1.m_running = s.m_running ∧
    (loadWith s FL i path hashedPath).1.m_capacityCPU = s.m_capacityCPU ∧
    (loadWith s FL i path hashedPath).1.m_capacityGPU = s.m_capacityGPU := by
  simp only [loadWith]
  split_ifs <;> simp

/-- The events of a decode: the decode itself, then messages only. -/
theorem loadWith_events (s : ResourceManager) (FL : FormatLoader) (i : Nat) (path : String)
    (hashedPath : Nat) :
    ∃ new, (loadWith s FL i path hashedPath).1.events
        = s.events ++ Event.decode i path hashedPath s.heap.length :: new ∧
      invoked new = [] ∧ decodes new = [] := by
  simp only [loadWith]
  split_ifs <;>
    simp only [List.append_assoc, List.singleton_append, List.cons_append, List.nil_append,
      List.append_cancel_left_eq, List.cons.injEq, true_and, exists_eq_left', List.append_nil] <;>
    simp [invoked_append, decodes_append, invoked, decodes_nil, decodes_message_cons,
      invoked_resourceLines, decodes_resourceLines]
theorem getElem?_append_cons_length {α : Type} (l : List α) (a : α) (t : List α) :
    (l ++ a :: t)[l.length]? = some a := by
  induction l with
  | nil => simp
  | cons b l ih => simpa using ih

/-- What the loop of `load` leaves alone: the registry, the library functions,
the queue, the job table and the capacities; the heap and the event list only
grow, and no continuation is called. -/
theorem loadLoop_frame (path : String) (hashedPath : Nat) (ext : String)
    (loaders : List FormatLoader) (i : Nat) (s : ResourceManager) (res : Option Nat) :
    (loadLoop path hashedPath ext loaders i s res).1.m_formatLoaders = s.m_formatLoaders ∧
    (loadLoop path hashedPath ext loaders i s res).1.m_pathHasher = s.m_pathHasher ∧
    (loadLoop path hashedPath ext loaders i s res).1.extension = s.extension ∧
    (loadLoop path hashedPath ext loaders i s res).1.m_asyncJobQueue = s.m_asyncJobQueue ∧
    (loadLoop path hashedPath ext loaders i s res).1.m_asyncResJobs = s.m_asyncResJobs ∧
    (loadLoop path hashedPath ext loaders i s res).1.m_running = s.m_running ∧
    (loadLoop path hashedPath ext loaders i s res).1.m_capacityCPU = s.m_capacityCPU ∧
    (loadLoop path hashedPath ext loaders i s res).1.m_capacityGPU = s.m_capacityGPU ∧
    (∃ extra, (loadLoop path hashedPath ext loaders i s res).1.heap = s.heap ++ extra) ∧
    (∃ new, (loadLoop path hashedPath ext loaders i s res).1.events = s.events ++ new ∧
      invoked new = []) := by
  induction loaders generalizing i s res with
  | nil => exact ⟨rfl, rfl, rfl, rfl, rfl, rfl, rfl, rfl, ⟨[], by simp [loadLoop]⟩,
      ⟨[], by simp [loadLoop], rfl⟩⟩
  | cons FL rest ih =>
    by_cases hs : FL.extensionSupported ext = true
    · simp only [loadLoop, hs, if_true]
      obtain ⟨a1, a2, a3, a4, a5, a6, a7, a8, ⟨extra, a9⟩, ⟨new, a10, a11⟩⟩ :=
        ih (i + 1) (loadWith s FL i path hashedPath).1 (some (loadWith s FL i path hashedPath).2)
      obtain ⟨_, b2, _, b4, b5, b6, b7, b8, b9, b10, b11⟩ := loadWith_frame s FL i path hashedPath
      obtain ⟨new0, c1, c2, _⟩ := loadWith_events s FL i path hashedPath
      refine ⟨a1.trans b4, a2.trans b5, a3.trans b6, a4.trans b7, a5.trans b8, a6.trans b9,
        a7.trans b10, a8.trans b11,
        ⟨((FL.load path hashedPath).setPath path).refer :: extra, ?_⟩,
        ⟨Event.decode i path hashedPath s.heap.length :: (new0 ++ new), ?_, ?_⟩⟩
      · rw [a9, b2]; simp
      · rw [a10, c1]; simp
      · simp [invoked, invoked_append, c2, a11]
    · simp only [loadLoop, hs]
      exact ih (i + 1) s res

/-- A key that is resident stays bound to the same pointer through the loop. -/
theorem loadLoop_resident (path : String) (hashedPath : Nat) (ext : String)
    (loaders : List FormatLoader) (i : Nat) (s : ResourceManager) (res : Option Nat) (q : Nat)
    (h : mapFind s.m_resources hashedPath = some q) :
    (loadLoop path hashedPath ext loaders i s res).1.m_resources = s.m_resources := by
  induction loaders generalizing i s res with
  | nil => rfl
  | cons FL rest ih =>
    by_cases hs : FL.extensionSupported ext = true
    · simp only [loadLoop, hs, if_true]
      have b3 := (loadWith_frame s FL i path hashedPath).2.2.1
      have e : (loadWith s FL i path hashedPath).1.m_resources = s.m_resources := by
        rw [b3]; exact mapEmplace_present _ _ _ _ h
      rw [ih (i + 1) (loadWith s FL i path hashedPath).1 _ (by rw [e]; exact h), e]
    · have hs2 : FL.extensionSupported ext = false := by simpa using hs
      simp only [loadLoop, hs2, Bool.false_eq_true, if_false]
      exact ih (i + 1) s res h

theorem loadLoop_res_isSome (path : String) (hashedPath : Nat) (ext : String)
    (loaders : List FormatLoader) (i : Nat) (s : ResourceManager) (res : Option Nat)
    (h : res.isSome = true) :
    (loadLoop path hashedPath ext loaders i s res).2.isSome = true := by
  induction loaders generalizing i s res with
  | nil => exact h
  | cons FL rest ih =>
    by_cases hs : FL.extensionSupported ext = true
    · simp only [loadLoop, hs, if_true]
      exact ih _ _ _ rfl
    · simp only [loadLoop, hs]
      exact ih _ _ _ h

/-- When the key is not resident and some loader of the list supports the
extension, the first such loader `FL` (number `i + j`) decodes: its object is
the new heap cell `s.heap.length`, that cell is what the map holds under the
key afterwards, and the loop returns a pointer. -/
theorem loadLoop_supported (path : String) (hashedPath : Nat) (ext : String)
    (loaders : List FormatLoader) (i : Nat) (s : ResourceManager) (res : Option Nat)
    (habs : mapFind s.m_resources hashedPath = none)
    (hsup : ∃ FL ∈ loaders, FL.extensionSupported ext = true) :
    ∃ j FL, loaders[j]? = some FL ∧ FL.extensionSupported ext = true ∧
      (∀ k F, k < j → loaders[k]? = some F → F.extensionSupported ext = false) ∧
      mapFind (loadLoop path hashedPath ext loaders i s res).1.m_resources hashedPath
        = some s.heap.length ∧
      (loadLoop path hashedPath ext loaders i s res).1.heap[s.heap.length]?
        = some ((FL.load path hashedPath).setPath path).refer ∧
      (∃ new, (loadLoop path hashedPath ext loaders i s res).1.events
        = s.events ++ Event.decode (i + j) path hashedPath s.heap.length :: new) ∧
      (loadLoop path hashedPath ext loaders i s res).2.isSome = true := by
  induction loaders generalizing i s res with
  | nil => simp at hsup
  | cons FL rest ih =>
    by_cases hs : FL.extensionSupported ext = true
    · refine ⟨0, FL, by simp, hs, fun k F hk => absurd hk (Nat.not_lt_zero k), ?_⟩
      simp only [loadLoop, hs, if_true]
      obtain ⟨_, b2, b3, _⟩ := loadWith_frame s FL i path hashedPath
      obtain ⟨new0, c1, _, _⟩ := loadWith_events s FL i path hashedPath
      have hfind : mapFind (loadWith s FL i path hashedPath).1.m_resources hashedPath
          = some s.heap.length := by
        rw [b3]; exact mapFind_mapEmplace_absent _ _ _ habs
      obtain ⟨_, _, _, _, _, _, _, _, ⟨extra, a9⟩, ⟨new, a10, _⟩⟩ :=
        loadLoop_frame path hashedPath ext rest (i + 1) (loadWith s FL i path hashedPath).1
          (some (loadWith s FL i path hashedPath).2)
      refine ⟨?_, ?_, ⟨new0 ++ new, ?_⟩, loadLoop_res_isSome _ _ _ _ _ _ _ rfl⟩
      · rw [loadLoop_resident _ _ _ _ _ _ _ _ hfind]; exact hfind
      · rw [a9, b2, List.append_assoc, List.singleton_append]
        exact getElem?_append_cons_length _ _ _
      · rw [a10, c1]; simp
    · have hs2 : FL.extensionSupported ext = false := by simpa using hs
      have hsup2 : ∃ F ∈ rest, F.extensionSupported ext = true := by
        obtain ⟨F, hF, hFs⟩ := hsup
        rcases List.mem_cons.mp hF with h1 | h1
        · rw [h1] at hFs; exact absurd hFs hs
        · exact ⟨F, h1, hFs⟩
      obtain ⟨j, F, h1, h2, h3, h4, h5, ⟨new, h6⟩, h7⟩ := ih (i + 1) s res habs hsup2
      refine ⟨j + 1, F, by simpa using h1, h2, ?_, ?_⟩
      · intro k G hk hG
        cases k with
        | zero => simp at hG; rw [← hG]; exact hs2
        | succ k => exact h3 k G (by omega) (by simpa using hG)
      · simp only [loadLoop, hs2, Bool.false_eq_true, if_false]
        refine ⟨h4, h5, ⟨new, ?_⟩, h7⟩
        rw [h6]
        have : i + 1 + j = i + (j + 1) := by omega
        rw [this]
/-! ## Release -/

theorem decrementReference_keep (s : ResourceManager) (key p : Nat) (r : Resource)
    (hres : mapFind s.m_resources key = some p) (hheap : s.heap[p]? = some r)
    (hrc : r.m_refCount ≠ 1) :
    decrementReference s key = { s with heap := s.heap.set p r.derefer } := by
  have : ¬ r.m_refCount - 1 = 0 := by omega
  simp [decrementReference, hres, hheap, Resource.derefer, this]

theorem decrementReference_last (s : ResourceManager) (key p : Nat) (r : Resource)
    (hres : mapFind s.m_resources key = some p) (hheap : s.heap[p]? = some r)
    (hrc : r.m_refCount = 1) :
    decrementReference s key =
      { s with
        heap := s.heap.set p r.derefer.destroy
        events := s.events ++ [Event.message (.removing r.m_path), Event.destroy p]
        m_resources := mapErase s.m_resources key } := by
  simp [decrementReference, hres, hheap, Resource.derefer, hrc]

theorem decrementReferenceN_succ (s : ResourceManager) (key n : Nat) :
    decrementReferenceN s key (n + 1) = decrementReference (decrementReferenceN s key n) key := by
  induction n generalizing s with
  | zero => rfl
  | succ n ih => rw [decrementReferenceN, ih]; rfl

/-- Fewer releases than the reference count: the key stays bound to the same
object, whose count went down by the number of releases. -/
theorem decrementReferenceN_below (key p j : Nat) (s : ResourceManager) (r : Resource)
    (hres : mapFind s.m_resources key = some p) (hheap : s.heap[p]? = some r)
    (hlt : (j : Int) < r.m_refCount) :
    mapFind (decrementReferenceN s key j).m_resources key = some p ∧
    (decrementReferenceN s key j).heap[p]? = some { r with m_refCount := r.m_refCount - j } ∧
    (decrementReferenceN s key j).heap.length = s.heap.length ∧
    (decrementReferenceN s key j).m_formatLoaders = s.m_formatLoaders ∧
    (decrementReferenceN s key j).m_pathHasher = s.m_pathHasher ∧
    (decrementReferenceN s key j).extension = s.extension := by
  induction j generalizing s r with
  | zero => simp [decrementReferenceN, hres, hheap]
  | succ j ih =>
    have hp : p < s.heap.length := by
      rcases List.getElem?_eq_some_iff.mp hheap with ⟨h, _⟩
      exact h
    have hne : r.m_refCount ≠ 1 := by push_cast at hlt; omega
    have e := decrementReference_keep s key p r hres hheap hne
    have hres1 : mapFind (decrementReference s key).m_resources key = some p := by
      rw [e]; exact hres
    have hheap1 : (decrementReference s key).heap[p]? = some r.derefer := by
      rw [e]; simp [hp]
    have hlt1 : (j : Int) < r.derefer.m_refCount := by
      simp only [Resource.derefer]; push_cast at hlt; omega
    obtain ⟨h1, h2, h3, h4, h5, h6⟩ := ih (decrementReference s key) r.derefer hres1 hheap1 hlt1
    refine ⟨h1, ?_, ?_, ?_, ?_, ?_⟩
    · simp only [decrementReferenceN, h2, Resource.derefer]
      congr 2
      push_cast
      omega
    · simp only [decrementReferenceN, h3]; rw [e]; simp
    · simp only [decrementReferenceN, h4]; rw [e]
    · simp only [decrementReferenceN, h5]; rw [e]
    · simp only [decrementReferenceN, h6]; rw [e]

theorem load_of_absent (s : ResourceManager) (P : String)
    (habs : mapFind s.m_resources (s.m_pathHasher P) = none) :
    load s P = loadLoop P (s.m_pathHasher P) (s.extension P) s.m_formatLoaders 0 s none := by
  simp only [load, habs]

theorem load_of_resident (s : ResourceManager) (P : String) (p : Nat)
    (hres : mapFind s.m_resources (s.m_pathHasher P) = some p) :
    load s P = (referAt s p, some p) := by
  simp only [load, hres]

/-- C3.  Let the key `h = hash(P)` be resident with an object whose reference
count is `n ≥ 1`.  After fewer than `n` calls `decrementReference(h)` the key
is still in the cache map; after `n` calls it is not.  If a registered loader
supports the extension of `P`, a `load(P)` issued then invokes a loader again
(a decode of `P` is the first new event), and the object that decode
constructed, a heap cell that did not exist before the load, is what the cache
map holds under `h`. -/
theorem release_to_zero_then_load_decodes_again (s : ResourceManager) (P : String)
    (p : Nat) (r : Resource) (n : Nat)
    (hres : mapFind s.m_resources (s.m_pathHasher P) = some p)
    (hheap : s.heap[p]? = some r) (hrc : r.m_refCount = (n : Int)) (hn : 1 ≤ n) :
    (∀ j, j < n →
      mapFind (decrementReferenceN s (s.m_pathHasher P) j).m_resources (s.m_pathHasher P)
        = some p) ∧
    mapFind (decrementReferenceN s (s.m_pathHasher P) n).m_resources (s.m_pathHasher P) = none ∧
    ((∃ FL ∈ s.m_formatLoaders, FL.extensionSupported (s.extension P) = true) →
      ∃ i FL, s.m_formatLoaders[i]? = some FL ∧ FL.extensionSupported (s.extension P) = true ∧
        (∃ new, (load (decrementReferenceN s (s.m_pathHasher P) n) P).1.events
          = (decrementReferenceN s (s.m_pathHasher P) n).events
            ++ Event.decode i P (s.m_pathHasher P)
                (decrementReferenceN s (s.m_pathHasher P) n).heap.length :: new) ∧
        mapFind (load (decrementReferenceN s (s.m_pathHasher P) n) P).1.m_resources
            (s.m_pathHasher P)
          = some (decrementReferenceN s (s.m_pathHasher P) n).heap.length ∧
        (load (decrementReferenceN s (s.m_pathHasher P) n) P).1.heap[
            (decrementReferenceN s (s.m_pathHasher P) n).heap.length]?
          = some ((FL.load P (s.m_pathHasher P)).setPath P).refer ∧
        (decrementReferenceN s (s.m_pathHasher P) n).heap[
            (decrementReferenceN s (s.m_pathHasher P) n).heap.length]? = none ∧
        (decrementReferenceN s (s.m_pathHasher P) n).heap.length ≠ p) := by
  have hp : p < s.heap.length := by
    rcases List.getElem?_eq_some_iff.mp hheap with ⟨h, _⟩
    exact h
  obtain ⟨m, rfl⟩ : ∃ m, n = m + 1 := ⟨n - 1, by omega⟩
  obtain ⟨a1, a2, a3, a4, a5, a6⟩ :=
    decrementReferenceN_below (s.m_pathHasher P) p m s r hres hheap (by rw [hrc]; push_cast; omega)
  have e := decrementReference_last _ _ _ _ a1 a2 (by simp only [hrc]; push_cast; omega)
  have hgone : mapFind (decrementReferenceN s (s.m_pathHasher P) (m + 1)).m_resources
      (s.m_pathHasher P) = none := by
    rw [decrementReferenceN_succ, e]; exact mapFind_mapErase_self _ _
  have hlen : (decrementReferenceN s (s.m_pathHasher P) (m + 1)).heap.length = s.heap.length := by
    rw [decrementReferenceN_succ, e]; simp [a3]
  have hload : (decrementReferenceN s (s.m_pathHasher P) (m + 1)).m_formatLoaders
      = s.m_formatLoaders := by
    rw [decrementReferenceN_succ, e]; exact a4
  have hhash : (decrementReferenceN s (s.m_pathHasher P) (m + 1)).m_pathHasher
      = s.m_pathHasher := by
    rw [decrementReferenceN_succ, e]; exact a5
  have hext : (decrementReferenceN s (s.m_pathHasher P) (m + 1)).extension = s.extension := by
    rw [decrementReferenceN_succ, e]; exact a6
  refine ⟨?_, hgone, ?_⟩
  · intro j hj
    exact (decrementReferenceN_below (s.m_pathHasher P) p j s r hres hheap
      (by rw [hrc]; push_cast; omega)).1
  · intro hsup
    have hgone2 : mapFind (decrementReferenceN s (s.m_pathHasher P) (m + 1)).m_resources
        ((decrementReferenceN s (s.m_pathHasher P) (m + 1)).m_pathHasher P) = none := by
      rw [hhash]; exact hgone
    obtain ⟨j, FL, h1, h2, _, h4, h5, h6, _⟩ :=
      loadLoop_supported P (s.m_pathHasher P) (s.extension P) s.m_formatLoaders 0
        (decrementReferenceN s (s.m_pathHasher P) (m + 1)) none hgone hsup
    refine ⟨j, FL, h1, h2, ?_⟩
    rw [load_of_absent _ _ hgone2, hhash, hext, hload]
    refine ⟨?_, h4, h5, ?_, ?_⟩
    · simpa using h6
    · simp
    · rw [hlen]; omega

theorem release_to_zero_then_load_decodes_again_witness :
    (∀ j, j < 2 → mapFind (decrementReferenceN rmLoadedTwice 5 j).m_resources 5 = some 0) ∧
    mapFind (decrementReferenceN rmLoadedTwice 5 2).m_resources 5 = none ∧
    ∃ i FL, rmLoadedTwice.m_formatLoaders[i]? = some FL ∧
      FL.extensionSupported (rmLoadedTwice.extension "a.obj") = true ∧
      (∃ new, (load (decrementReferenceN rmLoadedTwice 5 2) "a.obj").1.events
        = (decrementReferenceN rmLoadedTwice 5 2).events
          ++ Event.decode i "a.obj" 5 (decrementReferenceN rmLoadedTwice 5 2).heap.length :: new) ∧
      mapFind (load (decrementReferenceN rmLoadedTwice 5 2) "a.obj").1.m_resources 5
        = some (decrementReferenceN rmLoadedTwice 5 2).heap.length ∧
      (load (decrementReferenceN rmLoadedTwice 5 2) "a.obj").1.heap[
          (decrementReferenceN rmLoadedTwice 5 2).heap.length]?
        = some ((FL.load "a.obj" 5).setPath "a.obj").refer ∧
      (decrementReferenceN rmLoadedTwice 5 2).heap[
          (decrementReferenceN rmLoadedTwice 5 2).heap.length]? = none ∧
      (decrementReferenceN rmLoadedTwice 5 2).heap.length ≠ 0 :=
  have h := release_to_zero_then_load_decodes_again rmLoadedTwice "a.obj" 0
    { m_GUID := 5, m_refCount := 2, m_sizeCPU := 600, m_sizeGPU := 100, m_path := "a.obj",
      destroyed := false } 2 (by decide) (by decide) (by decide) (by decide)
  ⟨h.1, h.2.1, h.2.2 ⟨objA, List.mem_singleton.mpr rfl, by decide⟩⟩
/-! ## Continuations: who can be called -/

theorem mem_waiting_of_mapFind (m : List (Nat × AsyncJob)) (key : Nat) (job : AsyncJob)
    (cb : AsyncJobCallback) (h : mapFind m key = some job) (hcb : cb ∈ job.callbacks) :
    cb.callback ∈ waiting m := by
  induction m with
  | nil => simp [mapFind] at h
  | cons e m ih =>
    obtain ⟨k, j⟩ := e
    by_cases hk : k = key
    · simp only [mapFind, hk, if_true, Option.some.injEq] at h
      subst h
      simp only [waiting, List.mem_append, List.mem_map]
      exact Or.inl ⟨cb, hcb, rfl⟩
    · simp only [mapFind, hk, if_false] at h
      simp only [waiting, List.mem_append]
      exact Or.inr (ih h)

theorem waiting_mapErase (m : List (Nat × AsyncJob)) (key c : Nat)
    (h : c ∈ waiting (mapErase m key)) : c ∈ waiting m := by
  induction m with
  | nil => exact h
  | cons e m ih =>
    obtain ⟨k, j⟩ := e
    by_cases hk : k = key
    · have e1 : mapErase ((k, j) :: m) key = mapErase m key := by simp [mapErase, hk]
      rw [e1] at h
      simp only [waiting, List.mem_append]
      exact Or.inr (ih h)
    · have e1 : mapErase ((k, j) :: m) key = (k, j) :: mapErase m key := by simp [mapErase, hk]
      rw [e1] at h
      simp only [waiting, List.mem_append] at h ⊢
      exact h.imp id ih

theorem waiting_mapModify_same (m : List (Nat × AsyncJob)) (key : Nat) (f : AsyncJob → AsyncJob)
    (hf : ∀ j, (f j).callbacks.map AsyncJobCallback.callback
      = j.callbacks.map AsyncJobCallback.callback) :
    waiting (mapModify m key f) = waiting m := by
  induction m with
  | nil => rfl
  | cons e m ih =>
    obtain ⟨k, j⟩ := e
    by_cases hk : k = key
    · simp [mapModify, hk, waiting, hf]
    · simp [mapModify, hk, waiting, ih]

theorem callbacks_cancel (j : AsyncJob) (i : Nat) :
    (j.cancel i).callbacks.map AsyncJobCallback.callback
      = j.callbacks.map AsyncJobCallback.callback := by
  simp only [AsyncJob.cancel]
  generalize j.callbacks = l
  induction l generalizing i with
  | nil => cases i <;> simp
  | cons c l ih =>
    cases i with
    | zero => simp [AsyncJobCallback.cancel]
    | succ i => simpa using ih i

theorem callbacks_cancelAll (j : AsyncJob) :
    j.cancelAll.callbacks.map AsyncJobCallback.callback
      = j.callbacks.map AsyncJobCallback.callback := by
  simp [AsyncJob.cancelAll, AsyncJobCallback.cancel, Function.comp]

theorem waiting_map_cancelAll (m : List (Nat × AsyncJob)) :
    waiting (m.map (fun e => (e.1, e.2.cancelAll))) = waiting m := by
  induction m with
  | nil => rfl
  | cons e m ih =>
    obtain ⟨k, j⟩ := e
    simp only [List.map_cons, waiting, ih, callbacks_cancelAll]

theorem waiting_mapModify_push (m : List (Nat × AsyncJob)) (key c d : Nat)
    (h : d ∈ waiting (mapModify m key (fun j => j.push c))) : d ∈ waiting m ∨ d = c := by
  induction m with
  | nil => exact Or.inl h
  | cons e m ih =>
    obtain ⟨k, j⟩ := e
    by_cases hk : k = key
    · simp only [mapModify, hk, if_true, waiting, AsyncJob.push, List.map_append, List.map_cons,
        List.map_nil, List.mem_append, List.mem_singleton] at h ⊢
      tauto
    · simp only [mapModify, hk, if_false, waiting, List.mem_append] at h ⊢
      rcases h with h | h
      · exact Or.inl (Or.inl h)
      · exact (ih h).imp Or.inr id

theorem waiting_mapInsert (m : List (Nat × AsyncJob)) (key c d : Nat) (P : String)
    (h : d ∈ waiting (mapInsert m key { filepath := P, callbacks := [{ run := true, callback := c }] })) :
    d ∈ waiting m ∨ d = c := by
  induction m with
  | nil => simpa [mapInsert, waiting] using h
  | cons e m ih =>
    obtain ⟨k, j⟩ := e
    by_cases hlt : key < k
    · simp only [mapInsert, hlt, if_true, waiting, List.map_cons, List.map_nil, List.mem_append,
        List.mem_singleton] at h ⊢
      tauto
    · simp only [mapInsert, hlt, if_false, waiting, List.mem_append] at h ⊢
      rcases h with h | h
      · exact Or.inl (Or.inl h)
      · exact (ih h).imp Or.inr id

/-- The callbacks of a job that are called: the active ones, in list order.
The loop touches only the heap and the event list. -/
theorem runCallbacks_ok (res : Option Nat) (cbs : List AsyncJobCallback)
    (s t : ResourceManager) (h : runCallbacks res cbs s = .ok t) :
    (∃ new, t.events = s.events ++ new ∧
      invoked new = (cbs.filter AsyncJobCallback.run).map AsyncJobCallback.callback) ∧
    t.m_asyncResJobs = s.m_asyncResJobs ∧ t.m_asyncJobQueue = s.m_asyncJobQueue ∧
    t.m_resources = s.m_resources ∧ t.m_formatLoaders = s.m_formatLoaders ∧
    t.m_pathHasher = s.m_pathHasher ∧ t.extension = s.extension ∧
    t.m_memUsageCPU = s.m_memUsageCPU ∧ t.m_memUsageGPU = s.m_memUsageGPU ∧
    t.heap.length = s.heap.length := by
  induction cbs generalizing s with
  | nil =>
    simp only [runCallbacks, Except.ok.injEq] at h
    subst h
    exact ⟨⟨[], by simp, rfl⟩, rfl, rfl, rfl, rfl, rfl, rfl, rfl, rfl, rfl⟩
  | cons c rest ih =>
    by_cases hr : c.run = true
    · simp only [runCallbacks, hr, if_true] at h
      cases res with
      | none => simp at h
      | some p =>
        simp only at h
        obtain ⟨⟨new, a1, a2⟩, a3, a4, a5, a6, a7, a8, a9, a10, a11⟩ := ih _ h
        refine ⟨⟨Event.invoke c.callback p (refCountAt (referAt s p) p) :: new, ?_, ?_⟩,
          a3, a4, a5, a6, a7, a8, a9, a10, ?_⟩
        · rw [a1]; simp [deliver, emit, referAt]
        · simp [invoked, a2, hr]
        · rw [a11]; simp [deliver, emit, referAt]
    · have hr2 : c.run = false := by simpa using hr
      simp only [runCallbacks, hr2, Bool.false_eq_true, if_false] at h
      obtain ⟨⟨new, a1, a2⟩, rest2⟩ := ih _ h
      exact ⟨⟨new, a1, by simp [a2, hr2]⟩, rest2⟩

theorem decrementReference_frame (s : ResourceManager) (key : Nat) :
    (∃ new, (decrementReference s key).events = s.events ++ new ∧ invoked new = [] ∧
      decodes new = []) ∧
    (decrementReference s key).m_asyncResJobs = s.m_asyncResJobs ∧
    (decrementReference s key).m_asyncJobQueue = s.m_asyncJobQueue ∧
    (decrementReference s key).m_formatLoaders = s.m_formatLoaders ∧
    (decrementReference s key).m_memUsageCPU = s.m_memUsageCPU ∧
    (decrementReference s key).m_memUsageGPU = s.m_memUsageGPU := by
  unfold decrementReference
  split
  · exact ⟨⟨[], by simp, rfl, rfl⟩, rfl, rfl, rfl, rfl, rfl⟩
  · split
    · exact ⟨⟨[], by simp, rfl, rfl⟩, rfl, rfl, rfl, rfl, rfl⟩
    · split
      · exact ⟨⟨_, rfl, rfl, rfl⟩, rfl, rfl, rfl, rfl, rfl⟩
      · exact ⟨⟨[], by simp, rfl, rfl⟩, rfl, rfl, rfl, rfl, rfl⟩

theorem load_frame (s : ResourceManager) (P : String) :
    (∃ new, (load s P).1.events = s.events ++ new ∧ invoked new = []) ∧
    (load s P).1.m_asyncResJobs = s.m_asyncResJobs ∧
    (load s P).1.m_asyncJobQueue = s.m_asyncJobQueue ∧
    (load s P).1.m_formatLoaders = s.m_formatLoaders ∧
    (load s P).1.m_running = s.m_running := by
  cases hf : mapFind s.m_resources (s.m_pathHasher P) with
  | some p =>
    rw [load_of_resident s P p hf]
    exact ⟨⟨[], by simp [referAt], rfl⟩, rfl, rfl, rfl, rfl⟩
  | none =>
    rw [load_of_absent s P hf]
    obtain ⟨a1, _, _, a4, a5, a6, _, _, _, a10⟩ :=
      loadLoop_frame P (s.m_pathHasher P) (s.extension P) s.m_formatLoaders 0 s none
    exact ⟨a10, a5, a4, a1, a6⟩

theorem destroyAll_frame (m : List (Nat × Nat)) (s : ResourceManager) :
    (∃ new, (destroyAll m s).events = s.events ++ new ∧ invoked new = [] ∧ decodes new = []) ∧
    (destroyAll m s).m_asyncResJobs = s.m_asyncResJobs ∧
    (destroyAll m s).m_asyncJobQueue = s.m_asyncJobQueue ∧
    (destroyAll m s).m_formatLoaders = s.m_formatLoaders ∧
    (destroyAll m s).m_resources = s.m_resources ∧
    (destroyAll m s).m_capacityCPU = s.m_capacityCPU ∧
    (destroyAll m s).m_capacityGPU = s.m_capacityGPU ∧
    (destroyAll m s).m_running = s.m_running := by
  induction m generalizing s with
  | nil => exact ⟨⟨[], by simp [destroyAll], rfl, rfl⟩, rfl, rfl, rfl, rfl, rfl, rfl, rfl⟩
  | cons e m ih =>
    obtain ⟨k, p⟩ := e
    obtain ⟨⟨new, a1, a2, a3⟩, a4, a5, a6, a7, a8, a9, a10⟩ := ih
      { s with heap := s.heap.modify Resource.destroy p, events := s.events ++ [Event.destroy p] }
    refine ⟨⟨Event.destroy p :: new, ?_, ?_, ?_⟩, a4, a5, a6, a7, a8, a9, a10⟩
    · simp only [destroyAll, a1]; simp
    · simpa [invoked] using a2
    · simpa [decodes] using a3
/-! ## The turn of the worker, taken apart -/

/-- A turn of the worker that ends without a fault either found nothing to do
and left the state alone, or popped the head of the queue, found its job,
loaded the path of the job with a non-null result `p`, ran the loop over the
callbacks, released once under the GUID of `p`, and erased the job. -/
theorem asyncLoadStart_ok (s t : ResourceManager) (h : asyncLoadStart s = .ok t) :
    (¬ (s.m_asyncResJobs.length > 0 ∧ s.m_running = true) ∧ t = s) ∨
    ((s.m_asyncResJobs.length > 0 ∧ s.m_running = true) ∧
      ∃ GUID queue currJob p s4 r,
      s.m_asyncJobQueue = GUID :: queue ∧
      mapFind s.m_asyncResJobs GUID = some currJob ∧
      (load (emit { s with m_asyncJobQueue := queue }
        (Event.message (.startedAsync currJob.filepath))) currJob.filepath).2 = some p ∧
      runCallbacks (some p) currJob.callbacks
        (load (emit { s with m_asyncJobQueue := queue }
          (Event.message (.startedAsync currJob.filepath))) currJob.filepath).1 = .ok s4 ∧
      s4.heap[p]? = some r ∧
      t = emit { decrementReference s4 r.m_GUID with
                 m_asyncResJobs := mapErase (decrementReference s4 r.m_GUID).m_asyncResJobs GUID }
            (Event.message (.doneAsync currJob.filepath))) := by
  unfold asyncLoadStart at h
  split at h
  next hc =>
    right
    refine ⟨hc, ?_⟩
    split at h
    · simp at h
    next GUID queue hq =>
      simp only at h
      split at h
      · simp at h
      next currJob hj =>
        split at h
        · simp at h
        next s4 h4 =>
          split at h
          · simp at h
          next p hp =>
            split at h
            · simp at h
            next r hr =>
              simp only [Except.ok.injEq] at h
              rw [hp] at h4
              exact ⟨GUID, queue, currJob, p, s4, r, hq, hj, hp, h4, hr, h.symm⟩
  next hc =>
    left
    simp only [Except.ok.injEq] at h
    exact ⟨hc, h.symm⟩

/-- One operation calls only continuations that wait in the job table or that
the operation itself registers, and lets only such continuations wait. -/
theorem step_callbacks (s t : ResourceManager) (op : Op) (h : step s op = .ok t) :
    ∃ new, t.events = s.events ++ new ∧
      (∀ c ∈ invoked new, c ∈ waiting s.m_asyncResJobs ∨ c ∈ asyncLoadCallbacks [op]) ∧
      (∀ c ∈ waiting t.m_asyncResJobs,
        c ∈ waiting s.m_asyncResJobs ∨ c ∈ asyncLoadCallbacks [op]) := by
  cases op with
  | init c g =>
    simp only [step, Except.ok.injEq] at h
    subst h
    refine ⟨[], ?_, by simp [invoked], fun c hc => Or.inl ?_⟩
    · unfold init; split <;> simp
    · revert hc; unfold init; split <;> exact id
  | registerFormatLoader FL =>
    simp only [step, Except.ok.injEq] at h
    subst h
    exact ⟨[], by simp [registerFormatLoader], by simp [invoked], fun c hc => Or.inl hc⟩
  | load path =>
    simp only [step, Except.ok.injEq] at h
    subst h
    obtain ⟨⟨new, a1, a2⟩, a3, _⟩ := load_frame s path
    refine ⟨new, a1, by simp [a2], fun c hc => Or.inl ?_⟩
    rw [a3] at hc; exact hc
  | asyncLoad path cb =>
    simp only [step, Except.ok.injEq] at h
    subst h
    cases hr : mapFind s.m_resources (s.m_pathHasher path) with
    | some p =>
      have e : asyncLoad s path cb = (deliver s cb p, { GUID := 0, IndexOfCallback := 0 }) := by
        simp only [asyncLoad, hr]
      rw [e]
      refine ⟨[Event.invoke cb p (refCountAt (referAt s p) p)], rfl, ?_, fun c hc => Or.inl hc⟩
      intro c hc
      right
      simpa [invoked, asyncLoadCallbacks] using hc
    | none =>
      cases hj : mapFind s.m_asyncResJobs (s.m_pathHasher path) with
      | some job =>
        rw [asyncLoad_of_pending s path cb job hr hj]
        refine ⟨[], by simp, by simp [invoked], fun c hc => ?_⟩
        exact (waiting_mapModify_push _ _ _ _ hc).imp id (by simp [asyncLoadCallbacks])
      | none =>
        rw [asyncLoad_of_new s path cb hr hj]
        refine ⟨[], by simp, by simp [invoked], fun c hc => ?_⟩
        simp only [mapEmplace, hj] at hc
        exact (waiting_mapInsert _ _ _ _ _ hc).imp id (by simp [asyncLoadCallbacks])
  | removeAsyncJob index =>
    simp only [step, removeAsyncJob] at h
    split at h
    · simp only [Except.ok.injEq] at h
      subst h
      exact ⟨[], by simp, by simp [invoked], fun c hc => Or.inl hc⟩
    · split at h
      · simp only [Except.ok.injEq] at h
        subst h
        refine ⟨[], by simp, by simp [invoked], fun c hc => Or.inl ?_⟩
        simp only at hc
        rw [waiting_mapModify_same _ _ _ (fun j => callbacks_cancel j _)] at hc
        exact hc
      · simp at h
  | removeAllAsyncJobs =>
    simp only [step, Except.ok.injEq] at h
    subst h
    refine ⟨[], by simp [removeAllAsyncJobs], by simp [invoked], fun c hc => Or.inl ?_⟩
    simp only [removeAllAsyncJobs] at hc
    rw [waiting_map_cancelAll] at hc
    exact hc
  | decrementReference key =>
    simp only [step, Except.ok.injEq] at h
    subst h
    obtain ⟨⟨new, a1, a2, _⟩, a3, _⟩ := decrementReference_frame s key
    refine ⟨new, a1, by simp [a2], fun c hc => Or.inl ?_⟩
    rw [a3] at hc; exact hc
  | clearResourceManager =>
    simp only [step, Except.ok.injEq] at h
    subst h
    obtain ⟨⟨new, a1, a2, _⟩, _⟩ := destroyAll_frame s.m_resources
      { s with m_asyncJobQueue := [], m_asyncResJobs := [] }
    refine ⟨new, ?_, by simp [a2], fun c hc => ?_⟩
    · simpa [clearResourceManager] using a1
    · simp only [clearResourceManager] at hc
      rw [(destroyAll_frame _ _).2.1] at hc
      simp [waiting] at hc
  | cleanup =>
    simp only [step, Except.ok.injEq] at h
    subst h
    obtain ⟨⟨new, a1, a2, _⟩, a3, _⟩ := destroyAll_frame s.m_resources
      { s with m_running := false, m_formatLoaders := [] }
    refine ⟨new, ?_, by simp [a2], fun c hc => Or.inl ?_⟩
    · simpa [cleanup] using a1
    · simp only [cleanup] at hc
      rw [a3] at hc; exact hc
  | worker =>
    simp only [step] at h
    rcases asyncLoadStart_ok s t h with ⟨_, rfl⟩ | ⟨_, GUID, queue, currJob, p, s4, r, hq, hj, hp, h4, hr, rfl⟩
    · exact ⟨[], by simp, by simp [invoked], fun c hc => Or.inl hc⟩
    · obtain ⟨⟨n1, a1, a2⟩, a3, _⟩ := load_frame
        (emit { s with m_asyncJobQueue := queue } (Event.message (.startedAsync currJob.filepath)))
        currJob.filepath
      obtain ⟨⟨n2, b1, b2⟩, b3, _⟩ := runCallbacks_ok _ _ _ _ h4
      obtain ⟨⟨n3, c1, c2, _⟩, c3, _⟩ := decrementReference_frame s4 r.m_GUID
      refine ⟨Event.message (.startedAsync currJob.filepath) :: (n1 ++ n2 ++ n3
        ++ [Event.message (.doneAsync currJob.filepath)]), ?_, ?_, ?_⟩
      · show (decrementReference s4 r.m_GUID).events
            ++ [Event.message (.doneAsync currJob.filepath)] = _
        rw [c1, b1, a1]
        simp [emit]
      · intro c hc
        left
        simp only [invoked, invoked_append, a2, b2, c2, List.nil_append, List.append_nil,
          List.mem_map, List.mem_filter] at hc
        obtain ⟨cb, ⟨hcb, _⟩, rfl⟩ := hc
        exact mem_waiting_of_mapFind _ _ _ _ hj hcb
      · intro c hc
        left
        have hc2 : c ∈ waiting (mapErase (decrementReference s4 r.m_GUID).m_asyncResJobs GUID) := hc
        rw [c3, b3, a3] at hc2
        exact waiting_mapErase _ _ _ hc2

/-- A sequence of operations calls only continuations that waited at its start
or were passed to `asyncLoad` in the sequence. -/
theorem run_callbacks (ops : List Op) (s t : ResourceManager) (h : run s ops = .ok t) :
    ∃ new, t.events = s.events ++ new ∧
      (∀ c ∈ invoked new, c ∈ waiting s.m_asyncResJobs ∨ c ∈ asyncLoadCallbacks ops) ∧
      (∀ c ∈ waiting t.m_asyncResJobs,
        c ∈ waiting s.m_asyncResJobs ∨ c ∈ asyncLoadCallbacks ops) := by
  induction ops generalizing s with
  | nil =>
    simp only [run, Except.ok.injEq] at h
    subst h
    exact ⟨[], by simp, by simp [invoked], fun c hc => Or.inl hc⟩
  | cons op ops ih =>
    simp only [run] at h
    split at h
    · simp at h
    next s1 h1 =>
      obtain ⟨n1, a1, a2, a3⟩ := step_callbacks s s1 op h1
      obtain ⟨n2, b1, b2, b3⟩ := ih s1 h
      have hcons : ∀ c, c ∈ asyncLoadCallbacks [op] ∨ c ∈ asyncLoadCallbacks ops →
          c ∈ asyncLoadCallbacks (op :: ops) := by
        intro c hc
        cases op <;> simp_all [asyncLoadCallbacks]
      have hlift : ∀ c, c ∈ waiting s1.m_asyncResJobs ∨ c ∈ asyncLoadCallbacks ops →
          c ∈ waiting s.m_asyncResJobs ∨ c ∈ asyncLoadCallbacks (op :: ops) := by
        intro c hc
        rcases hc with hc | hc
        · exact (a3 c hc).imp id (fun x => hcons c (Or.inl x))
        · exact Or.inr (hcons c (Or.inr hc))
      refine ⟨n1 ++ n2, by rw [b1, a1, List.append_assoc], ?_, fun c hc => hlift c (b3 c hc)⟩
      intro c hc
      rw [invoked_append, List.mem_append] at hc
      rcases hc with hc | hc
      · exact (a2 c hc).imp id (fun x => hcons c (Or.inl x))
      · exact hlift c (b2 c hc)
/-! ## Hard reset -/

theorem run_worker_idle (s : ResourceManager) (hjobs : s.m_asyncResJobs = []) (n : Nat) :
    run s (List.replicate n Op.worker) = .ok s := by
  induction n with
  | zero => rfl
  | succ n ih =>
    have e : asyncLoadStart s = .ok s := by simp [asyncLoadStart, hjobs]
    simp only [List.replicate_succ, run, step, e, ih]

/-- C10.  After `clearResourceManager()`, from any state (whatever the
reference counts were): the cache map is empty, both usage counters are 0, the
job queue and the job table are empty, and the capacities and the loader
registry are the ones before the call.  Later turns of the worker on that state
do nothing and end without a fault; and in every sequence of operations run
after the reset, a continuation that is not passed to `asyncLoad` after the
reset, in particular the continuation of a job that was queued before it, is
never called. -/
theorem clearResourceManager_hard_reset (s : ResourceManager) :
    (clearResourceManager s).m_resources = [] ∧
    (clearResourceManager s).m_memUsageCPU = 0 ∧
    (clearResourceManager s).m_memUsageGPU = 0 ∧
    (clearResourceManager s).m_asyncJobQueue = [] ∧
    (clearResourceManager s).m_asyncResJobs = [] ∧
    (clearResourceManager s).m_capacityCPU = s.m_capacityCPU ∧
    (clearResourceManager s).m_capacityGPU = s.m_capacityGPU ∧
    (clearResourceManager s).m_formatLoaders = s.m_formatLoaders ∧
    (∀ n, run (clearResourceManager s) (List.replicate n Op.worker)
      = .ok (clearResourceManager s)) ∧
    (∀ ops t c, run (clearResourceManager s) ops = .ok t → c ∉ asyncLoadCallbacks ops →
      c ∉ invoked (t.events.drop (clearResourceManager s).events.length)) := by
  obtain ⟨_, a2, a3, a4, _, a6, a7, _⟩ := destroyAll_frame s.m_resources
    { s with m_asyncJobQueue := [], m_asyncResJobs := [] }
  have hjobs : (clearResourceManager s).m_asyncResJobs = [] := by
    simp only [clearResourceManager]; exact a2
  refine ⟨rfl, rfl, rfl, ?_, hjobs, ?_, ?_, ?_, run_worker_idle _ hjobs, ?_⟩
  · simp only [clearResourceManager]; exact a3
  · simp only [clearResourceManager]; exact a6
  · simp only [clearResourceManager]; exact a7
  · simp only [clearResourceManager]; exact a4
  · intro ops t c hrun hc hinv
    obtain ⟨new, b1, b2, _⟩ := run_callbacks ops _ t hrun
    rw [b1, List.drop_left] at hinv
    rcases b2 c hinv with h | h
    · rw [hjobs] at h; simp [waiting] at h
    · exact hc h

theorem clearResourceManager_hard_reset_witness :
    (clearResourceManager rmPending).m_asyncResJobs = [] ∧
    ∃ t, run (clearResourceManager rmPending)
        [Op.worker, Op.asyncLoad "bb.obj" 8, Op.load "a.obj", Op.worker] = .ok t ∧
      invoked t.events = [8] ∧
      7 ∉ invoked (t.events.drop (clearResourceManager rmPending).events.length) :=
  ⟨(clearResourceManager_hard_reset rmPending).2.2.2.2.1, _, rfl, by decide,
    (clearResourceManager_hard_reset rmPending).2.2.2.2.2.2.2.2.2
      [Op.worker, Op.asyncLoad "bb.obj" 8, Op.load "a.obj", Op.worker] _ 7 rfl (by decide)⟩
/-! ## The fast path of `asyncLoad` -/

theorem asyncLoad_of_resident (s : ResourceManager) (P : String) (c p : Nat)
    (hres : mapFind s.m_resources (s.m_pathHasher P) = some p) :
    asyncLoad s P c = (deliver s c p, { GUID := 0, IndexOfCallback := 0 }) := by
  simp only [asyncLoad, hres]

/-- C11.  When `hash(P)` is resident with object `p`, `asyncLoad(P, c)` returns
the handle `(0, 0)`; the reference count of `p` is one more than before and no
other heap cell changes; exactly one event is recorded, the call of `c` with
`p`, made after the increment (so no loader is invoked); and the job table, the
job queue, the cache map and both budget counters are the ones before the
call. -/
theorem asyncLoad_fast_path (s : ResourceManager) (P : String) (c p : Nat) (r : Resource)
    (hres : mapFind s.m_resources (s.m_pathHasher P) = some p)
    (hheap : s.heap[p]? = some r) :
    (asyncLoad s P c).2 = { GUID := 0, IndexOfCallback := 0 } ∧
    (asyncLoad s P c).1.heap[p]? = some { r with m_refCount := r.m_refCount + 1 } ∧
    (∀ q, q ≠ p → (asyncLoad s P c).1.heap[q]? = s.heap[q]?) ∧
    (asyncLoad s P c).1.events = s.events ++ [Event.invoke c p (r.m_refCount + 1)] ∧
    (asyncLoad s P c).1.m_asyncResJobs = s.m_asyncResJobs ∧
    (asyncLoad s P c).1.m_asyncJobQueue = s.m_asyncJobQueue ∧
    (asyncLoad s P c).1.m_resources = s.m_resources ∧
    (asyncLoad s P c).1.m_memUsageCPU = s.m_memUsageCPU ∧
    (asyncLoad s P c).1.m_memUsageGPU = s.m_memUsageGPU := by
  rw [asyncLoad_of_resident s P c p hres]
  refine ⟨rfl, ?_, ?_, ?_, rfl, rfl, rfl, rfl, rfl⟩
  · simp [deliver, emit, referAt, hheap, Resource.refer]
  · intro q hq
    simp [deliver, emit, referAt, List.getElem?_modify_ne _ _ (Ne.symm hq)]
  · simp [deliver, emit, referAt, refCountAt, hheap, Resource.refer]

theorem asyncLoad_fast_path_witness :
    (asyncLoad rmLoadedTwice "a.obj" 9).2 = { GUID := 0, IndexOfCallback := 0 } ∧
    (asyncLoad rmLoadedTwice "a.obj" 9).1.heap[0]?
      = some { m_GUID := 5, m_refCount := 2 + 1, m_sizeCPU := 600, m_sizeGPU := 100,
               m_path := "a.obj", destroyed := false } ∧
    (asyncLoad rmLoadedTwice "a.obj" 9).1.events
      = rmLoadedTwice.events ++ [Event.invoke 9 0 (2 + 1)] :=
  have h := asyncLoad_fast_path rmLoadedTwice "a.obj" 9 0
    { m_GUID := 5, m_refCount := 2, m_sizeCPU := 600, m_sizeGPU := 100, m_path := "a.obj",
      destroyed := false } (by decide) (by decide)
  ⟨h.1, h.2.1, h.2.2.2.1⟩
/-! ## Evaluations: the second budget test and bulk cancellation -/

/-- C17 (evaluation at the failing input).  The loader constructs objects of
600 bytes CPU and 100 bytes GPU.  With capacities 1000 and 50, `load("a.obj")`
raises the GPU counter to 100, above its capacity 50, and records no GPU
warning, because the CPU counter 600 is within 1000.  With capacities 500 and
1000, the same load leaves the GPU counter at 100, within 1000, and records a
GPU warning, because the CPU counter 600 is above 500. -/
theorem load_gpu_warning_follows_cpu_counter :
    (load rmTightGPU "a.obj").1.m_memUsageGPU = 100 ∧
    (load rmTightGPU "a.obj").1.m_capacityGPU = 50 ∧
    gpuWarnings (load rmTightGPU "a.obj").1.events = [] ∧
    (load rmTightCPU "a.obj").1.m_memUsageGPU = 100 ∧
    (load rmTightCPU "a.obj").1.m_capacityGPU = 1000 ∧
    gpuWarnings (load rmTightCPU "a.obj").1.events
      = [Event.message (.exceedsGPU 0 0)] := by
  decide

/-- C14 (evaluation at the failing input).  One continuation waits for
"a.xyz", which no loader supports.  `removeAllAsyncJobs()` clears its flag and
keeps the job; the worker turn that serves the job then ends in a null
dereference (`res->getGUID()` on the null result of `load`), so the job is not
erased by a turn that completes. -/
theorem worker_after_removeAll_unsupported_faults :
    (run rmOne [Op.asyncLoad "a.xyz" 1, Op.removeAllAsyncJobs]).toOption.map
        (fun s => s.m_asyncResJobs)
      = some [(5, { filepath := "a.xyz", callbacks := [{ run := false, callback := 1 }] })] ∧
    (run rmOne [Op.asyncLoad "a.xyz" 1, Op.removeAllAsyncJobs]).toOption.map
        (fun s => s.m_asyncJobQueue)
      = some [5] ∧
    faultOf (run rmOne [Op.asyncLoad "a.xyz" 1, Op.removeAllAsyncJobs, Op.worker])
      = some Fault.nullDereference := by
  decide
/-! ## Budget accounting -/

theorem cpuWarnings_append (a b : List Event) :
    cpuWarnings (a ++ b) = cpuWarnings a ++ cpuWarnings b := by
  simp [cpuWarnings]

theorem gpuWarnings_append (a b : List Event) :
    gpuWarnings (a ++ b) = gpuWarnings a ++ gpuWarnings b := by
  simp [gpuWarnings]

theorem cpuWarnings_resourceLines (heap : List Resource) (size : Resource → Nat)
    (m : List (Nat × Nat)) : cpuWarnings (resourceLines heap size m) = [] := by
  induction m with
  | nil => rfl
  | cons e m ih =>
    obtain ⟨k, p⟩ := e
    simp only [resourceLines]
    split
    · simpa [cpuWarnings] using ih
    · exact ih

theorem gpuWarnings_resourceLines (heap : List Resource) (size : Resource → Nat)
    (m : List (Nat × Nat)) : gpuWarnings (resourceLines heap size m) = [] := by
  induction m with
  | nil => rfl
  | cons e m ih =>
    obtain ⟨k, p⟩ := e
    simp only [resourceLines]
    split
    · simpa [gpuWarnings] using ih
    · exact ih

theorem cpuWarnings_cons (e : Event) (es : List Event) :
    cpuWarnings (e :: es)
      = (match e with
          | .message (.exceedsCPU _ _) => [e]
          | _ => []) ++ cpuWarnings es := by
  cases e with
  | message m => cases m <;> simp [cpuWarnings]
  | _ => simp [cpuWarnings]

theorem gpuWarnings_cons (e : Event) (es : List Event) :
    gpuWarnings (e :: es)
      = (match e with
          | .message (.exceedsGPU _ _) => [e]
          | _ => []) ++ gpuWarnings es := by
  cases e with
  | message m => cases m <;> simp [gpuWarnings]
  | _ => simp [gpuWarnings]

theorem cpuWarnings_nil : cpuWarnings [] = [] := rfl

theorem gpuWarnings_nil : gpuWarnings [] = [] := rfl

/-- The counters after a decode, and the warnings it records: both warnings
depend on the comparison of the CPU counter with the CPU capacity. -/
theorem loadWith_budget (s : ResourceManager) (FL : FormatLoader) (i : Nat) (path : String)
    (hashedPath : Nat) :
    (loadWith s FL i path hashedPath).1.m_memUsageCPU
      = uintAdd s.m_memUsageCPU (FL.decode path).sizeCPU ∧
    (loadWith s FL i path hashedPath).1.m_memUsageGPU
      = uintAdd s.m_memUsageGPU (FL.decode path).sizeGPU ∧
    cpuWarnings ((loadWith s FL i path hashedPath).1.events.drop s.events.length)
      = (if uintAdd s.m_memUsageCPU (FL.decode path).sizeCPU > s.m_capacityCPU then
          [Event.message (.exceedsCPU (uintAdd s.m_memUsageCPU (FL.decode path).sizeCPU / 1024)
            (s.m_capacityCPU / 1024))]
        else []) ∧
    gpuWarnings ((loadWith s FL i path hashedPath).1.events.drop s.events.length)
      = (if uintAdd s.m_memUsageCPU (FL.decode path).sizeCPU > s.m_capacityCPU then
          [Event.message (.exceedsGPU (uintAdd s.m_memUsageGPU (FL.decode path).sizeGPU / 1024)
            (s.m_capacityGPU / 1024))]
        else []) := by
  by_cases hc : uintAdd s.m_memUsageCPU (FL.decode path).sizeCPU > s.m_capacityCPU
  · by_cases hd : s.debugBuild = true
    · simp [loadWith, hc, hd, FormatLoader.load, Resource.setPath, Resource.refer,
        cpuWarnings_cons, gpuWarnings_cons, cpuWarnings_nil, gpuWarnings_nil]
    · simp [loadWith, hc, hd, FormatLoader.load, Resource.setPath, Resource.refer,
        cpuWarnings_append, gpuWarnings_append, cpuWarnings_resourceLines,
        gpuWarnings_resourceLines, cpuWarnings_cons, gpuWarnings_cons, cpuWarnings_nil,
        gpuWarnings_nil]
  · simp [loadWith, hc, FormatLoader.load, Resource.setPath, Resource.refer,
      cpuWarnings_cons, gpuWarnings_cons, cpuWarnings_nil, gpuWarnings_nil]
theorem loadLoop_skip (path : String) (hashedPath : Nat) (ext : String)
    (pre rest : List FormatLoader) (i : Nat) (s : ResourceManager) (res : Option Nat)
    (hpre : ∀ F ∈ pre, F.extensionSupported ext = false) :
    loadLoop path hashedPath ext (pre ++ rest) i s res
      = loadLoop path hashedPath ext rest (i + pre.length) s res := by
  induction pre generalizing i with
  | nil => rfl
  | cons F pre ih =>
    have h1 : F.extensionSupported ext = false := hpre F (List.mem_cons_self _ _)
    rw [List.cons_append]
    simp only [loadLoop, h1, Bool.false_eq_true, if_false, List.length_cons]
    have e := ih (i + 1) (fun G hG => hpre G (List.mem_cons_of_mem _ hG))
    have e2 : i + 1 + pre.length = i + (pre.length + 1) := by omega
    rw [e2] at e
    exact e

/-- With exactly one supporting loader in the registry, the loop of `load` is
the single decode by that loader. -/
theorem loadLoop_unique (path : String) (hashedPath : Nat) (ext : String)
    (pre : List FormatLoader) (FL : FormatLoader) (post : List FormatLoader) (i : Nat)
    (s : ResourceManager) (res : Option Nat)
    (hpre : ∀ F ∈ pre, F.extensionSupported ext = false)
    (hFL : FL.extensionSupported ext = true)
    (hpost : ∀ F ∈ post, F.extensionSupported ext = false) :
    loadLoop path hashedPath ext (pre ++ FL :: post) i s res
      = ((loadWith s FL (i + pre.length) path hashedPath).1,
         some (loadWith s FL (i + pre.length) path hashedPath).2) := by
  rw [loadLoop_skip _ _ _ _ _ _ _ _ hpre]
  simp only [loadLoop, hFL, if_true]
  exact loadLoop_unsupported _ _ _ _ _ _ _ hpost

/-- C12 (as amended).  Let `P` be not resident and let exactly one registered
loader `FL` support its extension.  Whatever the capacities and the current
usage are, `load(P)` returns the object `FL` decoded and the cache map holds it
under `hash(P)`; the CPU counter becomes `(memUsageCPU + sizeCPU) mod 2 ^ 32`
and the GPU counter `(memUsageGPU + sizeGPU) mod 2 ^ 32`, which is an increase
by exactly the size whenever the sum is below `2 ^ 32`; the capacities are
unchanged; and the load records one CPU warning when the new CPU counter is
greater than the CPU capacity and none otherwise. -/
theorem load_accounts_budgets (s : ResourceManager) (P : String)
    (pre : List FormatLoader) (FL : FormatLoader) (post : List FormatLoader)
    (hres : mapFind s.m_resources (s.m_pathHasher P) = none)
    (hreg : s.m_formatLoaders = pre ++ FL :: post)
    (hpre : ∀ F ∈ pre, F.extensionSupported (s.extension P) = false)
    (hFL : FL.extensionSupported (s.extension P) = true)
    (hpost : ∀ F ∈ post, F.extensionSupported (s.extension P) = false) :
    (load s P).2 = some s.heap.length ∧
    mapFind (load s P).1.m_resources (s.m_pathHasher P) = some s.heap.length ∧
    (load s P).1.heap[s.heap.length]?
      = some ((FL.load P (s.m_pathHasher P)).setPath P).refer ∧
    (load s P).1.m_memUsageCPU = (s.m_memUsageCPU + (FL.decode P).sizeCPU) % 2 ^ 32 ∧
    (load s P).1.m_memUsageGPU = (s.m_memUsageGPU + (FL.decode P).sizeGPU) % 2 ^ 32 ∧
    (s.m_memUsageCPU + (FL.decode P).sizeCPU < 2 ^ 32 →
      (load s P).1.m_memUsageCPU = s.m_memUsageCPU + (FL.decode P).sizeCPU) ∧
    (s.m_memUsageGPU + (FL.decode P).sizeGPU < 2 ^ 32 →
      (load s P).1.m_memUsageGPU = s.m_memUsageGPU + (FL.decode P).sizeGPU) ∧
    (load s P).1.m_capacityCPU = s.m_capacityCPU ∧
    (load s P).1.m_capacityGPU = s.m_capacityGPU ∧
    cpuWarnings ((load s P).1.events.drop s.events.length)
      = (if (load s P).1.m_memUsageCPU > s.m_capacityCPU then
          [Event.message (.exceedsCPU ((load s P).1.m_memUsageCPU / 1024)
            (s.m_capacityCPU / 1024))]
        else []) := by
  rw [load_of_absent s P hres, hreg, loadLoop_unique _ _ _ _ _ _ _ _ _ hpre hFL hpost]
  obtain ⟨a1, a2, a3, _, _, _, _, _, _, a10, a11⟩ :=
    loadWith_frame s FL (0 + pre.length) P (s.m_pathHasher P)
  obtain ⟨b1, b2, b3, _⟩ := loadWith_budget s FL (0 + pre.length) P (s.m_pathHasher P)
  have hc : (loadWith s FL (0 + pre.length) P (s.m_pathHasher P)).1.m_memUsageCPU
      = (s.m_memUsageCPU + (FL.decode P).sizeCPU) % 2 ^ 32 := by rw [b1]; rfl
  have hg : (loadWith s FL (0 + pre.length) P (s.m_pathHasher P)).1.m_memUsageGPU
      = (s.m_memUsageGPU + (FL.decode P).sizeGPU) % 2 ^ 32 := by rw [b2]; rfl
  refine ⟨by rw [a1], ?_, ?_, hc, hg, ?_, ?_, a10, a11, ?_⟩
  · simp only [a3]; exact mapFind_mapEmplace_absent _ _ _ hres
  · simp only [a2]; exact getElem?_append_cons_length _ _ _
  · intro h; simp only [hc]; exact Nat.mod_eq_of_lt h
  · intro h; simp only [hg]; exact Nat.mod_eq_of_lt h
  · simp only [b3, b1]

/-- C12 (counterexample).  The ".big" loader constructs objects of `2 ^ 31`
bytes.  After `load("a.big")` the CPU counter is `2 ^ 31`; the second load, of
"bb.big", is not resident, is supported by exactly one loader, returns its
object of `2 ^ 31` bytes, and leaves the CPU counter at 0 rather than at
`2 ^ 31 + 2 ^ 31`. -/
theorem load_counter_wraps :
    (load rmBig "a.big").1.m_memUsageCPU = 2147483648 ∧
    mapFind (load rmBig "a.big").1.m_resources ((load rmBig "a.big").1.m_pathHasher "bb.big")
      = none ∧
    (load (load rmBig "a.big").1 "bb.big").2 = some 1 ∧
    ((load (load rmBig "a.big").1 "bb.big").1.heap[1]?).map Resource.m_sizeCPU
      = some 2147483648 ∧
    (load (load rmBig "a.big").1 "bb.big").1.m_memUsageCPU = 0 ∧
    (load (load rmBig "a.big").1 "bb.big").1.m_memUsageCPU
      ≠ (load rmBig "a.big").1.m_memUsageCPU + 2147483648 := by
  decide

theorem load_accounts_budgets_witness :
    (load rmTightGPU "a.obj").1.m_memUsageCPU = 600 ∧
    cpuWarnings (load rmTightGPU "a.obj").1.events = [] ∧
    (load (load rmTightGPU "a.obj").1 "bb.obj").2 = some (load rmTightGPU "a.obj").1.heap.length ∧
    (load (load rmTightGPU "a.obj").1 "bb.obj").1.m_memUsageCPU = 600 + 600 ∧
    (load (load rmTightGPU "a.obj").1 "bb.obj").1.m_capacityCPU = 1000 ∧
    cpuWarnings ((load (load rmTightGPU "a.obj").1 "bb.obj").1.events.drop
        (load rmTightGPU "a.obj").1.events.length)
      = [Event.message (.exceedsCPU 1 0)] :=
  have h := load_accounts_budgets (load rmTightGPU "a.obj").1 "bb.obj" [] objA []
    (by decide) rfl (by decide) (by decide) (by decide)
  ⟨by decide, by decide, h.1, h.2.2.2.2.2.1 (by decide), h.2.2.2.2.2.2.2.1,
    h.2.2.2.2.2.2.2.2.2.trans (by decide)⟩
/-! ## Counters and eviction -/

theorem decrementReference_frame2 (s : ResourceManager) (key : Nat) :
    (decrementReference s key).m_pathHasher = s.m_pathHasher ∧
    (decrementReference s key).extension = s.extension ∧
    (decrementReference s key).m_capacityCPU = s.m_capacityCPU ∧
    (decrementReference s key).m_capacityGPU = s.m_capacityGPU ∧
    (decrementReference s key).m_running = s.m_running ∧
    (decrementReference s key).heap.length = s.heap.length := by
  unfold decrementReference
  split
  · exact ⟨rfl, rfl, rfl, rfl, rfl, rfl⟩
  · split
    · exact ⟨rfl, rfl, rfl, rfl, rfl, rfl⟩
    · split
      · exact ⟨rfl, rfl, rfl, rfl, rfl, by simp⟩
      · exact ⟨rfl, rfl, rfl, rfl, rfl, by simp⟩

theorem decrementReferenceN_frame (key n : Nat) (s : ResourceManager) :
    (decrementReferenceN s key n).m_memUsageCPU = s.m_memUsageCPU ∧
    (decrementReferenceN s key n).m_memUsageGPU = s.m_memUsageGPU ∧
    (decrementReferenceN s key n).m_formatLoaders = s.m_formatLoaders ∧
    (decrementReferenceN s key n).m_pathHasher = s.m_pathHasher ∧
    (decrementReferenceN s key n).extension = s.extension ∧
    (decrementReferenceN s key n).heap.length = s.heap.length := by
  induction n generalizing s with
  | zero => exact ⟨rfl, rfl, rfl, rfl, rfl, rfl⟩
  | succ n ih =>
    obtain ⟨a1, a2, a3, a4, a5, a6⟩ := ih (decrementReference s key)
    obtain ⟨_, _, _, b4, b5, b6⟩ := decrementReference_frame s key
    obtain ⟨c1, c2, _, _, _, c6⟩ := decrementReference_frame2 s key
    exact ⟨a1.trans b5, a2.trans b6, a3.trans b4, a4.trans c1, a5.trans c2, a6.trans c6⟩

/-- Releases below the reference count leave the cache map alone. -/
theorem decrementReferenceN_below_resources (key p j : Nat) (s : ResourceManager) (r : Resource)
    (hres : mapFind s.m_resources key = some p) (hheap : s.heap[p]? = some r)
    (hlt : (j : Int) < r.m_refCount) :
    (decrementReferenceN s key j).m_resources = s.m_resources := by
  induction j generalizing s r with
  | zero => rfl
  | succ j ih =>
    have hp : p < s.heap.length := by
      rcases List.getElem?_eq_some_iff.mp hheap with ⟨h, _⟩
      exact h
    have hne : r.m_refCount ≠ 1 := by push_cast at hlt; omega
    have e := decrementReference_keep s key p r hres hheap hne
    have hres1 : mapFind (decrementReference s key).m_resources key = some p := by
      rw [e]; exact hres
    have hheap1 : (decrementReference s key).heap[p]? = some r.derefer := by
      rw [e]; simp [hp]
    have hlt1 : (j : Int) < r.derefer.m_refCount := by
      simp only [Resource.derefer]; push_cast at hlt; omega
    simp only [decrementReferenceN]
    rw [ih (decrementReference s key) r.derefer hres1 hheap1 hlt1, e]

/-- As many releases as the reference count erase the key. -/
theorem decrementReferenceN_release (key p n : Nat) (s : ResourceManager) (r : Resource)
    (hres : mapFind s.m_resources key = some p) (hheap : s.heap[p]? = some r)
    (hrc : r.m_refCount = (n : Int) + 1) :
    (decrementReferenceN s key (n + 1)).m_resources = mapErase s.m_resources key := by
  obtain ⟨a1, a2, _⟩ := decrementReferenceN_below key p n s r hres hheap (by omega)
  have a3 := decrementReferenceN_below_resources key p n s r hres hheap (by omega)
  rw [decrementReferenceN_succ,
    decrementReference_last _ _ _ _ a1 a2 (by simp only [hrc]; omega)]
  simp only [a3]

theorem load_unique_resources (s : ResourceManager) (P : String)
    (pre : List FormatLoader) (FL : FormatLoader) (post : List FormatLoader)
    (hres : mapFind s.m_resources (s.m_pathHasher P) = none)
    (hreg : s.m_formatLoaders = pre ++ FL :: post)
    (hpre : ∀ F ∈ pre, F.extensionSupported (s.extension P) = false)
    (hFL : FL.extensionSupported (s.extension P) = true)
    (hpost : ∀ F ∈ post, F.extensionSupported (s.extension P) = false) :
    (load s P).1.m_resources = mapInsert s.m_resources (s.m_pathHasher P) s.heap.length ∧
    (load s P).1.heap = s.heap ++ [((FL.load P (s.m_pathHasher P)).setPath P).refer] ∧
    (load s P).1.m_formatLoaders = s.m_formatLoaders ∧
    (load s P).1.m_pathHasher = s.m_pathHasher ∧
    (load s P).1.extension = s.extension := by
  rw [load_of_absent s P hres, hreg, loadLoop_unique _ _ _ _ _ _ _ _ _ hpre hFL hpost]
  obtain ⟨_, a2, a3, a4, a5, a6, _⟩ := loadWith_frame s FL (0 + pre.length) P (s.m_pathHasher P)
  refine ⟨?_, a2, by rw [a4, hreg], a5, a6⟩
  rw [a3]; simp only [mapEmplace, hres]
theorem load_unique_usage (s : ResourceManager) (P : String)
    (pre : List FormatLoader) (FL : FormatLoader) (post : List FormatLoader)
    (hres : mapFind s.m_resources (s.m_pathHasher P) = none)
    (hreg : s.m_formatLoaders = pre ++ FL :: post)
    (hpre : ∀ F ∈ pre, F.extensionSupported (s.extension P) = false)
    (hFL : FL.extensionSupported (s.extension P) = true)
    (hpost : ∀ F ∈ post, F.extensionSupported (s.extension P) = false) :
    (load s P).1.m_memUsageCPU = (s.m_memUsageCPU + (FL.decode P).sizeCPU) % 2 ^ 32 ∧
    (load s P).1.m_memUsageGPU = (s.m_memUsageGPU + (FL.decode P).sizeGPU) % 2 ^ 32 := by
  rw [load_of_absent s P hres, hreg, loadLoop_unique _ _ _ _ _ _ _ _ _ hpre hFL hpost]
  obtain ⟨b1, b2, _⟩ := loadWith_budget s FL (0 + pre.length) P (s.m_pathHasher P)
  exact ⟨by rw [b1]; rfl, by rw [b2]; rfl⟩

/-- C18 (as amended).  `decrementReference` leaves both usage counters as they
are, for every state and key, also when it destroys the object and erases the
key.  Hence, starting with an empty cache map and a CPU counter of 0, with
exactly one loader `FL` for the extension of `P` that constructs with
reference count `n`: after `load(P)` and `n + 1` releases the map is empty and
the counter still holds the size; a second `load(P)` leaves the counter at
`(2 * sizeCPU) mod 2 ^ 32`, which is twice the size when that is below
`2 ^ 32`, with a single resident object. -/
theorem counters_survive_eviction (s : ResourceManager) (P : String)
    (pre : List FormatLoader) (FL : FormatLoader) (post : List FormatLoader) (n : Nat)
    (hmap : s.m_resources = []) (hcpu : s.m_memUsageCPU = 0)
    (hreg : s.m_formatLoaders = pre ++ FL :: post)
    (hpre : ∀ F ∈ pre, F.extensionSupported (s.extension P) = false)
    (hFL : FL.extensionSupported (s.extension P) = true)
    (hpost : ∀ F ∈ post, F.extensionSupported (s.extension P) = false)
    (hrc : (FL.decode P).refCount = (n : Int)) :
    (∀ u key, (decrementReference u key).m_memUsageCPU = u.m_memUsageCPU ∧
      (decrementReference u key).m_memUsageGPU = u.m_memUsageGPU) ∧
    (decrementReferenceN (load s P).1 (s.m_pathHasher P) (n + 1)).m_resources = [] ∧
    (decrementReferenceN (load s P).1 (s.m_pathHasher P) (n + 1)).m_memUsageCPU
      = (FL.decode P).sizeCPU % 2 ^ 32 ∧
    (load (decrementReferenceN (load s P).1 (s.m_pathHasher P) (n + 1)) P).1.m_memUsageCPU
      = (2 * (FL.decode P).sizeCPU) % 2 ^ 32 ∧
    (2 * (FL.decode P).sizeCPU < 2 ^ 32 →
      (load (decrementReferenceN (load s P).1 (s.m_pathHasher P) (n + 1)) P).1.m_memUsageCPU
        = 2 * (FL.decode P).sizeCPU) ∧
    (load (decrementReferenceN (load s P).1 (s.m_pathHasher P) (n + 1)) P).1.m_resources
      = [(s.m_pathHasher P, s.heap.length + 1)] := by
  have hres : mapFind s.m_resources (s.m_pathHasher P) = none := by rw [hmap]; rfl
  obtain ⟨b4, _⟩ := load_unique_usage s P pre FL post hres hreg hpre hFL hpost
  obtain ⟨c1, c2, c3, c4, c5⟩ := load_unique_resources s P pre FL post hres hreg hpre hFL hpost
  have hm1 : (load s P).1.m_resources = [(s.m_pathHasher P, s.heap.length)] := by
    rw [c1, hmap]; rfl
  have hfind1 : mapFind (load s P).1.m_resources (s.m_pathHasher P) = some s.heap.length := by
    rw [hm1]; simp [mapFind]
  have hheap1 : (load s P).1.heap[s.heap.length]?
      = some ((FL.load P (s.m_pathHasher P)).setPath P).refer := by
    rw [c2]; exact getElem?_append_cons_length _ _ _
  have hrc1 : (((FL.load P (s.m_pathHasher P)).setPath P).refer).m_refCount = (n : Int) + 1 := by
    simp [FormatLoader.load, Resource.setPath, Resource.refer, hrc]
  have hm2 := decrementReferenceN_release (s.m_pathHasher P) s.heap.length n (load s P).1 _
    hfind1 hheap1 hrc1
  obtain ⟨d1, _, d3, d4, d5, d6⟩ := decrementReferenceN_frame (s.m_pathHasher P) (n + 1)
    (load s P).1
  have hm2e : (decrementReferenceN (load s P).1 (s.m_pathHasher P) (n + 1)).m_resources = [] := by
    rw [hm2, hm1]; simp [mapErase]
  have hu2 : (decrementReferenceN (load s P).1 (s.m_pathHasher P) (n + 1)).m_memUsageCPU
      = (FL.decode P).sizeCPU % 2 ^ 32 := by
    rw [d1, b4, hcpu, Nat.zero_add]
  have hh2 : (decrementReferenceN (load s P).1 (s.m_pathHasher P) (n + 1)).m_pathHasher
      = s.m_pathHasher := d4.trans c4
  have he2 : (decrementReferenceN (load s P).1 (s.m_pathHasher P) (n + 1)).extension
      = s.extension := d5.trans c5
  have hl2 : (decrementReferenceN (load s P).1 (s.m_pathHasher P) (n + 1)).m_formatLoaders
      = pre ++ FL :: post := (d3.trans c3).trans hreg
  have hres2 : mapFind (decrementReferenceN (load s P).1 (s.m_pathHasher P) (n + 1)).m_resources
      ((decrementReferenceN (load s P).1 (s.m_pathHasher P) (n + 1)).m_pathHasher P) = none := by
    rw [hm2e]; rfl
  obtain ⟨f4, _⟩ := load_unique_usage _ P pre FL post hres2 hl2
    (by rw [he2]; exact hpre) (by rw [he2]; exact hFL) (by rw [he2]; exact hpost)
  obtain ⟨g1, _⟩ := load_unique_resources _ P pre FL post hres2 hl2
    (by rw [he2]; exact hpre) (by rw [he2]; exact hFL) (by rw [he2]; exact hpost)
  have hu3 : (load (decrementReferenceN (load s P).1 (s.m_pathHasher P) (n + 1)) P).1.m_memUsageCPU
      = (2 * (FL.decode P).sizeCPU) % 2 ^ 32 := by
    rw [f4, hu2]; omega
  refine ⟨fun u key => ?_, hm2e, hu2, hu3, ?_, ?_⟩
  · obtain ⟨_, _, _, _, h5, h6⟩ := decrementReference_frame u key
    exact ⟨h5, h6⟩
  · intro hlt
    rw [hu3]; exact Nat.mod_eq_of_lt hlt
  · rw [g1, hm2e, hh2, d6, c2]
    simp [mapInsert]

/-- C18 (counterexample).  With the ".big" loader (objects of `2 ^ 31` bytes,
constructed with reference count 0): `load("a.big")`, one release, which
erases the key, and `load("a.big")` again leave one resident object of
`2 ^ 31` bytes and a CPU counter of 0, not `2 * 2 ^ 31`. -/
theorem counter_after_reload_wraps :
    (decrementReferenceN (load rmBig "a.big").1 5 1).m_resources = [] ∧
    (load (decrementReferenceN (load rmBig "a.big").1 5 1) "a.big").1.m_resources = [(5, 1)] ∧
    ((load (decrementReferenceN (load rmBig "a.big").1 5 1) "a.big").1.heap[1]?).map
        Resource.m_sizeCPU = some 2147483648 ∧
    (load (decrementReferenceN (load rmBig "a.big").1 5 1) "a.big").1.m_memUsageCPU = 0 ∧
    (load (decrementReferenceN (load rmBig "a.big").1 5 1) "a.big").1.m_memUsageCPU
      ≠ 2 * 2147483648 := by
  decide

theorem counters_survive_eviction_witness :
    (decrementReferenceN (load rmOne "a.obj").1 5 (0 + 1)).m_resources = [] ∧
    (load (decrementReferenceN (load rmOne "a.obj").1 5 (0 + 1)) "a.obj").1.m_memUsageCPU
      = 2 * 600 ∧
    (load (decrementReferenceN (load rmOne "a.obj").1 5 (0 + 1)) "a.obj").1.m_resources
      = [(5, 0 + 1)] :=
  have h := counters_survive_eviction rmOne "a.obj" [] objA [] 0 rfl rfl rfl
    (by decide) (by decide) (by decide) rfl
  ⟨h.2.1, h.2.2.2.2.1 (by decide), h.2.2.2.2.2⟩
/-! ## The turn of the worker, put together -/

theorem length_pos_of_mapFind {α : Type} (m : List (Nat × α)) (key : Nat) (v : α)
    (h : mapFind m key = some v) : m.length > 0 := by
  cases m with
  | nil => simp [mapFind] at h
  | cons e m => simp

theorem runCallbacks_some_total (p : Nat) (cbs : List AsyncJobCallback) (s : ResourceManager) :
    ∃ t, runCallbacks (some p) cbs s = .ok t := by
  induction cbs generalizing s with
  | nil => exact ⟨s, rfl⟩
  | cons c rest ih =>
    by_cases hr : c.run = true
    · simp only [runCallbacks, hr, if_true]; exact ih _
    · have hr2 : c.run = false := by simpa using hr
      simp only [runCallbacks, hr2, Bool.false_eq_true, if_false]; exact ih _

theorem runCallbacks_decodes (res : Option Nat) (cbs : List AsyncJobCallback)
    (s t : ResourceManager) (h : runCallbacks res cbs s = .ok t) :
    ∃ new, t.events = s.events ++ new ∧ decodes new = [] ∧ startedPaths new = [] := by
  induction cbs generalizing s with
  | nil =>
    simp only [runCallbacks, Except.ok.injEq] at h
    subst h
    exact ⟨[], by simp, rfl, rfl⟩
  | cons c rest ih =>
    by_cases hr : c.run = true
    · simp only [runCallbacks, hr, if_true] at h
      cases res with
      | none => simp at h
      | some p =>
        simp only at h
        obtain ⟨new, a1, a2, a3⟩ := ih _ h
        refine ⟨Event.invoke c.callback p (refCountAt (referAt s p) p) :: new, ?_, ?_, ?_⟩
        · rw [a1]; simp [deliver, emit, referAt]
        · simpa [decodes] using a2
        · simpa [startedPaths] using a3
    · have hr2 : c.run = false := by simpa using hr
      simp only [runCallbacks, hr2, Bool.false_eq_true, if_false] at h
      exact ih _ h

/-- A turn of the worker whose `load` returns an object of the heap completes:
the loop over the callbacks has a result `s4`, the object is still in the heap
and the turn ends in the state built from `s4`. -/
theorem asyncLoadStart_total (s : ResourceManager) (GUID : Nat) (queue : List Nat)
    (currJob : AsyncJob) (p : Nat)
    (hrun : s.m_running = true)
    (hq : s.m_asyncJobQueue = GUID :: queue)
    (hj : mapFind s.m_asyncResJobs GUID = some currJob)
    (hp : (load (emit { s with m_asyncJobQueue := queue }
      (Event.message (.startedAsync currJob.filepath))) currJob.filepath).2 = some p)
    (hvalid : p < (load (emit { s with m_asyncJobQueue := queue }
      (Event.message (.startedAsync currJob.filepath))) currJob.filepath).1.heap.length) :
    ∃ s4 r,
      runCallbacks (some p) currJob.callbacks
        (load (emit { s with m_asyncJobQueue := queue }
          (Event.message (.startedAsync currJob.filepath))) currJob.filepath).1 = .ok s4 ∧
      s4.heap[p]? = some r ∧
      asyncLoadStart s = .ok
        (emit { decrementReference s4 r.m_GUID with
                m_asyncResJobs := mapErase (decrementReference s4 r.m_GUID).m_asyncResJobs GUID }
          (Event.message (.doneAsync currJob.filepath))) := by
  obtain ⟨s4, h4⟩ := runCallbacks_some_total p currJob.callbacks
    (load (emit { s with m_asyncJobQueue := queue }
      (Event.message (.startedAsync currJob.filepath))) currJob.filepath).1
  have hlen := (runCallbacks_ok _ _ _ _ h4).2.2.2.2.2.2.2.2.2
  have hp4 : p < s4.heap.length := by rw [hlen]; exact hvalid
  refine ⟨s4, s4.heap[p], h4, List.getElem?_eq_getElem hp4, ?_⟩
  have hc : s.m_asyncResJobs.length > 0 ∧ s.m_running = true :=
    ⟨length_pos_of_mapFind _ _ _ hj, hrun⟩
  unfold asyncLoadStart
  rw [if_pos hc]
  simp only [hq, hj, hp, h4, List.getElem?_eq_getElem hp4]
/-! ## More on `load`: the kind of its events, other keys, the returned object -/

theorem sameConfig_refl (s : ResourceManager) : sameConfig s s :=
  ⟨rfl, rfl, rfl, rfl, rfl, rfl, rfl⟩

theorem sameConfig_trans {s t u : ResourceManager} (h1 : sameConfig s t) (h2 : sameConfig t u) :
    sameConfig s u := by
  obtain ⟨a1, a2, a3, a4, a5, a6, a7⟩ := h1
  obtain ⟨b1, b2, b3, b4, b5, b6, b7⟩ := h2
  exact ⟨b1.trans a1, b2.trans a2, b3.trans a3, b4.trans a4, b5.trans a5, b6.trans a6,
    b7.trans a7⟩

theorem invoked_of_loadEvents (es : List Event) (h : ∀ e ∈ es, isLoadEvent e = true) :
    invoked es = [] := by
  induction es with
  | nil => rfl
  | cons e es ih =>
    have he := h e (List.mem_cons_self _ _)
    have ht := ih (fun x hx => h x (List.mem_cons_of_mem _ hx))
    cases e with
    | invoke c p n => simp [isLoadEvent] at he
    | decode => simpa [invoked] using ht
    | destroy => simpa [invoked] using ht
    | message => simpa [invoked] using ht

theorem startedPaths_of_loadEvents (es : List Event) (h : ∀ e ∈ es, isLoadEvent e = true) :
    startedPaths es = [] := by
  induction es with
  | nil => rfl
  | cons e es ih =>
    have he := h e (List.mem_cons_self _ _)
    have ht := ih (fun x hx => h x (List.mem_cons_of_mem _ hx))
    cases e with
    | message m => cases m <;> first | (simpa [startedPaths] using ht) | (simp [isLoadEvent] at he)
    | invoke => simpa [startedPaths] using ht
    | decode => simpa [startedPaths] using ht
    | destroy => simpa [startedPaths] using ht

theorem startedPaths_append (a b : List Event) :
    startedPaths (a ++ b) = startedPaths a ++ startedPaths b := by
  induction a with
  | nil => rfl
  | cons e a ih =>
    cases e with
    | message m => cases m <;> simp [startedPaths, ih]
    | _ => simp [startedPaths, ih]

theorem isLoadEvent_resourceLines (heap : List Resource) (size : Resource → Nat)
    (m : List (Nat × Nat)) : ∀ e ∈ resourceLines heap size m, isLoadEvent e = true := by
  induction m with
  | nil => intro e he; simp [resourceLines] at he
  | cons x m ih =>
    obtain ⟨k, p⟩ := x
    intro e he
    simp only [resourceLines] at he
    split at he
    · rcases List.mem_cons.mp he with h | h
      · rw [h]; rfl
      · exact ih e h
    · exact ih e he

theorem loadWith_config (s : ResourceManager) (FL : FormatLoader) (i : Nat) (path : String)
    (hashedPath : Nat) :
    sameConfig s (loadWith s FL i path hashedPath).1 ∧
    (∃ new, (loadWith s FL i path hashedPath).1.events = s.events ++ new ∧
      ∀ e ∈ new, isLoadEvent e = true) := by
  have hl1 := isLoadEvent_resourceLines
    (s.heap ++ [((FL.load path hashedPath).setPath path).refer]) Resource.m_sizeCPU
    (mapEmplace s.m_resources hashedPath s.heap.length)
  have hl2 := isLoadEvent_resourceLines
    (s.heap ++ [((FL.load path hashedPath).setPath path).refer]) Resource.m_sizeGPU
    (mapEmplace s.m_resources hashedPath s.heap.length)
  by_cases hc : uintAdd s.m_memUsageCPU (FL.decode path).sizeCPU > s.m_capacityCPU
  · by_cases hd : s.debugBuild = true
    · refine ⟨by simp [loadWith, sameConfig, hc, hd, FormatLoader.load, Resource.setPath,
        Resource.refer], ?_⟩
      simp only [loadWith, hc, hd, FormatLoader.load, Resource.setPath, Resource.refer,
        if_true, List.append_assoc]
      exact ⟨_, rfl, by simp [isLoadEvent]⟩
    · refine ⟨by simp [loadWith, sameConfig, hc, hd, FormatLoader.load, Resource.setPath,
        Resource.refer], ?_⟩
      simp only [loadWith, hc, hd, FormatLoader.load, Resource.setPath, Resource.refer,
        if_true, List.append_assoc] at hl1 hl2 ⊢
      refine ⟨_, rfl, ?_⟩
      simp only [List.forall_mem_append, List.forall_mem_cons, List.forall_mem_singleton]
      simp only [Bool.false_eq_true, if_false]
      simp only [List.forall_mem_cons]
      exact ⟨⟨rfl, by simp⟩, ⟨rfl, by simp⟩, ⟨rfl, hl1⟩, ⟨rfl, by simp⟩, rfl, hl2⟩
  · refine ⟨by simp [loadWith, sameConfig, hc, FormatLoader.load, Resource.setPath,
      Resource.refer], ?_⟩
    simp only [loadWith, hc, FormatLoader.load, Resource.setPath, Resource.refer,
      if_false, List.append_assoc]
    exact ⟨_, rfl, by simp [isLoadEvent]⟩
theorem loadLoop_config (path : String) (hashedPath : Nat) (ext : String)
    (loaders : List FormatLoader) (i : Nat) (s : ResourceManager) (res : Option Nat) :
    sameConfig s (loadLoop path hashedPath ext loaders i s res).1 ∧
    (∃ new, (loadLoop path hashedPath ext loaders i s res).1.events = s.events ++ new ∧
      ∀ e ∈ new, isLoadEvent e = true) := by
  induction loaders generalizing i s res with
  | nil => exact ⟨sameConfig_refl s, [], by simp [loadLoop], by simp⟩
  | cons FL rest ih =>
    by_cases hs : FL.extensionSupported ext = true
    · simp only [loadLoop, hs, if_true]
      obtain ⟨a1, new1, a2, a3⟩ := loadWith_config s FL i path hashedPath
      obtain ⟨b1, new2, b2, b3⟩ := ih (i + 1) (loadWith s FL i path hashedPath).1
        (some (loadWith s FL i path hashedPath).2)
      refine ⟨sameConfig_trans a1 b1, new1 ++ new2, by rw [b2, a2, List.append_assoc], ?_⟩
      intro e he
      rcases List.mem_append.mp he with h | h
      · exact a3 e h
      · exact b3 e h
    · have hs2 : FL.extensionSupported ext = false := by simpa using hs
      simp only [loadLoop, hs2, Bool.false_eq_true, if_false]
      exact ih (i + 1) s res

theorem loadLoop_other_keys (path : String) (hashedPath : Nat) (ext : String)
    (loaders : List FormatLoader) (i : Nat) (s : ResourceManager) (res : Option Nat) (k : Nat)
    (hk : hashedPath ≠ k) :
    mapFind (loadLoop path hashedPath ext loaders i s res).1.m_resources k
      = mapFind s.m_resources k := by
  induction loaders generalizing i s res with
  | nil => rfl
  | cons FL rest ih =>
    by_cases hs : FL.extensionSupported ext = true
    · simp only [loadLoop, hs, if_true]
      rw [ih, (loadWith_frame s FL i path hashedPath).2.2.1]
      exact mapFind_mapEmplace_ne _ _ _ _ hk
    · have hs2 : FL.extensionSupported ext = false := by simpa using hs
      simp only [loadLoop, hs2, Bool.false_eq_true, if_false]
      exact ih (i + 1) s res

/-- The pointer the loop of `load` returns denotes a heap object whose GUID is
the hash of the path. -/
theorem loadLoop_result (path : String) (hashedPath : Nat) (ext : String)
    (loaders : List FormatLoader) (i : Nat) (s : ResourceManager) (res : Option Nat)
    (hgood : ∀ p, res = some p → ∃ r, s.heap[p]? = some r ∧ r.m_GUID = hashedPath) :
    ∀ p, (loadLoop path hashedPath ext loaders i s res).2 = some p →
      ∃ r, (loadLoop path hashedPath ext loaders i s res).1.heap[p]? = some r ∧
        r.m_GUID = hashedPath := by
  induction loaders generalizing i s res with
  | nil => exact hgood
  | cons FL rest ih =>
    by_cases hs : FL.extensionSupported ext = true
    · simp only [loadLoop, hs, if_true]
      apply ih
      intro p hp
      obtain ⟨b1, b2, _⟩ := loadWith_frame s FL i path hashedPath
      simp only [Option.some.injEq] at hp
      rw [← hp, b1, b2]
      exact ⟨_, getElem?_append_cons_length _ _ _, rfl⟩
    · have hs2 : FL.extensionSupported ext = false := by simpa using hs
      simp only [loadLoop, hs2, Bool.false_eq_true, if_false]
      exact ih (i + 1) s res hgood

theorem load_config (s : ResourceManager) (P : String) :
    sameConfig s (load s P).1 ∧
    (∃ new, (load s P).1.events = s.events ++ new ∧ ∀ e ∈ new, isLoadEvent e = true) := by
  cases hf : mapFind s.m_resources (s.m_pathHasher P) with
  | some p =>
    rw [load_of_resident s P p hf]
    exact ⟨sameConfig_refl s, [], by simp [referAt], by simp⟩
  | none =>
    rw [load_of_absent s P hf]
    exact loadLoop_config _ _ _ _ _ _ _

theorem load_other_keys (s : ResourceManager) (P : String) (k : Nat)
    (hk : s.m_pathHasher P ≠ k) :
    mapFind (load s P).1.m_resources k = mapFind s.m_resources k := by
  cases hf : mapFind s.m_resources (s.m_pathHasher P) with
  | some p => rw [load_of_resident s P p hf]; rfl
  | none =>
    rw [load_of_absent s P hf]
    exact loadLoop_other_keys _ _ _ _ _ _ _ _ hk

/-- The worker turn on a job whose path is resident records no decode. -/
theorem asyncLoadStart_resident_no_decode (s t : ResourceManager) (GUID p : Nat)
    (queue : List Nat) (currJob : AsyncJob)
    (hq : s.m_asyncJobQueue = GUID :: queue)
    (hj : mapFind s.m_asyncResJobs GUID = some currJob)
    (hres : mapFind s.m_resources (s.m_pathHasher currJob.filepath) = some p)
    (h : asyncLoadStart s = .ok t) :
    ∃ new, t.events = s.events ++ new ∧ decodes new = [] := by
  rcases asyncLoadStart_ok s t h with ⟨_, rfl⟩ | ⟨hc, G, q, job, p2, s4, r, hq2, hj2, hp, h4, hr, rfl⟩
  · exact ⟨[], by simp, rfl⟩
  · rw [hq] at hq2
    simp only [List.cons.injEq] at hq2
    obtain ⟨rfl, rfl⟩ := hq2
    rw [hj] at hj2
    simp only [Option.some.injEq] at hj2
    subst hj2
    have hl : load (emit { s with m_asyncJobQueue := queue }
        (Event.message (.startedAsync currJob.filepath))) currJob.filepath
        = (referAt (emit { s with m_asyncJobQueue := queue }
            (Event.message (.startedAsync currJob.filepath))) p, some p) :=
      load_of_resident _ _ p hres
    rw [hl] at h4
    obtain ⟨n2, b1, b2, _⟩ := runCallbacks_decodes _ _ _ _ h4
    obtain ⟨⟨n3, c1, _, c3⟩, _⟩ := decrementReference_frame s4 r.m_GUID
    refine ⟨Event.message (.startedAsync currJob.filepath) :: (n2 ++ n3
      ++ [Event.message (.doneAsync currJob.filepath)]), ?_, ?_⟩
    · show (decrementReference s4 r.m_GUID).events
        ++ [Event.message (.doneAsync currJob.filepath)] = _
      rw [c1, b1]
      simp [emit, referAt]
    · simp [decodes_append, decodes_message_cons, decodes_nil, b2, c3]
/-! ## Heap cells under `refer`, and the parts of a worker turn -/

theorem referAt_heap (s : ResourceManager) (p q : Nat) (r : Resource)
    (h : s.heap[q]? = some r) :
    ∃ r2, (referAt s p).heap[q]? = some r2 ∧ r2.m_GUID = r.m_GUID ∧
      r.m_refCount ≤ r2.m_refCount := by
  by_cases hpq : p = q
  · subst hpq
    refine ⟨r.refer, by simp [referAt, h], rfl, ?_⟩
    simp [Resource.refer]
  · exact ⟨r, by simp [referAt, List.getElem?_modify_ne _ _ hpq, h], rfl, le_refl _⟩

theorem deliver_heap (s : ResourceManager) (c p q : Nat) (r : Resource)
    (h : s.heap[q]? = some r) :
    ∃ r2, (deliver s c p).heap[q]? = some r2 ∧ r2.m_GUID = r.m_GUID ∧
      r.m_refCount ≤ r2.m_refCount :=
  referAt_heap s p q r h

theorem runCallbacks_heap (res : Option Nat) (cbs : List AsyncJobCallback)
    (s t : ResourceManager) (h : runCallbacks res cbs s = .ok t) (q : Nat) (r : Resource)
    (hq : s.heap[q]? = some r) :
    ∃ r2, t.heap[q]? = some r2 ∧ r2.m_GUID = r.m_GUID ∧ r.m_refCount ≤ r2.m_refCount := by
  induction cbs generalizing s r with
  | nil =>
    simp only [runCallbacks, Except.ok.injEq] at h
    subst h
    exact ⟨r, hq, rfl, le_refl _⟩
  | cons c rest ih =>
    by_cases hr : c.run = true
    · simp only [runCallbacks, hr, if_true] at h
      cases res with
      | none => simp at h
      | some p =>
        simp only at h
        obtain ⟨r1, a1, a2, a3⟩ := deliver_heap s c.callback p q r hq
        obtain ⟨r2, b1, b2, b3⟩ := ih _ h r1 a1
        exact ⟨r2, b1, b2.trans a2, le_trans a3 b3⟩
    · have hr2 : c.run = false := by simpa using hr
      simp only [runCallbacks, hr2, Bool.false_eq_true, if_false] at h
      exact ih _ h r hq

theorem runCallbacks_config (res : Option Nat) (cbs : List AsyncJobCallback)
    (s t : ResourceManager) (h : runCallbacks res cbs s = .ok t) : sameConfig s t := by
  induction cbs generalizing s with
  | nil =>
    simp only [runCallbacks, Except.ok.injEq] at h
    subst h
    exact sameConfig_refl s
  | cons c rest ih =>
    by_cases hr : c.run = true
    · simp only [runCallbacks, hr, if_true] at h
      cases res with
      | none => simp at h
      | some p =>
        simp only at h
        exact sameConfig_trans (s := s) (t := deliver s c.callback p)
          ⟨rfl, rfl, rfl, rfl, rfl, rfl, rfl⟩ (ih _ h)
    · have hr2 : c.run = false := by simpa using hr
      simp only [runCallbacks, hr2, Bool.false_eq_true, if_false] at h
      exact ih _ h

theorem decrementReference_config (s : ResourceManager) (key : Nat) :
    sameConfig s (decrementReference s key) ∧
    (∃ new, (decrementReference s key).events = s.events ++ new ∧ invoked new = [] ∧
      startedPaths new = []) := by
  unfold decrementReference
  split
  · exact ⟨sameConfig_refl s, [], by simp, rfl, rfl⟩
  · split
    · exact ⟨sameConfig_refl s, [], by simp, rfl, rfl⟩
    · split
      · exact ⟨⟨rfl, rfl, rfl, rfl, rfl, rfl, rfl⟩, _, rfl, rfl, rfl⟩
      · exact ⟨⟨rfl, rfl, rfl, rfl, rfl, rfl, rfl⟩, [], by simp, rfl, rfl⟩

theorem decrementReference_other_keys (s : ResourceManager) (key k : Nat) (hk : key ≠ k) :
    mapFind (decrementReference s key).m_resources k = mapFind s.m_resources k := by
  unfold decrementReference
  split
  · rfl
  · split
    · rfl
    · split
      · exact mapFind_mapErase_ne _ _ _ hk
      · rfl

/-- What a turn of the worker that serves a job does, when it completes: the
job is popped and erased, its active callbacks are called in list order, one
"started" message is recorded, and the configuration stays. -/
theorem asyncLoadStart_turn (s t : ResourceManager) (GUID : Nat) (queue : List Nat)
    (currJob : AsyncJob)
    (hrun : s.m_running = true)
    (hq : s.m_asyncJobQueue = GUID :: queue)
    (hj : mapFind s.m_asyncResJobs GUID = some currJob)
    (h : asyncLoadStart s = .ok t) :
    (∃ new, t.events = s.events ++ new ∧
      invoked new = (currJob.callbacks.filter AsyncJobCallback.run).map AsyncJobCallback.callback ∧
      startedPaths new = [currJob.filepath]) ∧
    t.m_asyncJobQueue = queue ∧
    t.m_asyncResJobs = mapErase s.m_asyncResJobs GUID ∧
    sameConfig s t := by
  rcases asyncLoadStart_ok s t h with ⟨hidle, _⟩ | ⟨hc, G, q, job, p, s4, r, hq2, hj2, hp, h4, hr, rfl⟩
  · exact absurd ⟨length_pos_of_mapFind _ _ _ hj, hrun⟩ hidle
  · rw [hq] at hq2
    simp only [List.cons.injEq] at hq2
    obtain ⟨rfl, rfl⟩ := hq2
    rw [hj] at hj2
    simp only [Option.some.injEq] at hj2
    subst hj2
    obtain ⟨a0, n1, a1, a2⟩ := load_config
      (emit { s with m_asyncJobQueue := queue } (Event.message (.startedAsync currJob.filepath)))
      currJob.filepath
    obtain ⟨_, a3, a4, _⟩ := load_frame
      (emit { s with m_asyncJobQueue := queue } (Event.message (.startedAsync currJob.filepath)))
      currJob.filepath
    obtain ⟨⟨n2, b1, b2⟩, b3, b4, _⟩ := runCallbacks_ok _ _ _ _ h4
    obtain ⟨n2b, b5, _, b6⟩ := runCallbacks_decodes _ _ _ _ h4
    have hn2 : n2b = n2 := List.append_cancel_left (b5.symm.trans b1)
    subst hn2
    have b0 := runCallbacks_config _ _ _ _ h4
    obtain ⟨c0, n3, c1, c2, c3⟩ := decrementReference_config s4 r.m_GUID
    obtain ⟨_, c4, c5, _⟩ := decrementReference_frame s4 r.m_GUID
    refine ⟨⟨Event.message (.startedAsync currJob.filepath) :: (n1 ++ n2b ++ n3
      ++ [Event.message (.doneAsync currJob.filepath)]), ?_, ?_, ?_⟩, ?_, ?_, ?_⟩
    · show (decrementReference s4 r.m_GUID).events
        ++ [Event.message (.doneAsync currJob.filepath)] = _
      rw [c1, b1, a1]
      simp [emit]
    · simp [invoked, invoked_append, invoked_of_loadEvents n1 a2, b2, c2]
    · simp [startedPaths, startedPaths_append, startedPaths_of_loadEvents n1 a2, b6, c3]
    · show (decrementReference s4 r.m_GUID).m_asyncJobQueue = _
      rw [c5, b4, a4]; rfl
    · show mapErase (decrementReference s4 r.m_GUID).m_asyncResJobs _ = _
      rw [c4, b3, a3]; rfl
    · have e0 : sameConfig s (emit { s with m_asyncJobQueue := queue }
          (Event.message (.startedAsync currJob.filepath))) := ⟨rfl, rfl, rfl, rfl, rfl, rfl, rfl⟩
      have e1 := sameConfig_trans (sameConfig_trans (sameConfig_trans e0 a0) b0) c0
      exact sameConfig_trans e1 ⟨rfl, rfl, rfl, rfl, rfl, rfl, rfl⟩
/-! ## A synchronous load while a job for the same path is pending -/

/-- C19 (negation of the statement).  There is no state with a pending job for
a path `P` that is not resident, at the head of the queue, in which a
`load(P)` followed directly by the worker turn for that job makes the worker
decode: whenever that turn completes, it records no decode at all. -/
theorem worker_after_load_never_decodes :
    ¬ ∃ (s : ResourceManager) (P : String) (job : AsyncJob) (queue : List Nat)
        (t : ResourceManager),
      mapFind s.m_resources (s.m_pathHasher P) = none ∧
      s.m_asyncJobQueue = s.m_pathHasher P :: queue ∧
      mapFind s.m_asyncResJobs (s.m_pathHasher P) = some job ∧ job.filepath = P ∧
      asyncLoadStart (load s P).1 = .ok t ∧
      decodes (t.events.drop (load s P).1.events.length) ≠ [] := by
  rintro ⟨s, P, job, queue, t, hres, hq, hj, hfp, hok, hdec⟩
  obtain ⟨_, a3, a4, _⟩ := load_frame s P
  obtain ⟨⟨_, a5, a6, _⟩, _⟩ := load_config s P
  have hq1 : (load s P).1.m_asyncJobQueue = s.m_pathHasher P :: queue := by rw [a4, hq]
  have hj1 : mapFind (load s P).1.m_asyncResJobs (s.m_pathHasher P) = some job := by rw [a3, hj]
  cases hf : mapFind (load s P).1.m_resources (s.m_pathHasher P) with
  | some p =>
    have hf2 : mapFind (load s P).1.m_resources ((load s P).1.m_pathHasher job.filepath)
        = some p := by rw [a5, hfp]; exact hf
    obtain ⟨new, b1, b2⟩ := asyncLoadStart_resident_no_decode _ t _ p _ job hq1 hj1 hf2 hok
    rw [b1, List.drop_left] at hdec
    exact hdec b2
  | none =>
    have hnone : ∀ FL ∈ s.m_formatLoaders, FL.extensionSupported (s.extension P) = false := by
      intro FL hFL
      by_contra hs
      have hs2 : FL.extensionSupported (s.extension P) = true := by simpa using hs
      obtain ⟨_, _, _, _, _, c4, _⟩ := loadLoop_supported P (s.m_pathHasher P) (s.extension P)
        s.m_formatLoaders 0 s none hres ⟨FL, hFL, hs2⟩
      rw [load_of_absent s P hres, c4] at hf
      simp at hf
    have hsame : load s P = (s, none) := by
      rw [load_of_absent s P hres]
      exact loadLoop_unsupported _ _ _ _ _ _ _ hnone
    rw [hsame] at hok hdec
    rcases asyncLoadStart_ok s t hok with ⟨_, rfl⟩ | ⟨_, G, q, job2, p2, s4, r, hq2, hj2, hp, _⟩
    · simp [decodes] at hdec
    · rw [hq] at hq2
      simp only [List.cons.injEq] at hq2
      obtain ⟨rfl, rfl⟩ := hq2
      rw [hj] at hj2
      simp only [Option.some.injEq] at hj2
      subst hj2
      rw [hfp] at hp
      have hl : load (emit { s with m_asyncJobQueue := queue }
          (Event.message (.startedAsync P))) P
          = (emit { s with m_asyncJobQueue := queue } (Event.message (.startedAsync P)), none) := by
        rw [load_of_absent _ _ (by exact hres)]
        exact loadLoop_unsupported _ _ _ _ _ _ _ hnone
      rw [hl] at hp
      simp at hp

/-- C19 (as amended).  Let a job for the path `P` be pending at the head of
the queue, `P` not resident and its extension supported.  A synchronous
`load(P)` leaves the job table and the queue untouched, decodes `P` and makes it
resident.  The worker turn that follows completes; it finds `P` resident, runs
no decode, calls the active continuations of the job, pops the queue and
erases the job.  `P` is decoded by the load only. -/
theorem load_then_worker_decodes_in_load_only (s : ResourceManager) (P : String)
    (job : AsyncJob) (queue : List Nat)
    (hrun : s.m_running = true)
    (hres : mapFind s.m_resources (s.m_pathHasher P) = none)
    (hq : s.m_asyncJobQueue = s.m_pathHasher P :: queue)
    (hj : mapFind s.m_asyncResJobs (s.m_pathHasher P) = some job) (hfp : job.filepath = P)
    (hsup : ∃ FL ∈ s.m_formatLoaders, FL.extensionSupported (s.extension P) = true) :
    (load s P).1.m_asyncResJobs = s.m_asyncResJobs ∧
    (load s P).1.m_asyncJobQueue = s.m_asyncJobQueue ∧
    decodes ((load s P).1.events.drop s.events.length) ≠ [] ∧
    mapFind (load s P).1.m_resources (s.m_pathHasher P) = some s.heap.length ∧
    ∃ t, asyncLoadStart (load s P).1 = .ok t ∧
      decodes (t.events.drop (load s P).1.events.length) = [] ∧
      invoked (t.events.drop (load s P).1.events.length)
        = (job.callbacks.filter AsyncJobCallback.run).map AsyncJobCallback.callback ∧
      t.m_asyncJobQueue = queue ∧
      mapFind t.m_asyncResJobs (s.m_pathHasher P) = none := by
  obtain ⟨_, a3, a4, _, a5⟩ := load_frame s P
  obtain ⟨⟨_, a6, _⟩, _⟩ := load_config s P
  obtain ⟨j, FL, _, _, _, c4, c5, ⟨new, c6⟩, _⟩ := loadLoop_supported P (s.m_pathHasher P)
    (s.extension P) s.m_formatLoaders 0 s none hres hsup
  rw [← load_of_absent s P hres] at c4 c5 c6
  have hq1 : (load s P).1.m_asyncJobQueue = s.m_pathHasher P :: queue := by rw [a4, hq]
  have hj1 : mapFind (load s P).1.m_asyncResJobs (s.m_pathHasher P) = some job := by rw [a3, hj]
  have hrun1 : (load s P).1.m_running = true := by rw [a5, hrun]
  have hf2 : mapFind (load s P).1.m_resources ((load s P).1.m_pathHasher job.filepath)
      = some s.heap.length := by rw [a6, hfp]; exact c4
  have hlen : s.heap.length < (load s P).1.heap.length := by
    rcases List.getElem?_eq_some_iff.mp c5 with ⟨h, _⟩
    exact h
  have hl : load (emit { (load s P).1 with m_asyncJobQueue := queue }
      (Event.message (.startedAsync job.filepath))) job.filepath
      = (referAt (emit { (load s P).1 with m_asyncJobQueue := queue }
          (Event.message (.startedAsync job.filepath))) s.heap.length, some s.heap.length) :=
    load_of_resident _ _ _ hf2
  obtain ⟨s4, r, _, _, hok⟩ := asyncLoadStart_total (load s P).1 (s.m_pathHasher P) queue job
    s.heap.length hrun1 hq1 hj1 (by rw [hl]) (by rw [hl]; simpa [referAt, emit] using hlen)
  obtain ⟨n2, d1, d2⟩ := asyncLoadStart_resident_no_decode _ _ _ _ _ job hq1 hj1 hf2 hok
  obtain ⟨⟨n3, e1, e2, _⟩, e4, e5, _⟩ := asyncLoadStart_turn _ _ _ _ job hrun1 hq1 hj1 hok
  refine ⟨a3, a4, ?_, c4, _, hok, ?_, ?_, e4, ?_⟩
  · rw [c6, List.drop_left]
    simp [decodes]
  · rw [d1, List.drop_left]; exact d2
  · rw [e1, List.drop_left]; exact e2
  · rw [e5]; exact mapFind_mapErase_self _ _

theorem load_then_worker_decodes_in_load_only_witness :
    decodes ((load rmPending "a.obj").1.events.drop rmPending.events.length)
      = [Event.decode 0 "a.obj" 5 0] ∧
    ∃ t, asyncLoadStart (load rmPending "a.obj").1 = .ok t ∧
      decodes (t.events.drop (load rmPending "a.obj").1.events.length) = [] ∧
      invoked (t.events.drop (load rmPending "a.obj").1.events.length) = [7] ∧
      t.m_asyncJobQueue = [] ∧
      mapFind t.m_asyncResJobs 5 = none :=
  ⟨by decide,
   (load_then_worker_decodes_in_load_only rmPending "a.obj"
      { filepath := "a.obj", callbacks := [{ run := true, callback := 7 }] } []
      (by decide) (by decide) (by decide) (by decide) rfl
      ⟨objA, List.mem_singleton.mpr rfl, by decide⟩).2.2.2.2⟩
/-! ## The queue and the job table -/

theorem mapFind_eq_none_iff {α : Type} (m : List (Nat × α)) (key : Nat) :
    mapFind m key = none ↔ key ∉ mapKeys m := by
  induction m with
  | nil => simp [mapFind, mapKeys]
  | cons e m ih =>
    obtain ⟨k, v⟩ := e
    by_cases hk : k = key
    · simp [mapFind, mapKeys, hk]
    · have hk2 : ¬ key = k := fun h => hk h.symm
      simp only [mapKeys] at ih
      simp [mapFind, mapKeys, hk, hk2, ih]

theorem mem_mapKeys_iff {α : Type} (m : List (Nat × α)) (key : Nat) :
    key ∈ mapKeys m ↔ ∃ v, mapFind m key = some v := by
  cases h : mapFind m key with
  | none => simp [(mapFind_eq_none_iff m key).mp h]
  | some v =>
    have : key ∈ mapKeys m := by
      by_contra hc
      rw [(mapFind_eq_none_iff m key).mpr hc] at h
      simp at h
    simp [this]

theorem mapKeys_mapModify {α : Type} (m : List (Nat × α)) (key : Nat) (f : α → α) :
    mapKeys (mapModify m key f) = mapKeys m := by
  induction m with
  | nil => rfl
  | cons e m ih =>
    obtain ⟨k, v⟩ := e
    simp only [mapKeys] at ih
    by_cases hk : k = key
    · simp [mapModify, hk, mapKeys]
    · simp [mapModify, hk, mapKeys, ih]

theorem mem_mapKeys_mapInsert {α : Type} (m : List (Nat × α)) (key k : Nat) (v : α) :
    k ∈ mapKeys (mapInsert m key v) ↔ k = key ∨ k ∈ mapKeys m := by
  induction m with
  | nil => simp [mapInsert, mapKeys]
  | cons e m ih =>
    obtain ⟨k2, w⟩ := e
    simp only [mapKeys] at ih
    by_cases hlt : key < k2
    · simp [mapInsert, hlt, mapKeys]
    · simp only [mapInsert, hlt, if_false, mapKeys, List.map_cons, List.mem_cons, ih]
      tauto

theorem mem_mapKeys_mapErase {α : Type} (m : List (Nat × α)) (key k : Nat) :
    k ∈ mapKeys (mapErase m key) ↔ k ≠ key ∧ k ∈ mapKeys m := by
  simp only [mapKeys, mapErase, List.mem_map, List.mem_filter, decide_eq_true_eq]
  constructor
  · rintro ⟨e, ⟨he, hne⟩, rfl⟩
    exact ⟨hne, e, he, rfl⟩
  · rintro ⟨hne, e, he, rfl⟩
    exact ⟨e, ⟨he, hne⟩, rfl⟩

theorem mapKeys_map_values {α : Type} (m : List (Nat × α)) (f : α → α) :
    mapKeys (m.map (fun e => (e.1, f e.2))) = mapKeys m := by
  simp [mapKeys, Function.comp]

theorem asyncLoad_queueConsistent (s : ResourceManager) (P : String) (c : Nat)
    (h : queueConsistent s) : queueConsistent (asyncLoad s P c).1 := by
  obtain ⟨h1, h2⟩ := h
  cases hr : mapFind s.m_resources (s.m_pathHasher P) with
  | some p =>
    rw [asyncLoad_of_resident s P c p hr]
    exact ⟨h1, h2⟩
  | none =>
    cases hj : mapFind s.m_asyncResJobs (s.m_pathHasher P) with
    | some job =>
      rw [asyncLoad_of_pending s P c job hr hj]
      refine ⟨h1, fun k => ?_⟩
      simp only [mapKeys_mapModify]
      exact h2 k
    | none =>
      rw [asyncLoad_of_new s P c hr hj]
      have hnot : s.m_pathHasher P ∉ s.m_asyncJobQueue := by
        rw [h2]; exact (mapFind_eq_none_iff _ _).mp hj
      refine ⟨?_, fun k => ?_⟩
      · simp only
        exact List.nodup_append.mpr ⟨h1, List.nodup_singleton _, by
          intro a ha hb
          rw [List.mem_singleton] at hb
          rw [hb] at ha
          exact hnot ha⟩
      · simp only [mapEmplace, hj, mem_mapKeys_mapInsert, List.mem_append, List.mem_singleton,
          h2 k]
        tauto

theorem step_queueConsistent (s t : ResourceManager) (op : Op) (h : queueConsistent s)
    (hstep : step s op = .ok t) : queueConsistent t := by
  cases op with
  | init c g =>
    simp only [step, Except.ok.injEq] at hstep
    subst hstep
    unfold init
    split
    · exact h
    · exact h
  | registerFormatLoader FL =>
    simp only [step, Except.ok.injEq] at hstep
    subst hstep
    exact h
  | load path =>
    simp only [step, Except.ok.injEq] at hstep
    subst hstep
    obtain ⟨_, a3, a4, _⟩ := load_frame s path
    simp only [queueConsistent, a3, a4]
    exact h
  | asyncLoad path cb =>
    simp only [step, Except.ok.injEq] at hstep
    subst hstep
    exact asyncLoad_queueConsistent s path cb h
  | removeAsyncJob index =>
    simp only [step, removeAsyncJob] at hstep
    split at hstep
    · simp only [Except.ok.injEq] at hstep
      subst hstep
      exact h
    · split at hstep
      · simp only [Except.ok.injEq] at hstep
        subst hstep
        refine ⟨h.1, fun k => ?_⟩
        simp only [mapKeys_mapModify]
        exact h.2 k
      · simp at hstep
  | removeAllAsyncJobs =>
    simp only [step, Except.ok.injEq] at hstep
    subst hstep
    refine ⟨h.1, fun k => ?_⟩
    simp only [removeAllAsyncJobs, mapKeys_map_values]
    exact h.2 k
  | decrementReference key =>
    simp only [step, Except.ok.injEq] at hstep
    subst hstep
    obtain ⟨_, a3, a4, _⟩ := decrementReference_frame s key
    simp only [queueConsistent, a3, a4]
    exact h
  | clearResourceManager =>
    simp only [step, Except.ok.injEq] at hstep
    subst hstep
    obtain ⟨_, a2, a3, _⟩ := destroyAll_frame s.m_resources
      { s with m_asyncJobQueue := [], m_asyncResJobs := [] }
    have e1 : (clearResourceManager s).m_asyncResJobs = [] := by
      simp only [clearResourceManager]; exact a2
    have e2 : (clearResourceManager s).m_asyncJobQueue = [] := by
      simp only [clearResourceManager]; exact a3
    simp [queueConsistent, e1, e2, mapKeys]
  | cleanup =>
    simp only [step, Except.ok.injEq] at hstep
    subst hstep
    obtain ⟨_, a2, a3, _⟩ := destroyAll_frame s.m_resources
      { s with m_running := false, m_formatLoaders := [] }
    have e1 : (cleanup s).m_asyncResJobs = s.m_asyncResJobs := by
      simp only [cleanup]; exact a2
    have e2 : (cleanup s).m_asyncJobQueue = s.m_asyncJobQueue := by
      simp only [cleanup]; exact a3
    simp only [queueConsistent, e1, e2]
    exact h
  | worker =>
    simp only [step] at hstep
    rcases asyncLoadStart_ok s t hstep with ⟨_, rfl⟩ | ⟨hc, G, q, job, p, s4, r, hq, hj, _⟩
    · exact h
    · obtain ⟨_, e4, e5, _⟩ := asyncLoadStart_turn s t G q job hc.2 hq hj hstep
      obtain ⟨h1, h2⟩ := h
      rw [hq] at h1 h2
      have hG : G ∉ q := (List.nodup_cons.mp h1).1
      refine ⟨by rw [e4]; exact (List.nodup_cons.mp h1).2, fun k => ?_⟩
      rw [e4, e5, mem_mapKeys_mapErase, ← h2 k]
      constructor
      · intro hk
        exact ⟨fun hkG => hG (hkG ▸ hk), List.mem_cons_of_mem _ hk⟩
      · rintro ⟨hne, hk⟩
        rcases List.mem_cons.mp hk with h3 | h3
        · exact absurd h3 hne
        · exact h3

theorem run_queueConsistent (ops : List Op) (s t : ResourceManager) (h : queueConsistent s)
    (hrun : run s ops = .ok t) : queueConsistent t := by
  induction ops generalizing s with
  | nil =>
    simp only [run, Except.ok.injEq] at hrun
    subst hrun
    exact h
  | cons op ops ih =>
    simp only [run] at hrun
    split at hrun
    · simp at hrun
    next s1 h1 => exact ih s1 (step_queueConsistent s s1 op h h1) hrun

theorem runCallbacks_fault (res : Option Nat) (cbs : List AsyncJobCallback)
    (s : ResourceManager) (f : Fault) (h : runCallbacks res cbs s = .error f) :
    f = Fault.nullDereference := by
  induction cbs generalizing s with
  | nil => simp [runCallbacks] at h
  | cons c rest ih =>
    by_cases hr : c.run = true
    · simp only [runCallbacks, hr, if_true] at h
      cases res with
      | none =>
        simp only [Except.error.injEq] at h
        exact h.symm
      | some p => exact ih _ h
    · have hr2 : c.run = false := by simpa using hr
      simp only [runCallbacks, hr2, Bool.false_eq_true, if_false] at h
      exact ih _ h

/-- With a head in the queue and a job under it, the only fault of a worker
turn is the null dereference. -/
theorem asyncLoadStart_fault (s : ResourceManager) (GUID : Nat) (queue : List Nat)
    (currJob : AsyncJob) (hq : s.m_asyncJobQueue = GUID :: queue)
    (hj : mapFind s.m_asyncResJobs GUID = some currJob) (f : Fault)
    (h : asyncLoadStart s = .error f) : f = Fault.nullDereference := by
  unfold asyncLoadStart at h
  split at h
  · simp only [hq, hj] at h
    split at h
    next f2 h2 =>
      simp only [Except.error.injEq] at h
      rw [← h]
      exact runCallbacks_fault _ _ _ _ h2
    · split at h
      · simp only [Except.error.injEq] at h
        exact h.symm
      · split at h
        · simp only [Except.error.injEq] at h
          exact h.symm
        · simp at h
  · simp at h

/-- Whole calls, one after the other.  In every state reached from the empty
manager by a sequence of operations and worker turns each of which runs to its
end before the next starts, the job queue holds no hash twice and the hashes
in the queue are exactly the keys of the job table; on such a state the worker
turn does not fail in `front()` or in dereferencing the result of `find`.
This says nothing about a worker turn or a reset that runs between the two
statements with which `asyncLoad` creates a job. -/
theorem queue_and_job_table_agree (hasher : String → Nat) (extension : String → String)
    (debugBuild : Bool) (ops : List Op) (t : ResourceManager)
    (hrun : run (ResourceManager.new hasher extension debugBuild) ops = .ok t) :
    t.m_asyncJobQueue.Nodup ∧
    (∀ k, k ∈ t.m_asyncJobQueue ↔ k ∈ mapKeys t.m_asyncResJobs) ∧
    (t.m_asyncResJobs.length > 0 →
      ∃ G queue job, t.m_asyncJobQueue = G :: queue ∧ mapFind t.m_asyncResJobs G = some job) ∧
    faultOf (asyncLoadStart t) ≠ some Fault.emptyQueueFront ∧
    faultOf (asyncLoadStart t) ≠ some Fault.endIteratorDereference := by
  have h0 : queueConsistent (ResourceManager.new hasher extension debugBuild) := by
    simp [queueConsistent, ResourceManager.new, mapKeys]
  obtain ⟨h1, h2⟩ := run_queueConsistent ops _ t h0 hrun
  have h3 : t.m_asyncResJobs.length > 0 →
      ∃ G queue job, t.m_asyncJobQueue = G :: queue ∧ mapFind t.m_asyncResJobs G = some job := by
    intro hlen
    cases hjobs : t.m_asyncResJobs with
    | nil => rw [hjobs] at hlen; simp at hlen
    | cons e m =>
      have hk : e.1 ∈ t.m_asyncJobQueue := by
        rw [h2, hjobs]; simp [mapKeys]
      cases hq : t.m_asyncJobQueue with
      | nil => rw [hq] at hk; simp at hk
      | cons G queue =>
        have hG : G ∈ mapKeys t.m_asyncResJobs := by rw [← h2, hq]; simp
        obtain ⟨job, hjob⟩ := (mem_mapKeys_iff _ _).mp hG
        rw [hjobs] at hjob
        exact ⟨G, queue, job, rfl, hjob⟩
  have hfault : ∀ f, asyncLoadStart t = .error f → f = Fault.nullDereference := by
    intro f hf
    by_cases hc : t.m_asyncResJobs.length > 0 ∧ t.m_running = true
    · obtain ⟨G, queue, job, hq, hj⟩ := h3 hc.1
      exact asyncLoadStart_fault t G queue job hq hj f hf
    · unfold asyncLoadStart at hf
      rw [if_neg hc] at hf
      simp at hf
  refine ⟨h1, h2, h3, ?_, ?_⟩
  · cases hr : asyncLoadStart t with
    | ok u => simp [faultOf]
    | error f => rw [hfault f hr]; simp [faultOf]
  · cases hr : asyncLoadStart t with
    | ok u => simp [faultOf]
    | error f => rw [hfault f hr]; simp [faultOf]

theorem queue_and_job_table_agree_witness :
    ∃ t, run (ResourceManager.new String.length ext4 true)
        [Op.registerFormatLoader objA, Op.asyncLoad "a.obj" 1, Op.asyncLoad "bb.obj" 2,
          Op.asyncLoad "a.obj" 3, Op.worker] = .ok t ∧
      t.m_asyncJobQueue = [6] ∧ mapKeys t.m_asyncResJobs = [6] ∧
      t.m_asyncJobQueue.Nodup ∧
      (∀ k, k ∈ t.m_asyncJobQueue ↔ k ∈ mapKeys t.m_asyncResJobs) :=
  ⟨_, rfl, by decide, by decide,
    (queue_and_job_table_agree String.length ext4 true
      [Op.registerFormatLoader objA, Op.asyncLoad "a.obj" 1, Op.asyncLoad "bb.obj" 2,
        Op.asyncLoad "a.obj" 3, Op.worker] _ rfl).1,
    (queue_and_job_table_agree String.length ext4 true
      [Op.registerFormatLoader objA, Op.asyncLoad "a.obj" 1, Op.asyncLoad "bb.obj" 2,
        Op.asyncLoad "a.obj" 3, Op.worker] _ rfl).2.1⟩
/-! ## Residency -/

theorem mem_of_mapFind {α : Type} (m : List (Nat × α)) (key : Nat) (v : α)
    (h : mapFind m key = some v) : (key, v) ∈ m := by
  induction m with
  | nil => simp [mapFind] at h
  | cons e m ih =>
    obtain ⟨k, w⟩ := e
    by_cases hk : k = key
    · simp only [mapFind, hk, if_true, Option.some.injEq] at h
      subst h; subst hk
      exact List.mem_cons_self _ _
    · simp only [mapFind, hk, if_false] at h
      exact List.mem_cons_of_mem _ (ih h)

theorem mapInsert_perm {α : Type} (m : List (Nat × α)) (key : Nat) (v : α) :
    (mapInsert m key v).Perm ((key, v) :: m) := by
  induction m with
  | nil => exact List.Perm.refl _
  | cons e m ih =>
    obtain ⟨k, w⟩ := e
    by_cases hlt : key < k
    · simp only [mapInsert, hlt, if_true]
      exact List.Perm.refl _
    · simp only [mapInsert, hlt, if_false]
      exact (List.Perm.cons _ ih).trans (List.Perm.swap _ _ _)

/-- Residency survives a change of the heap that keeps every GUID and lowers
no reference count, with the cache map unchanged. -/
theorem residentOk_of_heap_mono (s t : ResourceManager)
    (hmap : t.m_resources = s.m_resources)
    (hheap : ∀ (q : Nat) (r : Resource), s.heap[q]? = some r →
      ∃ r2 : Resource, t.heap[q]? = some r2 ∧ r2.m_GUID = r.m_GUID ∧
        r.m_refCount ≤ r2.m_refCount)
    (h : residentOk s) : residentOk t := by
  obtain ⟨h1, h2⟩ := h
  refine ⟨by rw [hmap]; exact h1, fun e he => ?_⟩
  rw [hmap] at he
  obtain ⟨r, a1, a2, a3⟩ := h2 e he
  obtain ⟨r2, b1, b2, b3⟩ := hheap e.2 r a1
  exact ⟨r2, b1, lt_of_lt_of_le a2 b3, b2.trans a3⟩

theorem getElem?_append_of_some {α : Type} (l l2 : List α) (q : Nat) (a : α)
    (h : l[q]? = some a) : (l ++ l2)[q]? = some a := by
  rcases List.getElem?_eq_some_iff.mp h with ⟨hq, rfl⟩
  rw [List.getElem?_append_left hq]
  exact List.getElem?_eq_getElem hq

theorem loadWith_residentOk (s : ResourceManager) (FL : FormatLoader) (i : Nat) (path : String)
    (hashedPath : Nat) (hnn : 0 ≤ (FL.decode path).refCount) (h : residentOk s) :
    residentOk (loadWith s FL i path hashedPath).1 := by
  obtain ⟨_, a2, a3, _⟩ := loadWith_frame s FL i path hashedPath
  cases hf : mapFind s.m_resources hashedPath with
  | some p =>
    apply residentOk_of_heap_mono s _ (by rw [a3]; exact mapEmplace_present _ _ _ _ hf) _ h
    intro q r hq
    exact ⟨r, by rw [a2]; exact getElem?_append_of_some _ _ _ _ hq, rfl, le_refl _⟩
  | none =>
    obtain ⟨h1, h2⟩ := h
    have hm : (loadWith s FL i path hashedPath).1.m_resources
        = mapInsert s.m_resources hashedPath s.heap.length := by
      rw [a3]; simp only [mapEmplace, hf]
    have hfresh : s.heap.length ∉ s.m_resources.map Prod.snd := by
      intro hin
      obtain ⟨e, he, hes⟩ := List.mem_map.mp hin
      obtain ⟨r, b1, _⟩ := h2 e he
      rw [hes] at b1
      rcases List.getElem?_eq_some_iff.mp b1 with ⟨hlt, _⟩
      exact absurd hlt (lt_irrefl _)
    refine ⟨?_, fun e he => ?_⟩
    · rw [hm]
      have hp := (mapInsert_perm s.m_resources hashedPath s.heap.length).map Prod.snd
      rw [hp.nodup_iff]
      simp only [List.map_cons]
      exact List.nodup_cons.mpr ⟨hfresh, h1⟩
    · rw [hm] at he
      rcases List.mem_cons.mp ((mapInsert_perm _ _ _).mem_iff.mp he) with he1 | he1
      · subst he1
        refine ⟨_, by rw [a2]; exact getElem?_append_cons_length _ _ _, ?_, rfl⟩
        simp only [FormatLoader.load, Resource.setPath, Resource.refer]
        omega
      · obtain ⟨r, b1, b2, b3⟩ := h2 e he1
        exact ⟨r, by rw [a2]; exact getElem?_append_of_some _ _ _ _ b1, b2, b3⟩

theorem loadLoop_residentOk (path : String) (hashedPath : Nat) (ext : String)
    (loaders : List FormatLoader) (i : Nat) (s : ResourceManager) (res : Option Nat)
    (hnn : loadersNonneg loaders) (h : residentOk s) :
    residentOk (loadLoop path hashedPath ext loaders i s res).1 := by
  induction loaders generalizing i s res with
  | nil => exact h
  | cons FL rest ih =>
    have hnn2 : loadersNonneg rest := fun F hF => hnn F (List.mem_cons_of_mem _ hF)
    by_cases hs : FL.extensionSupported ext = true
    · simp only [loadLoop, hs, if_true]
      exact ih _ _ _ hnn2
        (loadWith_residentOk s FL i path hashedPath (hnn FL (List.mem_cons_self _ _) path) h)
    · have hs2 : FL.extensionSupported ext = false := by simpa using hs
      simp only [loadLoop, hs2, Bool.false_eq_true, if_false]
      exact ih _ _ _ hnn2 h

theorem referAt_residentOk (s : ResourceManager) (p : Nat) (h : residentOk s) :
    residentOk (referAt s p) :=
  residentOk_of_heap_mono s _ rfl (fun q r hq => referAt_heap s p q r hq) h

theorem load_residentOk (s : ResourceManager) (P : String)
    (hnn : loadersNonneg s.m_formatLoaders) (h : residentOk s) :
    residentOk (load s P).1 := by
  cases hf : mapFind s.m_resources (s.m_pathHasher P) with
  | some p =>
    rw [load_of_resident s P p hf]
    exact referAt_residentOk s p h
  | none =>
    rw [load_of_absent s P hf]
    exact loadLoop_residentOk _ _ _ _ _ _ _ hnn h
theorem decrementReference_residentOk (s : ResourceManager) (key : Nat) (h : residentOk s) :
    residentOk (decrementReference s key) := by
  obtain ⟨h1, h2⟩ := h
  cases hf : mapFind s.m_resources key with
  | none =>
    have e : decrementReference s key = s := by simp [decrementReference, hf]
    rw [e]; exact ⟨h1, h2⟩
  | some p =>
    cases hh : s.heap[p]? with
    | none =>
      have e : decrementReference s key = s := by simp [decrementReference, hf, hh]
      rw [e]; exact ⟨h1, h2⟩
    | some r =>
      have hmem : (key, p) ∈ s.m_resources := mem_of_mapFind _ _ _ hf
      have hp : p < s.heap.length := by
        rcases List.getElem?_eq_some_iff.mp hh with ⟨hlt, _⟩
        exact hlt
      have hinj : ∀ e ∈ s.m_resources, e.2 = p → e = (key, p) := by
        intro e he hep
        exact List.inj_on_of_nodup_map h1 he hmem hep
      by_cases hz : r.m_refCount = 1
      · rw [decrementReference_last s key p r hf hh hz]
        refine ⟨?_, fun e he => ?_⟩
        · exact List.Nodup.sublist ((List.filter_sublist _).map _) h1
        · simp only [mapErase, List.mem_filter, decide_eq_true_eq] at he
          obtain ⟨he1, he2⟩ := he
          have hne : p ≠ e.2 := by
            intro hpe
            have := hinj e he1 hpe.symm
            rw [this] at he2
            exact he2 rfl
          obtain ⟨r2, b1, b2, b3⟩ := h2 e he1
          exact ⟨r2, by simp [List.getElem?_set_ne hne, b1], b2, b3⟩
      · rw [decrementReference_keep s key p r hf hh hz]
        refine ⟨h1, fun e he => ?_⟩
        by_cases hpe : e.2 = p
        · have hek := hinj e he hpe
          obtain ⟨r2, b1, b2, b3⟩ := h2 e he
          rw [hpe, hh] at b1
          simp only [Option.some.injEq] at b1
          subst b1
          refine ⟨r.derefer, by simp [hpe, hp], ?_, b3⟩
          simp only [Resource.derefer]
          omega
        · obtain ⟨r2, b1, b2, b3⟩ := h2 e he
          have hne : p ≠ e.2 := fun x => hpe x.symm
          exact ⟨r2, by simp [List.getElem?_set_ne hne, b1], b2, b3⟩

theorem runCallbacks_residentOk (res : Option Nat) (cbs : List AsyncJobCallback)
    (s t : ResourceManager) (hok : runCallbacks res cbs s = .ok t) (h : residentOk s) :
    residentOk t :=
  residentOk_of_heap_mono s t (runCallbacks_ok _ _ _ _ hok).2.2.2.1
    (fun q r hq => runCallbacks_heap _ _ _ _ hok q r hq) h

theorem destroyAll_heap (m : List (Nat × Nat)) (s : ResourceManager) (q : Nat) (r : Resource)
    (hq : s.heap[q]? = some r) :
    ∃ r2, (destroyAll m s).heap[q]? = some r2 ∧ r2.m_GUID = r.m_GUID ∧
      r.m_refCount ≤ r2.m_refCount := by
  induction m generalizing s r with
  | nil => exact ⟨r, hq, rfl, le_refl _⟩
  | cons e m ih =>
    obtain ⟨k, p⟩ := e
    simp only [destroyAll]
    by_cases hpq : p = q
    · subst hpq
      obtain ⟨r2, a1, a2, a3⟩ := ih
        { s with heap := s.heap.modify Resource.destroy p, events := s.events ++ [Event.destroy p] }
        r.destroy (by simp [hq])
      exact ⟨r2, a1, a2, a3⟩
    · exact ih _ r (by simp [List.getElem?_modify_ne _ _ hpq, hq])

theorem asyncLoad_residentOk (s : ResourceManager) (P : String) (c : Nat) (h : residentOk s) :
    residentOk (asyncLoad s P c).1 := by
  cases hr : mapFind s.m_resources (s.m_pathHasher P) with
  | some p =>
    rw [asyncLoad_of_resident s P c p hr]
    exact residentOk_of_heap_mono s _ rfl (fun q r hq => deliver_heap s c p q r hq) h
  | none =>
    cases hj : mapFind s.m_asyncResJobs (s.m_pathHasher P) with
    | some job => rw [asyncLoad_of_pending s P c job hr hj]; exact h
    | none => rw [asyncLoad_of_new s P c hr hj]; exact h

theorem asyncLoadStart_residentOk (s t : ResourceManager)
    (hnn : loadersNonneg s.m_formatLoaders) (h : residentOk s)
    (hok : asyncLoadStart s = .ok t) : residentOk t := by
  rcases asyncLoadStart_ok s t hok with ⟨_, rfl⟩ | ⟨_, G, q, job, p, s4, r, _, _, _, h4, _, rfl⟩
  · exact h
  · have h0 : residentOk (emit { s with m_asyncJobQueue := q }
        (Event.message (.startedAsync job.filepath))) := h
    have h3 := load_residentOk (emit { s with m_asyncJobQueue := q }
      (Event.message (.startedAsync job.filepath))) job.filepath hnn h0
    have h5 := decrementReference_residentOk s4 r.m_GUID (runCallbacks_residentOk _ _ _ _ h4 h3)
    exact h5
theorem asyncLoadStart_config (s t : ResourceManager) (hok : asyncLoadStart s = .ok t) :
    sameConfig s t := by
  rcases asyncLoadStart_ok s t hok with ⟨_, he⟩ | ⟨hc, G, q, job, p, s4, r, hq, hj, _⟩
  · rw [he]; exact sameConfig_refl s
  · exact (asyncLoadStart_turn s t G q job hc.2 hq hj hok).2.2.2

theorem asyncLoad_config (s : ResourceManager) (P : String) (c : Nat) :
    sameConfig s (asyncLoad s P c).1 := by
  cases hr : mapFind s.m_resources (s.m_pathHasher P) with
  | some p =>
    rw [asyncLoad_of_resident s P c p hr]
    exact ⟨rfl, rfl, rfl, rfl, rfl, rfl, rfl⟩
  | none =>
    cases hj : mapFind s.m_asyncResJobs (s.m_pathHasher P) with
    | some job =>
      rw [asyncLoad_of_pending s P c job hr hj]
      exact ⟨rfl, rfl, rfl, rfl, rfl, rfl, rfl⟩
    | none =>
      rw [asyncLoad_of_new s P c hr hj]
      exact ⟨rfl, rfl, rfl, rfl, rfl, rfl, rfl⟩

theorem step_residentOk (s t : ResourceManager) (op : Op)
    (hreg : loadersNonneg (registeredLoaders [op]))
    (h : residentOk s ∧ loadersNonneg s.m_formatLoaders) (hstep : step s op = .ok t) :
    residentOk t ∧ loadersNonneg t.m_formatLoaders := by
  obtain ⟨h1, h2⟩ := h
  cases op with
  | init c g =>
    simp only [step, Except.ok.injEq] at hstep
    subst hstep
    unfold init
    split
    · exact ⟨h1, h2⟩
    · exact ⟨h1, h2⟩
  | registerFormatLoader FL =>
    simp only [step, Except.ok.injEq] at hstep
    subst hstep
    refine ⟨h1, fun F hF path => ?_⟩
    simp only [registerFormatLoader, List.mem_append, List.mem_singleton] at hF
    rcases hF with hF | hF
    · exact h2 F hF path
    · exact hreg F (by simp [registeredLoaders, hF]) path
  | load path =>
    simp only [step, Except.ok.injEq] at hstep
    subst hstep
    refine ⟨load_residentOk s path h2 h1, ?_⟩
    rw [(load_frame s path).2.2.2.1]; exact h2
  | asyncLoad path cb =>
    simp only [step, Except.ok.injEq] at hstep
    subst hstep
    refine ⟨asyncLoad_residentOk s path cb h1, ?_⟩
    rw [(asyncLoad_config s path cb).1]; exact h2
  | removeAsyncJob index =>
    simp only [step, removeAsyncJob] at hstep
    split at hstep
    · simp only [Except.ok.injEq] at hstep
      subst hstep
      exact ⟨h1, h2⟩
    · split at hstep
      · simp only [Except.ok.injEq] at hstep
        subst hstep
        exact ⟨h1, h2⟩
      · simp at hstep
  | removeAllAsyncJobs =>
    simp only [step, Except.ok.injEq] at hstep
    subst hstep
    exact ⟨h1, h2⟩
  | decrementReference key =>
    simp only [step, Except.ok.injEq] at hstep
    subst hstep
    refine ⟨decrementReference_residentOk s key h1, ?_⟩
    rw [(decrementReference_frame s key).2.2.2.1]; exact h2
  | clearResourceManager =>
    simp only [step, Except.ok.injEq] at hstep
    subst hstep
    refine ⟨?_, ?_⟩
    · simp [residentOk, clearResourceManager]
    · have e : (clearResourceManager s).m_formatLoaders = s.m_formatLoaders := by
        simp only [clearResourceManager]
        exact (destroyAll_frame s.m_resources
          { s with m_asyncJobQueue := [], m_asyncResJobs := [] }).2.2.2.1
      rw [e]; exact h2
  | cleanup =>
    simp only [step, Except.ok.injEq] at hstep
    subst hstep
    obtain ⟨_, _, _, a4, a5, _⟩ := destroyAll_frame s.m_resources
      { s with m_running := false, m_formatLoaders := [] }
    refine ⟨?_, ?_⟩
    · apply residentOk_of_heap_mono s (cleanup s) (by simp only [cleanup]; exact a5) _ h1
      intro q r hq
      exact destroyAll_heap s.m_resources { s with m_running := false, m_formatLoaders := [] }
        q r hq
    · have e : (cleanup s).m_formatLoaders = [] := by simp only [cleanup]; exact a4
      rw [e]
      intro F hF
      simp at hF
  | worker =>
    simp only [step] at hstep
    refine ⟨asyncLoadStart_residentOk s t h2 h1 hstep, ?_⟩
    rw [(asyncLoadStart_config s t hstep).1]; exact h2

theorem run_residentOk (ops : List Op) (s t : ResourceManager)
    (hreg : loadersNonneg (registeredLoaders ops))
    (h : residentOk s ∧ loadersNonneg s.m_formatLoaders) (hrun : run s ops = .ok t) :
    residentOk t ∧ loadersNonneg t.m_formatLoaders := by
  induction ops generalizing s with
  | nil =>
    simp only [run, Except.ok.injEq] at hrun
    subst hrun
    exact h
  | cons op ops ih =>
    simp only [run] at hrun
    split at hrun
    · simp at hrun
    next s1 h1 =>
      have hr1 : loadersNonneg (registeredLoaders [op]) := by
        intro F hF path
        apply hreg F _ path
        cases op <;> simp_all [registeredLoaders]
      have hr2 : loadersNonneg (registeredLoaders ops) := by
        intro F hF path
        apply hreg F _ path
        cases op <;> simp_all [registeredLoaders]
      exact ih s1 hr2 (step_residentOk s s1 op hr1 h h1) hrun

/-- C16.  Let every loader that is registered construct its objects with a
reference count that is not negative.  In every state reached from the empty
manager by a sequence of operations and worker turns, every key of the cache
map is bound to a heap object whose reference count is greater than 0; and a
release that brings the count of such an object from 1 to 0 erases its key
in the same call. -/
theorem resident_resources_have_positive_count (hasher : String → Nat)
    (extension : String → String) (debugBuild : Bool) (ops : List Op) (t : ResourceManager)
    (hreg : loadersNonneg (registeredLoaders ops))
    (hrun : run (ResourceManager.new hasher extension debugBuild) ops = .ok t) :
    (∀ key p, mapFind t.m_resources key = some p →
      ∃ r, t.heap[p]? = some r ∧ 0 < r.m_refCount) ∧
    (∀ key p r, mapFind t.m_resources key = some p → t.heap[p]? = some r → r.m_refCount = 1 →
      mapFind (decrementReference t key).m_resources key = none) := by
  have h0 : residentOk (ResourceManager.new hasher extension debugBuild) ∧
      loadersNonneg (ResourceManager.new hasher extension debugBuild).m_formatLoaders := by
    refine ⟨by simp [residentOk, ResourceManager.new], fun F hF => ?_⟩
    simp [ResourceManager.new] at hF
  obtain ⟨⟨_, h2⟩, _⟩ := run_residentOk ops _ t hreg h0 hrun
  refine ⟨fun key p hf => ?_, fun key p r hf hh hz => ?_⟩
  · obtain ⟨r, a1, a2, _⟩ := h2 (key, p) (mem_of_mapFind _ _ _ hf)
    exact ⟨r, a1, a2⟩
  · rw [decrementReference_last t key p r hf hh hz]
    exact mapFind_mapErase_self _ _

theorem resident_resources_have_positive_count_witness :
    ∃ t, run (ResourceManager.new String.length ext4 true)
        [Op.registerFormatLoader objA, Op.load "a.obj", Op.asyncLoad "bb.obj" 2,
          Op.worker, Op.decrementReference 5, Op.load "a.obj", Op.asyncLoad "a.obj" 4] = .ok t ∧
      t.m_resources = [(5, 2), (6, 1)] ∧
      ∀ key p, mapFind t.m_resources key = some p →
        ∃ r, t.heap[p]? = some r ∧ 0 < r.m_refCount :=
  ⟨_, rfl, by decide,
    (resident_resources_have_positive_count String.length ext4 true
      [Op.registerFormatLoader objA, Op.load "a.obj", Op.asyncLoad "bb.obj" 2,
        Op.worker, Op.decrementReference 5, Op.load "a.obj", Op.asyncLoad "a.obj" 4] _
      (by
        intro F hF path
        simp only [registeredLoaders, List.mem_singleton] at hF
        rw [hF]
        exact le_refl _)
      rfl).1⟩
/-! ## Handles -/

theorem mapFind_map_values {α : Type} (m : List (Nat × α)) (f : α → α) (key : Nat) :
    mapFind (m.map (fun e => (e.1, f e.2))) key = (mapFind m key).map f := by
  induction m with
  | nil => rfl
  | cons e m ih =>
    obtain ⟨k, v⟩ := e
    by_cases hk : k = key
    · simp [mapFind, hk]
    · simp [mapFind, hk, ih]

/-- One operation leaves a pending job pending with every entry at its index
and with its continuation, or erases the job. -/
theorem step_keeps_entries (s t : ResourceManager) (op : Op) (key : Nat) (job : AsyncJob)
    (hj : mapFind s.m_asyncResJobs key = some job) (hstep : step s op = .ok t) :
    mapFind t.m_asyncResJobs key = none ∨
    ∃ job2, mapFind t.m_asyncResJobs key = some job2 ∧
      ∀ (j : Nat) (x : AsyncJobCallback), job.callbacks[j]? = some x →
        ∃ y, job2.callbacks[j]? = some y ∧ y.callback = x.callback := by
  have hsame : ∀ u : ResourceManager, u.m_asyncResJobs = s.m_asyncResJobs →
      mapFind u.m_asyncResJobs key = none ∨
      ∃ job2, mapFind u.m_asyncResJobs key = some job2 ∧
        ∀ (j : Nat) (x : AsyncJobCallback), job.callbacks[j]? = some x →
          ∃ y, job2.callbacks[j]? = some y ∧ y.callback = x.callback := by
    intro u hu
    exact Or.inr ⟨job, by rw [hu]; exact hj, fun j x hx => ⟨x, hx, rfl⟩⟩
  cases op with
  | init c g =>
    simp only [step, Except.ok.injEq] at hstep
    subst hstep
    apply hsame
    unfold init
    split <;> rfl
  | registerFormatLoader FL =>
    simp only [step, Except.ok.injEq] at hstep
    subst hstep
    exact hsame _ rfl
  | load path =>
    simp only [step, Except.ok.injEq] at hstep
    subst hstep
    exact hsame _ (load_frame s path).2.1
  | asyncLoad path cb =>
    simp only [step, Except.ok.injEq] at hstep
    subst hstep
    cases hr : mapFind s.m_resources (s.m_pathHasher path) with
    | some p =>
      rw [asyncLoad_of_resident s path cb p hr]
      exact hsame _ rfl
    | none =>
      cases hj2 : mapFind s.m_asyncResJobs (s.m_pathHasher path) with
      | some job1 =>
        rw [asyncLoad_of_pending s path cb job1 hr hj2]
        right
        by_cases hk : s.m_pathHasher path = key
        · rw [hk] at hj2
          rw [hj] at hj2
          simp only [Option.some.injEq] at hj2
          subst hj2
          refine ⟨job.push cb, by simp [hk, mapFind_mapModify_self, hj], fun j x hx => ?_⟩
          exact ⟨x, getElem?_append_of_some _ _ _ _ hx, rfl⟩
        · exact ⟨job, by simp only [mapFind_mapModify_ne _ _ _ _ hk]; exact hj,
            fun j x hx => ⟨x, hx, rfl⟩⟩
      | none =>
        rw [asyncLoad_of_new s path cb hr hj2]
        right
        have hk : s.m_pathHasher path ≠ key := by
          intro hk
          rw [hk, hj] at hj2
          simp at hj2
        exact ⟨job, by simp only [mapFind_mapEmplace_ne _ _ _ _ hk]; exact hj,
          fun j x hx => ⟨x, hx, rfl⟩⟩
  | removeAsyncJob index =>
    simp only [step, removeAsyncJob] at hstep
    split at hstep
    · simp only [Except.ok.injEq] at hstep
      subst hstep
      exact hsame _ rfl
    next job1 hj1 =>
      split at hstep
      · simp only [Except.ok.injEq] at hstep
        subst hstep
        right
        by_cases hk : index.GUID = key
        · rw [hk, hj] at hj1
          simp only [Option.some.injEq] at hj1
          subst hj1
          refine ⟨job.cancel index.IndexOfCallback,
            by simp [hk, mapFind_mapModify_self, hj], fun j x hx => ?_⟩
          simp only [AsyncJob.cancel, List.getElem?_modify, hx, Option.map_eq_map,
            Option.map_some']
          by_cases hij : index.IndexOfCallback = j
          · exact ⟨x.cancel, by simp [hij], rfl⟩
          · exact ⟨x, by simp [hij], rfl⟩
        · exact ⟨job, by simp only [mapFind_mapModify_ne _ _ _ _ hk]; exact hj,
            fun j x hx => ⟨x, hx, rfl⟩⟩
      · simp at hstep
  | removeAllAsyncJobs =>
    simp only [step, Except.ok.injEq] at hstep
    subst hstep
    right
    refine ⟨job.cancelAll, by simp [removeAllAsyncJobs, mapFind_map_values, hj],
      fun j x hx => ?_⟩
    exact ⟨x.cancel, by simp [AsyncJob.cancelAll, hx], rfl⟩
  | decrementReference k =>
    simp only [step, Except.ok.injEq] at hstep
    subst hstep
    exact hsame _ (decrementReference_frame s k).2.1
  | clearResourceManager =>
    simp only [step, Except.ok.injEq] at hstep
    subst hstep
    left
    have e : (clearResourceManager s).m_asyncResJobs = [] := by
      simp only [clearResourceManager]
      exact (destroyAll_frame s.m_resources
        { s with m_asyncJobQueue := [], m_asyncResJobs := [] }).2.1
    rw [e]; rfl
  | cleanup =>
    simp only [step, Except.ok.injEq] at hstep
    subst hstep
    apply hsame
    simp only [cleanup]
    exact (destroyAll_frame s.m_resources
      { s with m_running := false, m_formatLoaders := [] }).2.1
  | worker =>
    simp only [step] at hstep
    rcases asyncLoadStart_ok s t hstep with ⟨_, he⟩ | ⟨hc, G, q, job1, p, s4, r, hq, hj1, _⟩
    · rw [he]; exact hsame _ rfl
    · obtain ⟨_, _, e5, _⟩ := asyncLoadStart_turn s t G q job1 hc.2 hq hj1 hstep
      by_cases hk : G = key
      · left
        rw [e5, hk]; exact mapFind_mapErase_self _ _
      · right
        exact ⟨job, by rw [e5, mapFind_mapErase_ne _ _ _ hk]; exact hj,
          fun j x hx => ⟨x, hx, rfl⟩⟩

theorem run_keeps_entry (ops : List Op) (s t : ResourceManager) (key i c : Nat)
    (hinv : ∃ job x, mapFind s.m_asyncResJobs key = some job ∧ job.callbacks[i]? = some x ∧
      x.callback = c)
    (hrun : run s ops = .ok t) (hpend : pendingThroughout key s ops = true) :
    ∃ job x, mapFind t.m_asyncResJobs key = some job ∧ job.callbacks[i]? = some x ∧
      x.callback = c := by
  induction ops generalizing s with
  | nil =>
    simp only [run, Except.ok.injEq] at hrun
    subst hrun
    exact hinv
  | cons op ops ih =>
    simp only [run] at hrun
    split at hrun
    · simp at hrun
    next s1 h1 =>
      simp only [pendingThroughout, h1, Bool.and_eq_true] at hpend
      obtain ⟨job, x, a1, a2, a3⟩ := hinv
      rcases step_keeps_entries s s1 op key job a1 h1 with hn | ⟨job2, b1, b2⟩
      · rw [hn] at hpend; simp at hpend
      · obtain ⟨y, c1, c2⟩ := b2 i x a2
        exact ih s1 ⟨job2, y, b1, c1, c2.trans a3⟩ hrun hpend.2
/-- C15 (counterexample).  Continuation 1 asks for "a.obj" and gets the handle
`(5, 0)`.  The worker serves the job and erases it, the object is released and
continuation 2 asks for "a.obj": a new job is created under the same hash.
`removeAsyncJob((5, 0))`, the handle of continuation 1, now clears the flag of
the entry of continuation 2.  In the second run continuation 3 holds the
handle `(5, 1)`; after the job is served and a new job with one entry exists,
`removeAsyncJob((5, 1))` raises the range error of `vector::at`. -/
theorem stale_handle_cancels_other_continuation :
    (asyncLoad rmOne "a.obj" 1).2 = { GUID := 5, IndexOfCallback := 0 } ∧
    (run rmOne [Op.asyncLoad "a.obj" 1, Op.worker, Op.decrementReference 5,
        Op.asyncLoad "a.obj" 2]).toOption.map (fun s => s.m_asyncResJobs)
      = some [(5, { filepath := "a.obj", callbacks := [{ run := true, callback := 2 }] })] ∧
    (run rmOne [Op.asyncLoad "a.obj" 1, Op.worker, Op.decrementReference 5,
        Op.asyncLoad "a.obj" 2,
        Op.removeAsyncJob { GUID := 5, IndexOfCallback := 0 }]).toOption.map
        (fun s => s.m_asyncResJobs)
      = some [(5, { filepath := "a.obj", callbacks := [{ run := false, callback := 2 }] })] ∧
    (asyncLoad (asyncLoad rmOne "a.obj" 1).1 "a.obj" 3).2 = { GUID := 5, IndexOfCallback := 1 } ∧
    faultOf (run rmOne [Op.asyncLoad "a.obj" 1, Op.asyncLoad "a.obj" 3, Op.worker,
        Op.decrementReference 5, Op.decrementReference 5, Op.asyncLoad "a.obj" 2]) = none ∧
    faultOf (run rmOne [Op.asyncLoad "a.obj" 1, Op.asyncLoad "a.obj" 3, Op.worker,
        Op.decrementReference 5, Op.decrementReference 5, Op.asyncLoad "a.obj" 2,
        Op.removeAsyncJob { GUID := 5, IndexOfCallback := 1 }]) = some Fault.outOfRange := by
  decide

/-- C15 (as amended).  Let `asyncLoad(P, c)` return the handle `h`.  If `P` was
not resident (the handle names a job and an index), then in every state reached
afterwards by operations and worker turns during which the job table always
held a job under the hash of the handle, the entry at the index of the handle
is the entry registered for `c`, `removeAsyncJob(h)` raises no error, and it
clears the flag of that entry only: every other entry of the job and every
other job are as before.  If `P` was resident, the handle is `(0, 0)`, and
`removeAsyncJob((0, 0))` changes nothing in a state with no job under key 0. -/
theorem handle_cancels_own_entry_while_pending (s0 : ResourceManager) (P : String) (c : Nat)
    (ops : List Op) (t : ResourceManager)
    (hrun : run (asyncLoad s0 P c).1 ops = .ok t) :
    (mapFind s0.m_resources (s0.m_pathHasher P) = none →
      pendingThroughout (asyncLoad s0 P c).2.GUID (asyncLoad s0 P c).1 ops = true →
      ∃ job x, mapFind t.m_asyncResJobs (asyncLoad s0 P c).2.GUID = some job ∧
        job.callbacks[(asyncLoad s0 P c).2.IndexOfCallback]? = some x ∧ x.callback = c ∧
        removeAsyncJob t (asyncLoad s0 P c).2
          = .ok { t with
                  m_asyncResJobs := (mapModify t.m_asyncResJobs (asyncLoad s0 P c).2.GUID
                    (fun j => j.cancel (asyncLoad s0 P c).2.IndexOfCallback)) } ∧
        mapFind (mapModify t.m_asyncResJobs (asyncLoad s0 P c).2.GUID
            (fun j => j.cancel (asyncLoad s0 P c).2.IndexOfCallback)) (asyncLoad s0 P c).2.GUID
          = some (job.cancel (asyncLoad s0 P c).2.IndexOfCallback) ∧
        (∀ j, (job.cancel (asyncLoad s0 P c).2.IndexOfCallback).callbacks[j]?
          = if j = (asyncLoad s0 P c).2.IndexOfCallback then some x.cancel
            else job.callbacks[j]?) ∧
        (∀ k, (asyncLoad s0 P c).2.GUID ≠ k →
          mapFind (mapModify t.m_asyncResJobs (asyncLoad s0 P c).2.GUID
            (fun j => j.cancel (asyncLoad s0 P c).2.IndexOfCallback)) k
          = mapFind t.m_asyncResJobs k)) ∧
    (∀ p, mapFind s0.m_resources (s0.m_pathHasher P) = some p →
      (asyncLoad s0 P c).2 = { GUID := 0, IndexOfCallback := 0 } ∧
      (mapFind t.m_asyncResJobs 0 = none →
        removeAsyncJob t { GUID := 0, IndexOfCallback := 0 } = .ok t)) := by
  refine ⟨fun hres hpend => ?_, fun p hres => ?_⟩
  · have hinit : ∃ job x,
        mapFind (asyncLoad s0 P c).1.m_asyncResJobs (asyncLoad s0 P c).2.GUID = some job ∧
        job.callbacks[(asyncLoad s0 P c).2.IndexOfCallback]? = some x ∧ x.callback = c := by
      cases hj : mapFind s0.m_asyncResJobs (s0.m_pathHasher P) with
      | some job0 =>
        rw [asyncLoad_of_pending s0 P c job0 hres hj]
        refine ⟨job0.push c, { run := true, callback := c }, ?_, ?_, rfl⟩
        · simp [mapFind_mapModify_self, hj]
        · simp [AsyncJob.push]
      | none =>
        rw [asyncLoad_of_new s0 P c hres hj]
        exact ⟨_, { run := true, callback := c }, mapFind_mapEmplace_absent _ _ _ hj, rfl, rfl⟩
    obtain ⟨job, x, a1, a2, a3⟩ := run_keeps_entry ops _ t _ _ c hinit hrun hpend
    have hlt : (asyncLoad s0 P c).2.IndexOfCallback < job.callbacks.length := by
      rcases List.getElem?_eq_some_iff.mp a2 with ⟨h, _⟩
      exact h
    refine ⟨job, x, a1, a2, a3, ?_, ?_, ?_, ?_⟩
    · simp only [removeAsyncJob, a1, hlt, if_true]
    · simp [mapFind_mapModify_self, a1]
    · intro j
      simp only [AsyncJob.cancel, List.getElem?_modify]
      by_cases hij : j = (asyncLoad s0 P c).2.IndexOfCallback
      · subst hij
        simp [a2]
      · have hji : ¬ (asyncLoad s0 P c).2.IndexOfCallback = j := fun h => hij h.symm
        simp only [hij, hji, if_false]
        cases job.callbacks[j]? <;> rfl
    · intro k hk
      exact mapFind_mapModify_ne _ _ _ _ hk
  · rw [asyncLoad_of_resident s0 P c p hres]
    refine ⟨rfl, fun h0 => ?_⟩
    simp only [removeAsyncJob, h0]

theorem handle_cancels_own_entry_while_pending_witness :
    ∃ t, run (asyncLoad rmOne "a.obj" 1).1
        [Op.asyncLoad "bb.obj" 2, Op.asyncLoad "a.obj" 3, Op.removeAllAsyncJobs,
          Op.asyncLoad "a.obj" 4] = .ok t ∧
      ∃ job x, mapFind t.m_asyncResJobs 5 = some job ∧ job.callbacks[0]? = some x ∧
        x.callback = 1 :=
  ⟨_, rfl,
    match (handle_cancels_own_entry_while_pending rmOne "a.obj" 1
      [Op.asyncLoad "bb.obj" 2, Op.asyncLoad "a.obj" 3, Op.removeAllAsyncJobs,
        Op.asyncLoad "a.obj" 4] _ rfl).1 (by decide) (by decide) with
    | ⟨job, x, h1, h2, h3, _⟩ => ⟨job, x, h1, h2, h3⟩⟩
/-! ## Order of service -/

theorem firstOccurrences_append_singleton (l : List Nat) (h : Nat) :
    firstOccurrences (l ++ [h])
      = if h ∈ firstOccurrences l then firstOccurrences l else firstOccurrences l ++ [h] := by
  simp [firstOccurrences, List.foldl_append]

theorem mem_firstOccurrences (l : List Nat) : ∀ h, h ∈ firstOccurrences l ↔ h ∈ l := by
  induction l using List.reverseRecOn with
  | nil => simp [firstOccurrences]
  | append_singleton l a ih =>
    intro h
    rw [firstOccurrences_append_singleton]
    split
    next hin =>
      rw [ih] at hin
      simp only [List.mem_append, List.mem_singleton, ih]
      constructor
      · exact Or.inl
      · rintro (h1 | h1)
        · exact h1
        · rw [h1]; exact hin
    · simp only [List.mem_append, List.mem_singleton, ih]

theorem nodup_firstOccurrences (l : List Nat) : (firstOccurrences l).Nodup := by
  induction l using List.reverseRecOn with
  | nil => simp [firstOccurrences]
  | append_singleton l a ih =>
    rw [firstOccurrences_append_singleton]
    split
    · exact ih
    next hnin =>
      exact List.nodup_append.mpr ⟨ih, List.nodup_singleton _, by
        intro x hx hy
        rw [List.mem_singleton] at hy
        rw [hy] at hx
        exact hnin hx⟩

theorem asyncLoadRequests_append (s : ResourceManager) (a b : List (String × Nat)) :
    asyncLoadRequests s (a ++ b) = asyncLoadRequests (asyncLoadRequests s a) b := by
  induction a generalizing s with
  | nil => rfl
  | cons r a ih =>
    rw [List.cons_append]
    simp only [asyncLoadRequests]
    exact ih _

/-- The state of the queue and the job table after the requests `done` were
made on a manager with no pending job: the queue lists the distinct hashes in
the order of their first request, and under each of them there is one job,
whose path is one of the requested paths with that hash and whose entries are
the continuations requested for that hash, in request order and all active. -/
theorem asyncLoadRequests_pending (reqs : List (String × Nat)) (s : ResourceManager)
    (hjobs : s.m_asyncResJobs = []) (hqueue : s.m_asyncJobQueue = [])
    (hres : ∀ r ∈ reqs, mapFind s.m_resources (s.m_pathHasher r.1) = none) :
    (asyncLoadRequests s reqs).m_asyncJobQueue
      = firstOccurrences (reqs.map (fun r => s.m_pathHasher r.1)) ∧
    (∀ h ∈ (asyncLoadRequests s reqs).m_asyncJobQueue,
      ∃ job, mapFind (asyncLoadRequests s reqs).m_asyncResJobs h = some job ∧
        job.callbacks = activeCallbacks
          ((reqs.filter (fun r => decide (s.m_pathHasher r.1 = h))).map Prod.snd) ∧
        s.m_pathHasher job.filepath = h ∧ job.filepath ∈ reqs.map Prod.fst) ∧
    (∀ h, h ∉ (asyncLoadRequests s reqs).m_asyncJobQueue →
      mapFind (asyncLoadRequests s reqs).m_asyncResJobs h = none) ∧
    (asyncLoadRequests s reqs).m_resources = s.m_resources ∧
    (asyncLoadRequests s reqs).events = s.events ∧
    (asyncLoadRequests s reqs).heap = s.heap ∧
    sameConfig s (asyncLoadRequests s reqs) := by
  induction reqs using List.reverseRecOn with
  | nil =>
    refine ⟨hqueue, ?_, ?_, rfl, rfl, rfl, sameConfig_refl s⟩
    · intro h hh
      have hh2 : h ∈ s.m_asyncJobQueue := hh
      rw [hqueue] at hh2; simp at hh2
    · intro h _
      show mapFind s.m_asyncResJobs h = none
      rw [hjobs]; rfl
  | append_singleton done r ih =>
    obtain ⟨a1, a2, a3, a4, a5, a6, a7⟩ :=
      ih (fun x hx => hres x (List.mem_append_left _ hx))
    obtain ⟨P, c⟩ := r
    have hhash : (asyncLoadRequests s done).m_pathHasher = s.m_pathHasher := a7.2.1
    have hr : mapFind (asyncLoadRequests s done).m_resources
        ((asyncLoadRequests s done).m_pathHasher P) = none := by
      rw [a4, hhash]
      exact hres (P, c) (List.mem_append_right _ (List.mem_singleton_self _))
    have hcfg : sameConfig s (asyncLoad (asyncLoadRequests s done) P c).1 :=
      sameConfig_trans a7 (asyncLoad_config _ _ _)
    rw [asyncLoadRequests_append]
    simp only [asyncLoadRequests, List.map_append, List.map_cons, List.map_nil,
      List.filter_append]
    rw [firstOccurrences_append_singleton]
    by_cases hin : s.m_pathHasher P ∈ firstOccurrences (done.map (fun r => s.m_pathHasher r.1))
    · rw [if_pos hin]
      obtain ⟨job, b1, b2, b3, b4⟩ := a2 (s.m_pathHasher P) (by rw [a1]; exact hin)
      have e := asyncLoad_of_pending (asyncLoadRequests s done) P c job hr
        (by rw [hhash]; exact b1)
      have ejobs : (asyncLoad (asyncLoadRequests s done) P c).1.m_asyncResJobs
          = mapModify (asyncLoadRequests s done).m_asyncResJobs (s.m_pathHasher P)
              (fun j => j.push c) := by rw [e, hhash]
      have equeue : (asyncLoad (asyncLoadRequests s done) P c).1.m_asyncJobQueue
          = (asyncLoadRequests s done).m_asyncJobQueue := by rw [e]
      refine ⟨by rw [equeue]; exact a1, ?_, ?_, by rw [e]; exact a4, by rw [e]; exact a5,
        by rw [e]; exact a6, hcfg⟩
      · intro h hh
        rw [equeue] at hh
        rw [ejobs]
        by_cases hk : s.m_pathHasher P = h
        · subst hk
          refine ⟨job.push c, by simp [mapFind_mapModify_self, b1], ?_, b3, ?_⟩
          · simp [AsyncJob.push, b2, activeCallbacks, List.filter_cons]
          · simp only [AsyncJob.push]
            exact List.mem_append_left _ b4
        · obtain ⟨job2, d1, d2, d3, d4⟩ := a2 h hh
          refine ⟨job2, by simp only [mapFind_mapModify_ne _ _ _ _ hk]; exact d1, ?_, d3,
            List.mem_append_left _ d4⟩
          simp [d2, List.filter_cons, hk]
      · intro h hh
        rw [equeue] at hh
        rw [ejobs]
        have hk : s.m_pathHasher P ≠ h := by
          intro hk
          rw [hk, ← a1] at hin
          exact hh hin
        simp only [mapFind_mapModify_ne _ _ _ _ hk]
        exact a3 h hh
    · rw [if_neg hin]
      have hj : mapFind (asyncLoadRequests s done).m_asyncResJobs
          ((asyncLoadRequests s done).m_pathHasher P) = none := by
        rw [hhash]; exact a3 _ (by rw [a1]; exact hin)
      have hj2 : mapFind (asyncLoadRequests s done).m_asyncResJobs (s.m_pathHasher P) = none := by
        rw [← hhash]; exact hj
      have e := asyncLoad_of_new (asyncLoadRequests s done) P c hr hj
      have ejobs : (asyncLoad (asyncLoadRequests s done) P c).1.m_asyncResJobs
          = mapEmplace (asyncLoadRequests s done).m_asyncResJobs (s.m_pathHasher P)
              { filepath := P, callbacks := [{ run := true, callback := c }] } := by
        rw [e, hhash]
      have equeue : (asyncLoad (asyncLoadRequests s done) P c).1.m_asyncJobQueue
          = (asyncLoadRequests s done).m_asyncJobQueue ++ [s.m_pathHasher P] := by
        rw [e, hhash]
      have hnone : done.filter (fun r => decide (s.m_pathHasher r.1 = s.m_pathHasher P)) = [] := by
        rw [List.filter_eq_nil_iff]
        intro x hx hd
        simp only [decide_eq_true_eq] at hd
        apply hin
        rw [mem_firstOccurrences, ← hd]
        exact List.mem_map.mpr ⟨x, hx, rfl⟩
      refine ⟨by rw [equeue, a1], ?_, ?_, by rw [e]; exact a4, by rw [e]; exact a5,
        by rw [e]; exact a6, hcfg⟩
      · intro h hh
        rw [equeue] at hh
        rw [ejobs]
        simp only [List.mem_append, List.mem_singleton] at hh
        by_cases hk : s.m_pathHasher P = h
        · subst hk
          refine ⟨_, mapFind_mapEmplace_absent _ _ _ hj2, ?_, rfl, ?_⟩
          · simp [hnone, activeCallbacks, List.filter_cons]
          · simp
        · rcases hh with hh | hh
          · obtain ⟨job2, d1, d2, d3, d4⟩ := a2 h hh
            refine ⟨job2, by simp only [mapFind_mapEmplace_ne _ _ _ _ hk]; exact d1, ?_, d3,
              List.mem_append_left _ d4⟩
            simp [d2, List.filter_cons, hk]
          · exact absurd hh.symm hk
      · intro h hh
        rw [equeue] at hh
        rw [ejobs]
        simp only [List.mem_append, List.mem_singleton, not_or] at hh
        have hk : s.m_pathHasher P ≠ h := fun hk => hh.2 hk.symm
        simp only [mapFind_mapEmplace_ne _ _ _ _ hk]
        exact a3 h hh.1
/-- The worker turn for a job whose path is not resident and has a supporting
loader completes, and it changes the cache map under the hash of that path
only. -/
theorem asyncLoadStart_serves (s : ResourceManager) (GUID : Nat) (queue : List Nat)
    (currJob : AsyncJob)
    (hrun : s.m_running = true)
    (hq : s.m_asyncJobQueue = GUID :: queue)
    (hj : mapFind s.m_asyncResJobs GUID = some currJob)
    (hres : mapFind s.m_resources (s.m_pathHasher currJob.filepath) = none)
    (hsup : ∃ FL ∈ s.m_formatLoaders,
      FL.extensionSupported (s.extension currJob.filepath) = true) :
    ∃ t, asyncLoadStart s = .ok t ∧
      ∀ k, s.m_pathHasher currJob.filepath ≠ k →
        mapFind t.m_resources k = mapFind s.m_resources k := by
  have hl := load_of_absent
    (emit { s with m_asyncJobQueue := queue } (Event.message (.startedAsync currJob.filepath)))
    currJob.filepath hres
  obtain ⟨_, _, _, _, _, _, _, _, hsome⟩ := loadLoop_supported currJob.filepath
    (s.m_pathHasher currJob.filepath) (s.extension currJob.filepath) s.m_formatLoaders 0
    (emit { s with m_asyncJobQueue := queue } (Event.message (.startedAsync currJob.filepath)))
    none hres hsup
  have hsome2 : (load (emit { s with m_asyncJobQueue := queue }
      (Event.message (.startedAsync currJob.filepath))) currJob.filepath).2.isSome = true := by
    rw [hl]; exact hsome
  obtain ⟨p, hp⟩ := Option.isSome_iff_exists.mp hsome2
  obtain ⟨r, hr, hguid⟩ : ∃ r, (load (emit { s with m_asyncJobQueue := queue }
      (Event.message (.startedAsync currJob.filepath))) currJob.filepath).1.heap[p]? = some r ∧
      r.m_GUID = s.m_pathHasher currJob.filepath := by
    have := loadLoop_result currJob.filepath (s.m_pathHasher currJob.filepath)
      (s.extension currJob.filepath) s.m_formatLoaders 0
      (emit { s with m_asyncJobQueue := queue } (Event.message (.startedAsync currJob.filepath)))
      none (by intro q hq; simp at hq) p (by have h2 := hp; rw [hl] at h2; exact h2)
    rw [hl]; exact this
  have hvalid : p < (load (emit { s with m_asyncJobQueue := queue }
      (Event.message (.startedAsync currJob.filepath))) currJob.filepath).1.heap.length := by
    rcases List.getElem?_eq_some_iff.mp hr with ⟨h, _⟩
    exact h
  obtain ⟨s4, r4, h4, hr4, hok⟩ := asyncLoadStart_total s GUID queue currJob p hrun hq hj hp hvalid
  refine ⟨_, hok, fun k hk => ?_⟩
  obtain ⟨r2, c1, c2, _⟩ := runCallbacks_heap _ _ _ _ h4 p r hr
  rw [hr4] at c1
  simp only [Option.some.injEq] at c1
  subst c1
  have hm4 := (runCallbacks_ok _ _ _ _ h4).2.2.2.1
  show mapFind (decrementReference s4 r4.m_GUID).m_resources k = _
  rw [decrementReference_other_keys s4 r4.m_GUID k (by rw [c2, hguid]; exact hk), hm4]
  exact load_other_keys (emit { s with m_asyncJobQueue := queue }
    (Event.message (.startedAsync currJob.filepath))) currJob.filepath k hk

theorem flatMap_congr_mem {α β : Type} (l : List α) (f g : α → List β)
    (h : ∀ a ∈ l, f a = g a) : l.flatMap f = l.flatMap g := by
  induction l with
  | nil => rfl
  | cons a l ih =>
    simp only [List.flatMap_cons]
    rw [h a (List.mem_cons_self _ _), ih (fun x hx => h x (List.mem_cons_of_mem _ hx))]

theorem eq_nil_of_mapFind_none {α : Type} (m : List (Nat × α))
    (h : ∀ k, mapFind m k = none) : m = [] := by
  cases m with
  | nil => rfl
  | cons e m =>
    have := h e.1
    simp [mapFind] at this

/-- The worker serves a consistent queue head first: as many turns as the
queue is long complete, empty the queue and the job table, start the jobs in
queue order and call, job after job, the active continuations of each. -/
theorem run_worker_serves (hs : List Nat) (s : ResourceManager)
    (hrun : s.m_running = true) (hq : s.m_asyncJobQueue = hs) (hnodup : hs.Nodup)
    (hjobs : ∀ h ∈ hs, ∃ job, mapFind s.m_asyncResJobs h = some job ∧
      s.m_pathHasher job.filepath = h ∧
      (∃ FL ∈ s.m_formatLoaders, FL.extensionSupported (s.extension job.filepath) = true))
    (hres : ∀ h ∈ hs, mapFind s.m_resources h = none)
    (hother : ∀ h, h ∉ hs → mapFind s.m_asyncResJobs h = none) :
    ∃ t, run s (List.replicate hs.length Op.worker) = .ok t ∧
      t.m_asyncJobQueue = [] ∧ t.m_asyncResJobs = [] ∧
      ∃ new, t.events = s.events ++ new ∧
        invoked new = hs.flatMap (activeOf s.m_asyncResJobs) ∧
        (startedPaths new).map s.m_pathHasher = hs := by
  induction hs generalizing s with
  | nil =>
    refine ⟨s, rfl, hq, eq_nil_of_mapFind_none _ (fun k => hother k (by simp)), [], by simp,
      rfl, rfl⟩
  | cons h rest ih =>
    obtain ⟨job, hj, hhash, hsup⟩ := hjobs h (List.mem_cons_self _ _)
    have hresh : mapFind s.m_resources (s.m_pathHasher job.filepath) = none := by
      rw [hhash]; exact hres h (List.mem_cons_self _ _)
    obtain ⟨t1, hok, hkeys⟩ := asyncLoadStart_serves s h rest job hrun hq hj hresh hsup
    obtain ⟨⟨n1, e1, e2, e3⟩, e4, e5, e6⟩ := asyncLoadStart_turn s t1 h rest job hrun hq hj hok
    have hnot : h ∉ rest := (List.nodup_cons.mp hnodup).1
    have hne : ∀ k ∈ rest, h ≠ k := fun k hk hkk => hnot (hkk ▸ hk)
    obtain ⟨c1, c2, c3, c4, _⟩ := e6
    obtain ⟨t, hrun2, f1, f2, n2, g1, g2, g3⟩ := ih t1 (by rw [c4]; exact hrun) e4
      (List.nodup_cons.mp hnodup).2
      (by
        intro k hk
        obtain ⟨job2, d1, d2, d3⟩ := hjobs k (List.mem_cons_of_mem _ hk)
        refine ⟨job2, by rw [e5, mapFind_mapErase_ne _ _ _ (hne k hk)]; exact d1,
          by rw [c2]; exact d2, by rw [c1, c3]; exact d3⟩)
      (by
        intro k hk
        rw [hkeys k (by rw [hhash]; exact hne k hk)]
        exact hres k (List.mem_cons_of_mem _ hk))
      (by
        intro k hk
        rw [e5]
        by_cases hkh : h = k
        · rw [hkh]; exact mapFind_mapErase_self _ _
        · rw [mapFind_mapErase_ne _ _ _ hkh]
          exact hother k (by
            intro hmem
            rcases List.mem_cons.mp hmem with h1 | h1
            · exact hkh h1.symm
            · exact hk h1))
    refine ⟨t, ?_, f1, f2, n1 ++ n2, by rw [g1, e1, List.append_assoc], ?_, ?_⟩
    · simp only [List.length_cons, List.replicate_succ, run, step, hok]
      exact hrun2
    · rw [invoked_append, e2, g2, List.flatMap_cons]
      congr 1
      · simp [activeOf, hj]
      · apply flatMap_congr_mem
        intro k hk
        simp only [activeOf, e5, mapFind_mapErase_ne _ _ _ (hne k hk)]
    · rw [startedPaths_append, e3, List.map_append, c2] at *
      rw [g3]
      simp [hhash]
theorem active_activeCallbacks (cs : List Nat) :
    ((activeCallbacks cs).filter AsyncJobCallback.run).map AsyncJobCallback.callback = cs := by
  induction cs with
  | nil => rfl
  | cons c cs ih =>
    simp only [activeCallbacks, List.map_cons] at ih ⊢
    simp only [List.filter_cons, if_true, List.map_cons, ih]

/-- C13.  On a running manager with no pending job, let a sequence of requests
`asyncLoad(P, c)` be made for paths that are not resident and whose extensions
are supported, and let the worker then take as many turns as there are
distinct path hashes among the requests.  All turns complete and leave the
queue and the job table empty; the jobs are started in the order in which
their hashes were first requested; and the sequence of continuation calls is
the requests ordered by first-request position of their hash and, within one
hash, by request position. -/
theorem worker_serves_in_request_order (s : ResourceManager) (reqs : List (String × Nat))
    (hrun : s.m_running = true)
    (hjobs : s.m_asyncResJobs = []) (hqueue : s.m_asyncJobQueue = [])
    (hres : ∀ r ∈ reqs, mapFind s.m_resources (s.m_pathHasher r.1) = none)
    (hsup : ∀ r ∈ reqs, ∃ FL ∈ s.m_formatLoaders,
      FL.extensionSupported (s.extension r.1) = true) :
    ∃ t, run (asyncLoadRequests s reqs)
        (List.replicate (firstOccurrences (reqs.map (fun r => s.m_pathHasher r.1))).length
          Op.worker) = .ok t ∧
      t.m_asyncJobQueue = [] ∧ t.m_asyncResJobs = [] ∧
      (startedPaths (t.events.drop s.events.length)).map s.m_pathHasher
        = firstOccurrences (reqs.map (fun r => s.m_pathHasher r.1)) ∧
      invoked (t.events.drop s.events.length) = serviceOrder s.m_pathHasher reqs := by
  obtain ⟨a1, a2, a3, a4, a5, _, a7⟩ := asyncLoadRequests_pending reqs s hjobs hqueue hres
  obtain ⟨c1, c2, c3, c4, _⟩ := a7
  have hmem : ∀ h ∈ firstOccurrences (reqs.map (fun r => s.m_pathHasher r.1)),
      ∃ r ∈ reqs, s.m_pathHasher r.1 = h := by
    intro h hh
    rw [mem_firstOccurrences] at hh
    obtain ⟨r, hr, hrh⟩ := List.mem_map.mp hh
    exact ⟨r, hr, hrh⟩
  obtain ⟨t, hok, f1, f2, new, g1, g2, g3⟩ := run_worker_serves
    (firstOccurrences (reqs.map (fun r => s.m_pathHasher r.1))) (asyncLoadRequests s reqs)
    (by rw [c4]; exact hrun) a1 (nodup_firstOccurrences _)
    (by
      intro h hh
      obtain ⟨job, b1, _, b3, b4⟩ := a2 h (by rw [a1]; exact hh)
      obtain ⟨r, hr, hrp⟩ := List.mem_map.mp b4
      obtain ⟨FL, hFL, hFLs⟩ := hsup r hr
      refine ⟨job, b1, by rw [c2]; exact b3, FL, by rw [c1]; exact hFL, ?_⟩
      rw [c3, ← hrp]; exact hFLs)
    (by
      intro h hh
      obtain ⟨r, hr, hrh⟩ := hmem h hh
      rw [a4, ← hrh]
      exact hres r hr)
    (by
      intro h hh
      exact a3 h (by rw [a1]; exact hh))
  refine ⟨t, hok, f1, f2, ?_, ?_⟩
  · rw [g1, a5, List.drop_left]
    rw [c2] at g3
    exact g3
  · rw [g1, a5, List.drop_left, g2]
    simp only [serviceOrder]
    apply flatMap_congr_mem
    intro h hh
    obtain ⟨job, b1, b2, _⟩ := a2 h (by rw [a1]; exact hh)
    simp only [activeOf, b1, b2, active_activeCallbacks]

theorem worker_serves_in_request_order_witness :
    serviceOrder rmOne.m_pathHasher
        [("a.obj", 1), ("bb.obj", 2), ("a.obj", 3), ("ccc.obj", 4), ("bb.obj", 5)]
      = [1, 3, 2, 5, 4] ∧
    ∃ t, run (asyncLoadRequests rmOne
          [("a.obj", 1), ("bb.obj", 2), ("a.obj", 3), ("ccc.obj", 4), ("bb.obj", 5)])
        (List.replicate 3 Op.worker) = .ok t ∧
      t.m_asyncJobQueue = [] ∧ t.m_asyncResJobs = [] ∧
      (startedPaths (t.events.drop rmOne.events.length)).map rmOne.m_pathHasher = [5, 6, 7] ∧
      invoked (t.events.drop rmOne.events.length)
        = serviceOrder rmOne.m_pathHasher
            [("a.obj", 1), ("bb.obj", 2), ("a.obj", 3), ("ccc.obj", 4), ("bb.obj", 5)] :=
  ⟨by decide,
    worker_serves_in_request_order rmOne
      [("a.obj", 1), ("bb.obj", 2), ("a.obj", 3), ("ccc.obj", 4), ("bb.obj", 5)]
      rfl rfl rfl (by decide)
      (by
        intro r _
        refine ⟨objA, List.mem_singleton.mpr rfl, ?_⟩
        rename_i hr
        simp only [List.mem_cons, List.mem_singleton, List.not_mem_nil, or_false] at hr
        rcases hr with h | h | h | h | h <;> (rw [h]; decide))⟩

/-! ## Between the two statements that create a job -/

/-- For a path that is not resident and has no job, `asyncLoad` is the
statement of line 234 followed by the statement of line 235. -/
theorem asyncLoad_new_in_two_steps (s : ResourceManager) (P : String) (c : Nat)
    (hres : mapFind s.m_resources (s.m_pathHasher P) = none)
    (hjob : mapFind s.m_asyncResJobs (s.m_pathHasher P) = none) :
    (asyncLoad s P c).1 = asyncLoadPush (asyncLoadEmplace s P c) P := by
  rw [asyncLoad_of_new s P c hres hjob]
  rfl

/-- Between its two statements the job table has one more job than the queue
has hashes: in a state with an empty queue and an empty job table, the worker
that takes its turn there finds the table not empty and calls `front()` on the
empty queue. -/
theorem asyncLoadStart_after_emplace (s : ResourceManager) (P : String) (c : Nat)
    (hrun : s.m_running = true) (hjobs : s.m_asyncResJobs = [])
    (hqueue : s.m_asyncJobQueue = []) :
    asyncLoadStart (asyncLoadEmplace s P c) = .error Fault.emptyQueueFront := by
  simp [asyncLoadStart, asyncLoadEmplace, hjobs, hqueue, hrun, mapEmplace, mapFind, mapInsert]

/-- C20 (evaluation at the failing schedule).  A caller is inside
`asyncLoad("a.obj", 7)` on the empty manager and has executed line 234 but not
line 235; the two statements together are the whole call.  In the state
between them the job table has one job and the queue is empty, and the worker
turn that runs there ends in `front()` on the empty queue.  If instead
`clearResourceManager()` runs there and the caller then executes line 235, the
queue holds the hash 5 and the job table holds no job under it; after a
complete `asyncLoad("bb.obj", 8)` the worker pops 5 and dereferences the
`end()` iterator that `find` returned. -/
theorem worker_between_emplace_and_push_faults :
    (asyncLoadPush (asyncLoadEmplace rmOne "a.obj" 7) "a.obj").m_asyncResJobs
      = (asyncLoad rmOne "a.obj" 7).1.m_asyncResJobs ∧
    (asyncLoadPush (asyncLoadEmplace rmOne "a.obj" 7) "a.obj").m_asyncJobQueue
      = (asyncLoad rmOne "a.obj" 7).1.m_asyncJobQueue ∧
    mapKeys (asyncLoadEmplace rmOne "a.obj" 7).m_asyncResJobs = [5] ∧
    (asyncLoadEmplace rmOne "a.obj" 7).m_asyncJobQueue = [] ∧
    faultOf (asyncLoadStart (asyncLoadEmplace rmOne "a.obj" 7))
      = some Fault.emptyQueueFront ∧
    (asyncLoadPush (clearResourceManager (asyncLoadEmplace rmOne "a.obj" 7))
      "a.obj").m_asyncJobQueue = [5] ∧
    (asyncLoadPush (clearResourceManager (asyncLoadEmplace rmOne "a.obj" 7))
      "a.obj").m_asyncResJobs = [] ∧
    mapKeys (asyncLoad (asyncLoadPush (clearResourceManager
      (asyncLoadEmplace rmOne "a.obj" 7)) "a.obj") "bb.obj" 8).1.m_asyncResJobs = [6] ∧
    (asyncLoad (asyncLoadPush (clearResourceManager
      (asyncLoadEmplace rmOne "a.obj" 7)) "a.obj") "bb.obj" 8).1.m_asyncJobQueue = [5, 6] ∧
    faultOf (asyncLoadStart (asyncLoad (asyncLoadPush (clearResourceManager
      (asyncLoadEmplace rmOne "a.obj" 7)) "a.obj") "bb.obj" 8).1)
      = some Fault.endIteratorDereference := by
  decide

end MiniRM
